import Mathlib

/-!
# Depth-of-field calculator (`dof.go`): embedding and verified properties

The program computes with Go `float64` values (`millimeter` is a named
`float64`).  The embedding keeps that arithmetic exact: `F64` is the set of
IEEE 754 binary64 values, and every operation the source performs (`*`, `+`,
`/`, `math.Sqrt`, conversion of a decimal constant) is the correctly rounded
one (round to nearest, ties to even).  The language lets a compiler fuse a
multiplication into an addition and round once; the source has one place where
that can happen, the sum of squares in `diag`, and the embedding takes the way
it is evaluated (`Fusion`) as a parameter: every operation rounded on its own,
or either product fused into the addition.

A finite value is stored as sign, significand `m` and exponent `e`, and stands
for `± m * 2 ^ e / 2 ^ 1074`; the unit `2 ^ (-1074)` is the smallest positive
binary64 value, so every finite binary64 value has such a form with
`m < 2 ^ 53` and `e ≤ 2045`.
-/

namespace Dof

/-! ## binary64 arithmetic -/

/-- An IEEE 754 binary64 value: NaN, an infinity, or the finite value
`± m * 2 ^ e / 2 ^ 1074`. -/
inductive F64 where
  | nan : F64
  | inf (neg : Bool) : F64
  | fin (neg : Bool) (m : Nat) (e : Nat) : F64
  deriving DecidableEq, Repr

namespace F64

/-- The representation binary64 stores: a subnormal (`e = 0`, `m < 2 ^ 52`) or
a normal value (`2 ^ 52 ≤ m < 2 ^ 53`, `e ≤ 2045`). -/
def canonical : F64 → Bool
  | nan => true
  | inf _ => true
  | fin _ m e => decide (m < 2 ^ 53) && decide (e ≤ 2045) && (decide (2 ^ 52 ≤ m) || decide (e = 0))

/-- Binary logarithm by repeated division, by `2 ^ 64` while the number has
more than 64 bits and by `2` after that; `k` bounds the number of divisions. -/
def log2Fuel : Nat → Nat → Nat
  | 0, _ => 0
  | k + 1, n =>
    if n < 2 then 0
    else if n < 2 ^ 64 then log2Fuel k (n / 2) + 1
    else log2Fuel k (n / 2 ^ 64) + 64

/-- The binary logarithm `⌊log₂ n⌋`, with `ilog2 0 = 0`. -/
def ilog2 (n : Nat) : Nat := log2Fuel n n

/-- Round the non-negative rational `a / b` (with `b ≠ 0`) to the nearest
natural number, ties to the even one. -/
def rne (a b : Nat) : Nat :=
  if b < 2 * (a % b) ∨ (2 * (a % b) = b ∧ a / b % 2 = 1) then a / b + 1 else a / b

/-- The binary64 value of sign `neg` and magnitude `m * 2 ^ e / 2 ^ 1074`, for a
significand `m ≤ 2 ^ 53` that came out of rounding: a significand of `2 ^ 53`
is renormalised to `2 ^ 52`, and an exponent past the largest one gives an
infinity. -/
def pack (neg : Bool) (m e : Nat) : F64 :=
  let m1 := if m = 2 ^ 53 then 2 ^ 52 else m
  let e1 := if m = 2 ^ 53 then e + 1 else e
  if 2045 < e1 then inf neg else fin neg m1 e1

/-- The exponent of the binary64 value nearest to `n / d`: the one that leaves
a significand of 53 bits, and the least exponent, `0`, for a value in the
subnormal range. -/
def roundExp (n d : Nat) : Nat := ilog2 (n * 2 ^ 1074 / d) - 52

/-- The significand of the binary64 value nearest to `n / d`: the value in
units of `2 ^ roundExp / 2 ^ 1074`, rounded to nearest, ties to even. -/
def roundSig (n d : Nat) : Nat := rne (n * 2 ^ 1074) (d * 2 ^ roundExp n d)

/-- Round the non-negative rational `n / d` (with `d ≠ 0`) to the nearest
binary64 value, ties to even, and give it the sign `neg`.  Values that round
past the largest finite value become an infinity. -/
def roundRat (neg : Bool) (n d : Nat) : F64 := pack neg (roundSig n d) (roundExp n d)

/-- Conversion of the decimal constant `n / d` to binary64. -/
def ofRat (n d : Nat) : F64 := roundRat false n d

/-- Floating-point multiplication `x * y`. -/
def mul : F64 → F64 → F64
  | nan, _ => nan
  | _, nan => nan
  | inf s, inf t => inf (xor s t)
  | inf s, fin t m _ => if m = 0 then nan else inf (xor s t)
  | fin s m _, inf t => if m = 0 then nan else inf (xor s t)
  | fin s m e, fin t k f => roundRat (xor s t) (m * k * 2 ^ (e + f)) (2 ^ 2148)

/-- Floating-point division `x / y`. -/
def div : F64 → F64 → F64
  | nan, _ => nan
  | _, nan => nan
  | inf _, inf _ => nan
  | inf s, fin t _ _ => inf (xor s t)
  | fin s _ _, inf t => fin (xor s t) 0 0
  | fin s m e, fin t k f =>
    if k = 0 then (if m = 0 then nan else inf (xor s t))
    else roundRat (xor s t) (m * 2 ^ e) (k * 2 ^ f)

/-- Floating-point addition `x + y`. -/
def add : F64 → F64 → F64
  | nan, _ => nan
  | _, nan => nan
  | inf s, inf t => if s = t then inf s else nan
  | inf s, fin _ _ _ => inf s
  | fin _ _ _, inf t => inf t
  | fin s m e, fin t k f =>
    let a := m * 2 ^ e
    let b := k * 2 ^ f
    if s = t then roundRat s (a + b) (2 ^ 1074)
    else if a = b then fin false 0 0
    else if b < a then roundRat s (a - b) (2 ^ 1074)
    else roundRat t (b - a) (2 ^ 1074)

/-- The fused multiply-add `x * y + z`, which rounds once.  The Go language
allows an implementation to fuse `x*y + z` into it (the compiler does on some
architectures); the source has one place where that can happen, the sum of
squares in `diag`. -/
def fma : F64 → F64 → F64 → F64
  | fin s m e, fin t k f, fin u c g =>
    let p := m * k * 2 ^ (e + f)
    let q := c * 2 ^ g * 2 ^ 1074
    if xor s t = u then roundRat u (p + q) (2 ^ 2148)
    else if p = q then fin false 0 0
    else if q < p then roundRat (xor s t) (p - q) (2 ^ 2148)
    else roundRat u (q - p) (2 ^ 2148)
  | fin _ _ _, fin _ _ _, z => z
  | x, y, z => add (mul x y) z

/-- Binary search for the integer square root: `r` is the part found so far,
`k` the number of lower bits still to decide. -/
def isqrtBits : Nat → Nat → Nat → Nat
  | 0, _, r => r
  | k + 1, n, r => if (r + 2 ^ k) * (r + 2 ^ k) ≤ n then isqrtBits k n (r + 2 ^ k) else isqrtBits k n r

/-- Integer square root, `⌊√n⌋`. -/
def isqrt (n : Nat) : Nat := isqrtBits (ilog2 n / 2 + 1) n 0

/-- The correctly rounded square root, `math.Sqrt`.  The value is
`√(m * 2 ^ (e % 2)) * 2 ^ (e / 2) / 2 ^ 537`; the integer square root `r` is
taken with 64 extra bits, and `2 * r + 1` stands for a root strictly between
`r` and `r + 1`, which rounds the same way. -/
def sqrt : F64 → F64
  | nan => nan
  | inf s => if s then nan else inf false
  | fin s m e =>
    if m = 0 then fin s 0 0
    else if s then nan
    else
      let M := m * 2 ^ (e % 2) * 2 ^ 128
      let r := isqrt M
      roundRat false ((2 * r + (if r * r = M then 0 else 1)) * 2 ^ (e / 2)) (2 ^ 602)

/-- Positive zero, the zero value of `float64`. -/
def zero : F64 := fin false 0 0

/-- The value `2 ^ (-537)`, the least whose square is not below the smallest
positive binary64 value `2 ^ (-1074)`. -/
def tiny : F64 := fin false (2 ^ 52) 485

/-- The integer `± n`. -/
def signed (neg : Bool) (n : Nat) : Int := if neg then -(n : Int) else (n : Int)

/-- The comparison `x <= y` of Go (false when an operand is NaN). -/
def le : F64 → F64 → Bool
  | nan, _ => false
  | _, nan => false
  | inf s, inf t => s || !t
  | inf s, fin _ _ _ => s
  | fin _ _ _, inf t => !t
  | fin s m e, fin t k f => decide (signed s (m * 2 ^ e) ≤ signed t (k * 2 ^ f))

/-- The comparison `x < y` of Go (false when an operand is NaN). -/
def lt : F64 → F64 → Bool
  | nan, _ => false
  | _, nan => false
  | inf s, inf t => s && !t
  | inf s, fin _ _ _ => s
  | fin _ _ _, inf t => !t
  | fin s m e, fin t k f => decide (signed s (m * 2 ^ e) < signed t (k * 2 ^ f))

/-- The rational number a finite value stands for. -/
def toRat : F64 → Option ℚ
  | fin s m e => some ((signed s (m * 2 ^ e) : ℚ) / 2 ^ 1074)
  | _ => none

/-- Whether the value is not NaN and has its sign bit clear: `+0`, a positive
finite value or `+Inf`. -/
def nonneg : F64 → Bool
  | nan => false
  | inf s => !s
  | fin s _ _ => !s

/-- Whether the value is a zero, of either sign. -/
def isZero : F64 → Bool
  | fin _ m _ => decide (m = 0)
  | _ => false

/-- Whether the value is finite: neither NaN nor an infinity. -/
def isFinite : F64 → Bool
  | fin _ _ _ => true
  | _ => false

/-- The digits a `%.pf` verb prints for the magnitude of a finite value: the
value times `10 ^ p`, rounded to the nearest integer, ties to even. -/
def fixed (p : Nat) : F64 → Option Nat
  | fin _ m e => some (rne (m * 2 ^ e * 10 ^ p) (2 ^ 1074))
  | _ => none

end F64

/-! ## Data model -/

/-- The source's `size`: width `x` and height `y`, both `millimeter`
(a named `float64`). -/
structure size where
  x : F64
  y : F64
  deriving DecidableEq, Repr

/-- The source's `format` map literal, as the list of its key/value pairs. -/
def format : List (String × size) :=
  [("35mm", ⟨F64.ofRat 36 1, F64.ofRat 24 1⟩),
   ("aps-c-canon", ⟨F64.ofRat 225 10, F64.ofRat 15 1⟩),
   ("aps-c-fuji", ⟨F64.ofRat 236 10, F64.ofRat 156 10⟩),
   ("apx-c-generic", ⟨F64.ofRat 24 1, F64.ofRat 16 1⟩),
   ("m43", ⟨F64.ofRat 18 1, F64.ofRat 135 10⟩)]

/-- The two-result map index `s, ok := format[k]`: `none` when `ok` is false. -/
def formatLookup (k : String) : Option size := format.lookup k

/-- The one-result map index `format[k]`, which yields the zero `size` for a
key that is absent. -/
def formatIndex (k : String) : size := (formatLookup k).getD ⟨F64.zero, F64.zero⟩

/-! ## Geometry functions -/

/-- How the compiled program evaluates `s.x*s.x + s.y*s.y` in `diag`, the one
expression the language lets an implementation fuse: each operation rounded on
its own, or the first or the second product fused into the addition. -/
inductive Fusion where
  | separate : Fusion
  | fuseX : Fusion
  | fuseY : Fusion
  deriving DecidableEq, Repr

/-- The sum of squares `x*x + y*y` as the compiled program evaluates it. -/
def sumSquares (fu : Fusion) (x y : F64) : F64 :=
  match fu with
  | Fusion.separate => F64.add (F64.mul x x) (F64.mul y y)
  | Fusion.fuseX => F64.fma x x (F64.mul y y)
  | Fusion.fuseY => F64.fma y y (F64.mul x x)

/-- The source's `size.diag`: `math.Sqrt(s.x*s.x + s.y*s.y)`. -/
def size.diag (fu : Fusion) (s : size) : F64 :=
  F64.sqrt (sumSquares fu s.x s.y)

/-- The source's `size.circleOfConfusion`. -/
def size.circleOfConfusion (fu : Fusion) (s : size) : F64 :=
  let basis := F64.div (F64.ofRat 25 1000) ((formatIndex "35mm").diag fu)
  F64.mul (s.diag fu) basis

/-- The source's `size.depthOfField`:
`2.0 * (focalDistance*focalDistance) * aperture * circleOfConfusion / (focalLength*focalLength)`,
evaluated left to right. -/
def size.depthOfField (fu : Fusion) (s : size) (focalLength aperture focalDistance : F64) :
    F64 :=
  F64.div
    (F64.mul
      (F64.mul (F64.mul (F64.ofRat 2 1) (F64.mul focalDistance focalDistance)) aperture)
      (s.circleOfConfusion fu))
    (F64.mul focalLength focalLength)

/-- The formula of the specification,
`DoF = 2 × focusDistance² × aperture × circleOfConfusion / focalLength²`,
read left to right in binary64 arithmetic. -/
def dofFormula (focusDistance aperture circleOfConfusion focalLength : F64) : F64 :=
  F64.div
    (F64.mul (F64.mul (F64.mul (F64.ofRat 2 1) (F64.mul focusDistance focusDistance)) aperture)
      circleOfConfusion)
    (F64.mul focalLength focalLength)

/-! ## Command-line driver -/

/-- An operand of a formatting call. -/
inductive Arg where
  | str (s : String) : Arg
  | num (v : F64) : Arg
  | err (e : String) : Arg
  deriving DecidableEq, Repr

/-- One call of `fmt.Printf`, `fmt.Fprintf` or `log.Fatalf`: the format string
and its operands. -/
structure Call where
  fmt : String
  args : List Arg
  deriving DecidableEq, Repr

/-- What the process has done so far: the calls that wrote to `os.Stdout` and
to `os.Stderr`, the tokens handed to `strconv.ParseFloat`, and the calls that
wrote to the `io.Writer` given to `run`. -/
structure World where
  stdout : List Call
  stderr : List Call
  parsed : List String
  writer : List Call
  deriving DecidableEq, Repr

/-- What the program takes from outside its source: the result of
`strconv.ParseFloat(s, 64)` (a value, or an error text), the order in which
`range format` yields the entries of the map, and how the compiler evaluates
the sum of squares in `diag`. -/
structure Env where
  parseFloat : String → Except String F64
  rangeOrder : List (String × size)
  fusion : Fusion

/-- The outcome of a call: it returns `a`, or the process exits with a status
code inside it. -/
inductive Res (α : Type) where
  | ret (a : α) (w : World) : Res α
  | exit (code : Nat) (w : World) : Res α
  deriving DecidableEq, Repr

/-- Sequencing: continue with the value returned, unless the process exited. -/
def Res.andThen {α β : Type} : Res α → (α → World → Res β) → Res β
  | Res.ret a w, k => k a w
  | Res.exit c w, _ => Res.exit c w

/-- A call `fmt.Printf(f, args...)`, which writes to `os.Stdout`. -/
def World.printf (w : World) (f : String) (args : List Arg) : World :=
  { w with stdout := w.stdout ++ [⟨f, args⟩] }

/-- A call `fmt.Fprintf(os.Stderr, f, args...)`. -/
def World.eprintf (w : World) (f : String) (args : List Arg) : World :=
  { w with stderr := w.stderr ++ [⟨f, args⟩] }

/-- The source's `usage`: the header, then one line for each entry that
`range format` yields. -/
def usage (env : Env) (w : World) : World :=
  env.rangeOrder.foldl
    (fun acc kv => acc.eprintf "%-20s %3.1fmm x %3.1fmm\n" [Arg.str kv.1, Arg.num kv.2.x, Arg.num kv.2.y])
    (w.eprintf "usage: dof fmt\n" [])

/-- The text `usage` writes when `range format` yields `order`: the calls on
`os.Stderr`, in order. -/
def usageText (order : List (String × size)) : List Call :=
  ⟨"usage: dof fmt\n", []⟩ ::
    order.map fun kv => ⟨"%-20s %3.1fmm x %3.1fmm\n", [Arg.str kv.1, Arg.num kv.2.x, Arg.num kv.2.y]⟩

/-- The four lines `run` prints for a recognised format `name` of size `s`. -/
def geometryLines (fu : Fusion) (name : String) (s : size) : List Call :=
  [⟨"format               %s\n", [Arg.str name]⟩,
   ⟨"image size           %3.1fmm x %3.1fmm\n", [Arg.num s.x, Arg.num s.y]⟩,
   ⟨"diagonal             %.3fmm\n", [Arg.num (s.diag fu)]⟩,
   ⟨"circle of confusion  %.6fmm\n", [Arg.num (s.circleOfConfusion fu)]⟩]

/-- The four lines `run` prints for the lens: focal length, aperture, focus
distance and depth of field, all in millimetres but the aperture. -/
def lensLines (focalLength aperture focusDistance depth : F64) : List Call :=
  [⟨"focal length         %.1fmm\n", [Arg.num focalLength]⟩,
   ⟨"aperture             f/%.1f\n", [Arg.num aperture]⟩,
   ⟨"focus distance       %.1fmm\n", [Arg.num focusDistance]⟩,
   ⟨"depth of field       %.1fmm\n", [Arg.num depth]⟩]

/-- The source's `usage2`. -/
def usage2 (w : World) : World :=
  w.eprintf "usage: dof fmt focalLength aperture focusDistance\n" []

/-- The source's `parse`: `strconv.ParseFloat`, and on an error `log.Fatalf`,
which writes the message to `os.Stderr` and exits with status 1. -/
def parse (env : Env) (s : String) (w : World) : Res F64 :=
  let w1 := { w with parsed := w.parsed ++ [s] }
  match env.parseFloat s with
  | Except.ok v => Res.ret v w1
  | Except.error e => Res.exit 1 (w1.eprintf "cannot parse %s: %v" [Arg.str s, Arg.err e])

/-- The source's `run`.  `stdout` is what the writer passed in holds; the
result is the error returned (`none` for `nil`). -/
def run (env : Env) (args : List String) (stdout : List Call) : Res (Option String) :=
  let w : World := ⟨[], [], [], stdout⟩
  if args.length < 2 then Res.ret none (usage env w)
  else
    match formatLookup (args.getD 1 "") with
    | none => Res.ret none (usage env w)
    | some s =>
      let w := w.printf "format               %s\n" [Arg.str (args.getD 1 "")]
      let w := w.printf "image size           %3.1fmm x %3.1fmm\n" [Arg.num s.x, Arg.num s.y]
      let w := w.printf "diagonal             %.3fmm\n" [Arg.num (s.diag env.fusion)]
      let w := w.printf "circle of confusion  %.6fmm\n"
        [Arg.num (s.circleOfConfusion env.fusion)]
      if args.length = 2 then Res.ret none w
      else if args.length < 5 then Res.ret none (usage2 w)
      else
        (parse env (args.getD 2 "") w).andThen fun focalLength w =>
        (parse env (args.getD 3 "") w).andThen fun aperture w =>
        (parse env (args.getD 4 "") w).andThen fun metres w =>
        let focusDistance := F64.mul metres (F64.ofRat 1000 1)
        let w := w.printf "focal length         %.1fmm\n" [Arg.num focalLength]
        let w := w.printf "aperture             f/%.1f\n" [Arg.num aperture]
        let w := w.printf "focus distance       %.1fmm\n" [Arg.num focusDistance]
        let w := w.printf "depth of field       %.1fmm\n"
          [Arg.num (s.depthOfField env.fusion focalLength aperture focusDistance)]
        Res.ret none w

/-- The source's `main`, given `os.Args`: the exit status of the process and
what it has written.  `os.Stdout` is the writer handed to `run`. -/
def main (env : Env) (osArgs : List String) : Nat × World :=
  match run env osArgs [] with
  | Res.ret none w => (0, w)
  | Res.ret (some e) w => (1, w.eprintf "%s\n" [Arg.err e])
  | Res.exit c w => (c, w)

/-- The line `usage2` writes. -/
def usage2Text : List Call :=
  [⟨"usage: dof fmt focalLength aperture focusDistance\n", []⟩]

/-- The diagnostic `log.Fatalf` writes in `parse` for the token `t` that
`strconv.ParseFloat` rejected with the error `e`. -/
def fatalLine (t e : String) : Call := ⟨"cannot parse %s: %v", [Arg.str t, Arg.err e]⟩

/-- The world an outcome carries. -/
def Res.world {α : Type} : Res α → World
  | Res.ret _ w => w
  | Res.exit _ w => w

/-- The same outcome with the world changed by `f`. -/
def Res.mapWorld {α : Type} (f : World → World) : Res α → Res α
  | Res.ret a w => Res.ret a (f w)
  | Res.exit c w => Res.exit c (f w)

/-- Whether a call writes usage text: the header or a format line of `usage`,
or the line of `usage2`. -/
def isUsageCall (c : Call) : Bool :=
  decide (c.fmt ∈ ["usage: dof fmt\n", "%-20s %3.1fmm x %3.1fmm\n",
    "usage: dof fmt focalLength aperture focusDistance\n"])

/-- Whether a call writes a result line: format, image size, diagonal, circle of
confusion, focal length, aperture, focus distance or depth of field. -/
def isResultCall (c : Call) : Bool :=
  decide (c.fmt ∈ ["format               %s\n", "image size           %3.1fmm x %3.1fmm\n",
    "diagonal             %.3fmm\n", "circle of confusion  %.6fmm\n",
    "focal length         %.1fmm\n", "aperture             f/%.1f\n",
    "focus distance       %.1fmm\n", "depth of field       %.1fmm\n"])

/-- The states of the driver: the format listing, the geometry of a format, the
second usage message, the lens computation carried through, and the fatal exit
of `log.Fatalf` on a lens token that does not parse. -/
inductive State where
  | listing : State
  | geometry : State
  | lensUsage : State
  | computed : State
  | fatal : State
  deriving DecidableEq, Repr

/-- The state a run ended in, read off from what it did: the fatal exit when
the process exited inside `run`; otherwise the lens computation when a depth of
field line was printed, the second usage message when that is what standard
error holds, the geometry when standard error is empty, and the format listing
in the remaining case. -/
def endState : Res (Option String) → State
  | Res.exit _ _ => State.fatal
  | Res.ret _ w =>
    if w.stdout.any (fun c => decide (c.fmt = "depth of field       %.1fmm\n")) then
      State.computed
    else if w.stderr = usage2Text then State.lensUsage
    else if w.stderr = [] then State.geometry
    else State.listing

/-- Whether `strconv.ParseFloat` accepts the token `t`. -/
def Env.accepts (env : Env) (t : String) : Bool :=
  match env.parseFloat t with
  | Except.ok _ => true
  | Except.error _ => false

/-- Whether the three lens tokens `args[2]`, `args[3]` and `args[4]` all
parse. -/
def lensTokensParse (env : Env) (args : List String) : Bool :=
  env.accepts (args.getD 2 "") && env.accepts (args.getD 3 "") && env.accepts (args.getD 4 "")

/-- The value of a string of decimal digits, `none` when a character is not a
digit. -/
def digitsValue : List Char → Option Nat
  | [] => some 0
  | c :: cs =>
    if c.isDigit then (digitsValue cs).map fun v => (c.toNat - 48) * 10 ^ cs.length + v else none

/-- A parser for plain decimal tokens (`35`, `4.0`, `-0.5`): an optional sign,
digits, and an optional fraction, rounded to the nearest binary64 value as
`strconv.ParseFloat` rounds them.  Every other token is reported as an error. -/
def parseDecimal (s : String) : Except String F64 :=
  let cs := s.toList
  let neg := cs.head? = some '-'
  let body := if cs.head? = some '-' ∨ cs.head? = some '+' then cs.tail else cs
  let ip := body.takeWhile Char.isDigit
  let rest := body.dropWhile Char.isDigit
  let fp := rest.tail
  if (rest = [] ∨ rest.head? = some '.') ∧ ip ++ fp ≠ [] then
    match digitsValue (ip ++ fp) with
    | some n =>
      match F64.roundRat neg n (10 ^ fp.length) with
      | F64.inf _ => Except.error "value out of range"
      | v => Except.ok v
    | none => Except.error "invalid syntax"
  else Except.error "invalid syntax"

/-- An environment for examples: plain decimal tokens parse, `range` yields the
table in the order of the map literal, and nothing is fused. -/
def decimalEnv : Env := ⟨parseDecimal, format, Fusion.separate⟩

/-! ## Values and accuracy -/

/-- The rational number a finite value stands for, and `0` for NaN and the
infinities. -/
def F64.val : F64 → ℚ
  | F64.fin s m e => (F64.signed s (m * 2 ^ e) : ℚ) / 2 ^ 1074
  | _ => 0

/-- Whether the value is a positive normal number: finite, with the sign bit
clear and a significand of 53 bits, so neither zero nor subnormal. -/
def F64.normal : F64 → Bool
  | F64.fin false m _ => decide (2 ^ 52 ≤ m)
  | _ => false

/-- The factor by which one rounding can move a positive normal value:
`1 / (1 - 2 ^ (-53))`. -/
def F64.step : ℚ := 1 + 1 / (2 ^ 53 - 1)

/-- Two rationals that agree up to `k` roundings: each is at most the other
times `step ^ k`. -/
structure Close (k : Nat) (a b : ℚ) : Prop where
  le : a ≤ b * F64.step ^ k
  ge : b ≤ a * F64.step ^ k

/-- The formula `2 × d² × N × c / f²` over the rationals, without rounding. -/
def dofExact (focusDistance aperture circleOfConfusion focalLength : ℚ) : ℚ :=
  2 * focusDistance ^ 2 * aperture * circleOfConfusion / focalLength ^ 2

/-- Whether `depthOfField` runs in the normal range: each of its six
floating-point results (`d*d`, `2.0 * (d*d)`, the product with the aperture,
the product with the circle of confusion, `f*f` and the quotient) is a positive
normal number, so nothing overflows or underflows on the way. -/
def dofRegular (focusDistance aperture circleOfConfusion focalLength : F64) : Bool :=
  (F64.mul focusDistance focusDistance).normal
    && (F64.mul (F64.ofRat 2 1) (F64.mul focusDistance focusDistance)).normal
    && (F64.mul (F64.mul (F64.ofRat 2 1) (F64.mul focusDistance focusDistance))
          aperture).normal
    && (F64.mul
          (F64.mul (F64.mul (F64.ofRat 2 1) (F64.mul focusDistance focusDistance)) aperture)
          circleOfConfusion).normal
    && (F64.mul focalLength focalLength).normal
    && (dofFormula focusDistance aperture circleOfConfusion focalLength).normal

/-- The basis of the circle of confusion, `0.025 / format["35mm"].diag()`. -/
def cocBasis (fu : Fusion) : F64 :=
  F64.div (F64.ofRat 25 1000) ((formatIndex "35mm").diag fu)

/-- Whether the circle of confusion of `s` is a positive normal number and the
depth of field computed from it runs in the normal range. -/
def size.regular (fu : Fusion) (s : size) (focalLength aperture focalDistance : F64) : Bool :=
  (s.circleOfConfusion fu).normal
    && dofRegular focalDistance aperture (s.circleOfConfusion fu) focalLength

/-- The evaluation that treats `x*x + y*y` as the given one treats `y*y + x*x`:
with width and height exchanged, the other product is the fused one. -/
def Fusion.swap : Fusion → Fusion
  | Fusion.separate => Fusion.separate
  | Fusion.fuseX => Fusion.fuseY
  | Fusion.fuseY => Fusion.fuseX

/-- Whether the value lies between `2 ^ (-100)` and `2 ^ 100`, in particular
is finite and positive. -/
def F64.moderate (x : F64) : Prop := 1 / 2 ^ 100 ≤ x.val ∧ x.val ≤ 2 ^ 100

/-! ## Theorems -/

/-! ### Rounding -/

theorem F64.ilog2_zero : F64.ilog2 0 = 0 := rfl

theorem F64.log2Fuel_spec (k : Nat) : ∀ n : Nat, n ≤ k → n ≠ 0 →
    2 ^ F64.log2Fuel k n ≤ n ∧ n < 2 ^ (F64.log2Fuel k n + 1) := by
  induction k with
  | zero => intro n h0 h1; omega
  | succ k ih =>
    intro n hn h0
    unfold F64.log2Fuel
    by_cases h2 : n < 2
    · have : n = 1 := by omega
      subst this
      simp
    · rw [if_neg h2]
      by_cases h64 : n < 2 ^ 64
      · rw [if_pos h64]
        have hk : n / 2 ≤ k := by omega
        have hz : n / 2 ≠ 0 := by omega
        obtain ⟨a, b⟩ := ih (n / 2) hk hz
        constructor
        · rw [pow_succ]; omega
        · rw [pow_succ]; omega
      · rw [if_neg h64]
        have hp : 0 < 2 ^ 64 := Nat.pow_pos (by decide)
        have hz : n / 2 ^ 64 ≠ 0 := by
          have : 0 < n / 2 ^ 64 := Nat.div_pos (by omega) hp
          omega
        have hk : n / 2 ^ 64 ≤ k := by
          have : n / 2 ^ 64 < n := Nat.div_lt_self (by omega) (by decide)
          omega
        obtain ⟨a, b⟩ := ih (n / 2 ^ 64) hk hz
        constructor
        · rw [pow_add]
          exact (Nat.le_div_iff_mul_le hp).1 a
        · have : F64.log2Fuel k (n / 2 ^ 64) + 64 + 1 = F64.log2Fuel k (n / 2 ^ 64) + 1 + 64 := by
            omega
          rw [this, pow_add]
          exact (Nat.div_lt_iff_lt_mul hp).1 b

theorem F64.ilog2_spec (n : Nat) (h : n ≠ 0) :
    2 ^ F64.ilog2 n ≤ n ∧ n < 2 ^ (F64.ilog2 n + 1) :=
  F64.log2Fuel_spec n n (le_refl n) h

theorem F64.ilog2_mono {a b : Nat} (h : a ≤ b) : F64.ilog2 a ≤ F64.ilog2 b := by
  by_cases ha : a = 0
  · subst ha; rw [F64.ilog2_zero]; exact Nat.zero_le _
  · have hb : b ≠ 0 := by omega
    have h1 := (F64.ilog2_spec a ha).1
    have h2 := (F64.ilog2_spec b hb).2
    have h3 : 2 ^ F64.ilog2 a < 2 ^ (F64.ilog2 b + 1) := lt_of_le_of_lt (le_trans h1 h) h2
    have h4 := (Nat.pow_lt_pow_iff_right (by decide : 1 < 2)).1 h3
    omega

theorem F64.rne_zero (b : Nat) : F64.rne 0 b = 0 := by
  simp [F64.rne]

theorem F64.div_le_rne (a b : Nat) : a / b ≤ F64.rne a b := by
  unfold F64.rne; split <;> omega

theorem F64.rne_le_succ (a b : Nat) : F64.rne a b ≤ a / b + 1 := by
  unfold F64.rne; split <;> omega

/-- Quotients are ordered as the fractions are. -/
theorem F64.div_le_div_of_cross {a1 b1 a2 b2 : Nat} (h1 : 0 < b1) (h2 : 0 < b2)
    (h : a1 * b2 ≤ a2 * b1) : a1 / b1 ≤ a2 / b2 := by
  rw [Nat.le_div_iff_mul_le h2]
  have h3 : a1 / b1 * b1 ≤ a1 := Nat.div_mul_le_self a1 b1
  have h4 : a1 / b1 * b2 * b1 ≤ a2 * b1 := by
    calc a1 / b1 * b2 * b1 = a1 / b1 * b1 * b2 := by ring
      _ ≤ a1 * b2 := Nat.mul_le_mul_right b2 h3
      _ ≤ a2 * b1 := h
  exact Nat.le_of_mul_le_mul_right h4 h1

/-- Rounding to nearest, ties to even, is monotone in the fraction. -/
theorem F64.rne_mono {a1 b1 a2 b2 : Nat} (h1 : 0 < b1) (h2 : 0 < b2)
    (h : a1 * b2 ≤ a2 * b1) : F64.rne a1 b1 ≤ F64.rne a2 b2 := by
  have hq := F64.div_le_div_of_cross h1 h2 h
  rcases Nat.lt_or_ge (a1 / b1) (a2 / b2) with hlt | hge
  · exact le_trans (F64.rne_le_succ a1 b1) (le_trans hlt (F64.div_le_rne a2 b2))
  · have heq : a1 / b1 = a2 / b2 := le_antisymm hq hge
    have e1 : b1 * (a1 / b1) + a1 % b1 = a1 := Nat.div_add_mod a1 b1
    have e2 : b2 * (a2 / b2) + a2 % b2 = a2 := Nat.div_add_mod a2 b2
    have hr : a1 % b1 * b2 ≤ a2 % b2 * b1 := by
      have : (b1 * (a1 / b1) + a1 % b1) * b2 ≤ (b2 * (a2 / b2) + a2 % b2) * b1 := by
        rw [e1, e2]; exact h
      rw [heq] at this
      nlinarith [this]
    unfold F64.rne
    rw [heq]
    by_cases up1 : b1 < 2 * (a1 % b1) ∨ (2 * (a1 % b1) = b1 ∧ a2 / b2 % 2 = 1)
    · have up2 : b2 < 2 * (a2 % b2) ∨ (2 * (a2 % b2) = b2 ∧ a2 / b2 % 2 = 1) := by
        rcases up1 with hlt | ⟨he, ho⟩
        · left
          have : b1 * b2 < 2 * (a2 % b2) * b1 := by nlinarith [hlt, hr]
          have : b2 * b1 < 2 * (a2 % b2) * b1 := by linarith
          exact Nat.lt_of_mul_lt_mul_right this
        · have : b2 * b1 ≤ 2 * (a2 % b2) * b1 := by nlinarith [he, hr]
          have hle : b2 ≤ 2 * (a2 % b2) := Nat.le_of_mul_le_mul_right this h1
          rcases Nat.lt_or_ge b2 (2 * (a2 % b2)) with hl | hg
          · exact Or.inl hl
          · exact Or.inr ⟨le_antisymm hg hle, ho⟩
      rw [if_pos up1, if_pos up2]
    · rw [if_neg up1]
      split <;> omega

theorem F64.roundRat_zero (neg : Bool) (d : Nat) : F64.roundRat neg 0 d = F64.fin neg 0 0 := by
  unfold F64.roundRat F64.roundSig F64.roundExp
  simp only [Nat.zero_mul, Nat.zero_div, F64.ilog2_zero, F64.rne_zero]
  simp [F64.pack]

theorem F64.mul_self_of_isZero (x : F64) (h : x.isZero = true) :
    F64.mul x x = F64.fin false 0 0 := by
  cases x with
  | nan => simp [F64.isZero] at h
  | inf s => simp [F64.isZero] at h
  | fin s m e =>
    have hm : m = 0 := by simpa [F64.isZero] using h
    subst hm
    show F64.roundRat (xor s s) (0 * 0 * 2 ^ (e + e)) (2 ^ 2148) = _
    simp only [Nat.zero_mul, F64.roundRat_zero]
    cases s <;> rfl

theorem F64.div_zero_not_finite (x : F64) : (F64.div x (F64.fin false 0 0)).isFinite = false := by
  cases x with
  | nan => rfl
  | inf s => rfl
  | fin s m e =>
    by_cases hm : m = 0 <;> simp [F64.div, hm, F64.isFinite]

theorem F64.two_pow_pos (e : Nat) : 0 < 2 ^ e := Nat.pow_pos (by decide)

theorem F64.two_pow_le {a b : Nat} (h : a ≤ b) : 2 ^ a ≤ 2 ^ b :=
  Nat.pow_le_pow_right Nat.two_pos h

/-- A rounded significand at or past the overflow threshold packs to an
infinity. -/
theorem F64.pack_inf (neg : Bool) (m e : Nat) (hm : m ≤ 2 ^ 53)
    (h : 2 ^ 2098 ≤ m * 2 ^ e) : F64.pack neg m e = F64.inf neg := by
  have key : 2045 < (if m = 2 ^ 53 then e + 1 else e) := by
    split
    · next h53 =>
      rw [h53, ← pow_add] at h
      have := (Nat.pow_le_pow_iff_right (by decide : 1 < 2)).1 h
      omega
    · next hne =>
      have hlt : m < 2 ^ 53 := lt_of_le_of_ne hm hne
      have h1 : m * 2 ^ e < 2 ^ 53 * 2 ^ e := Nat.mul_lt_mul_of_pos_right hlt (F64.two_pow_pos e)
      rw [← pow_add] at h1
      have h2 := (Nat.pow_lt_pow_iff_right (by decide : 1 < 2)).1 (lt_of_le_of_lt h h1)
      omega
  unfold F64.pack
  simp only
  rw [if_pos key]

/-- Below the overflow threshold, packing keeps the magnitude. -/
theorem F64.pack_fin (neg : Bool) (m e : Nat) (hinv : e = 0 ∨ 2 ^ 52 ≤ m)
    (h : m * 2 ^ e < 2 ^ 2098) :
    ∃ m1 e1, F64.pack neg m e = F64.fin neg m1 e1 ∧ m1 * 2 ^ e1 = m * 2 ^ e := by
  by_cases h53 : m = 2 ^ 53
  · have he : e + 1 ≤ 2045 := by
      rw [h53, ← pow_add] at h
      have := (Nat.pow_lt_pow_iff_right (by decide : 1 < 2)).1 h
      omega
    refine ⟨2 ^ 52, e + 1, ?_, ?_⟩
    · unfold F64.pack
      simp only
      rw [if_pos h53, if_pos h53, if_neg (by omega)]
    · rw [h53, pow_succ]; ring
  · have he : e ≤ 2045 := by
      by_contra hc
      have hc : 2046 ≤ e := by omega
      have hm : 2 ^ 52 ≤ m := by
        rcases hinv with h0 | h0
        · omega
        · exact h0
      have h0 : (2 : Nat) ^ 2098 = 2 ^ 52 * 2 ^ 2046 := by norm_num
      have h1 : 2 ^ 2098 ≤ m * 2 ^ e := by
        rw [h0]
        exact Nat.mul_le_mul hm (F64.two_pow_le hc)
      exact absurd (lt_of_le_of_lt h1 h) (lt_irrefl _)
    refine ⟨m, e, ?_, rfl⟩
    unfold F64.pack
    simp only
    rw [if_neg h53, if_neg h53, if_neg (by omega)]

/-- The significand `roundRat` rounds to has at most 53 bits before
renormalisation, and at least 53 bits above the subnormal range. -/
theorem F64.roundSig_bounds (n d : Nat) :
    F64.roundSig n d ≤ 2 ^ 53 ∧ (F64.roundExp n d = 0 ∨ 2 ^ 52 ≤ F64.roundSig n d) := by
  have hdiv : n * 2 ^ 1074 / (d * 2 ^ F64.roundExp n d)
      = n * 2 ^ 1074 / d / 2 ^ F64.roundExp n d := (Nat.div_div_eq_div_mul _ _ _).symm
  constructor
  · have hlt : n * 2 ^ 1074 / d / 2 ^ F64.roundExp n d < 2 ^ 53 := by
      rw [Nat.div_lt_iff_lt_mul (F64.two_pow_pos _), ← pow_add]
      by_cases hQ : n * 2 ^ 1074 / d = 0
      · rw [hQ]; exact F64.two_pow_pos _
      · have h2 := (F64.ilog2_spec _ hQ).2
        refine lt_of_lt_of_le h2 (Nat.pow_le_pow_right (by decide) ?_)
        unfold F64.roundExp
        omega
    have := F64.rne_le_succ (n * 2 ^ 1074) (d * 2 ^ F64.roundExp n d)
    unfold F64.roundSig
    omega
  · by_cases he : F64.roundExp n d = 0
    · exact Or.inl he
    · right
      have hQ : n * 2 ^ 1074 / d ≠ 0 := by
        intro h0
        apply he
        unfold F64.roundExp
        rw [h0, F64.ilog2_zero]
      have h1 := (F64.ilog2_spec _ hQ).1
      have hl : F64.ilog2 (n * 2 ^ 1074 / d) = 52 + F64.roundExp n d := by
        unfold F64.roundExp at he ⊢
        omega
      rw [hl, pow_add] at h1
      have h3 : 2 ^ 52 ≤ n * 2 ^ 1074 / d / 2 ^ F64.roundExp n d :=
        (Nat.le_div_iff_mul_le (F64.two_pow_pos _)).2 h1
      rw [← hdiv] at h3
      exact le_trans h3 (F64.div_le_rne _ _)

/-- The magnitude `roundRat` rounds to is monotone in the fraction. -/
theorem F64.roundVal_mono {n1 d1 n2 d2 : Nat} (h1 : 0 < d1) (h2 : 0 < d2)
    (h : n1 * d2 ≤ n2 * d1) :
    F64.roundSig n1 d1 * 2 ^ F64.roundExp n1 d1 ≤ F64.roundSig n2 d2 * 2 ^ F64.roundExp n2 d2 := by
  have hN : n1 * 2 ^ 1074 * d2 ≤ n2 * 2 ^ 1074 * d1 := by
    calc n1 * 2 ^ 1074 * d2 = n1 * d2 * 2 ^ 1074 := by ring
      _ ≤ n2 * d1 * 2 ^ 1074 := Nat.mul_le_mul_right _ h
      _ = n2 * 2 ^ 1074 * d1 := by ring
  have hQ := F64.div_le_div_of_cross h1 h2 hN
  have hl := F64.ilog2_mono hQ
  have he : F64.roundExp n1 d1 ≤ F64.roundExp n2 d2 := by
    unfold F64.roundExp
    omega
  rcases Nat.lt_or_ge (F64.roundExp n1 d1) (F64.roundExp n2 d2) with hlt | hge
  · have b1 := (F64.roundSig_bounds n1 d1).1
    have b2 : 2 ^ 52 ≤ F64.roundSig n2 d2 := by
      rcases (F64.roundSig_bounds n2 d2).2 with h0 | h0
      · omega
      · exact h0
    calc F64.roundSig n1 d1 * 2 ^ F64.roundExp n1 d1
        ≤ 2 ^ 53 * 2 ^ F64.roundExp n1 d1 := Nat.mul_le_mul_right _ b1
      _ = 2 ^ 52 * 2 ^ (F64.roundExp n1 d1 + 1) := by rw [pow_succ, pow_succ]; ring
      _ ≤ 2 ^ 52 * 2 ^ F64.roundExp n2 d2 :=
          Nat.mul_le_mul_left _ (Nat.pow_le_pow_right (by decide) hlt)
      _ ≤ F64.roundSig n2 d2 * 2 ^ F64.roundExp n2 d2 := Nat.mul_le_mul_right _ b2
  · have heq : F64.roundExp n1 d1 = F64.roundExp n2 d2 := le_antisymm he hge
    have hm : F64.roundSig n1 d1 ≤ F64.roundSig n2 d2 := by
      unfold F64.roundSig
      rw [heq]
      apply F64.rne_mono (Nat.mul_pos h1 (F64.two_pow_pos _)) (Nat.mul_pos h2 (F64.two_pow_pos _))
      calc n1 * 2 ^ 1074 * (d2 * 2 ^ F64.roundExp n2 d2)
          = n1 * 2 ^ 1074 * d2 * 2 ^ F64.roundExp n2 d2 := by ring
        _ ≤ n2 * 2 ^ 1074 * d1 * 2 ^ F64.roundExp n2 d2 := Nat.mul_le_mul_right _ hN
        _ = n2 * 2 ^ 1074 * (d1 * 2 ^ F64.roundExp n2 d2) := by ring
    rw [heq]
    exact Nat.mul_le_mul_right _ hm

/-- The result of `rne` is within half a unit of the fraction. -/
theorem F64.rne_nearest (a b : Nat) (hb : 0 < b) :
    2 * a ≤ 2 * (F64.rne a b * b) + b ∧ 2 * (F64.rne a b * b) ≤ 2 * a + b := by
  have e : b * (a / b) + a % b = a := Nat.div_add_mod a b
  have hr : a % b < b := Nat.mod_lt a hb
  have hc : a / b * b = b * (a / b) := Nat.mul_comm _ _
  unfold F64.rne
  split
  · next h =>
    rw [Nat.add_mul, Nat.one_mul, hc]
    rcases h with h | ⟨h, _⟩ <;> omega
  · next h =>
    rw [hc]
    have : ¬ b < 2 * (a % b) := fun h1 => h (Or.inl h1)
    omega

/-- Rounding is to nearest: the magnitude `roundRat` rounds to is within half a
unit in the last place of the fraction. -/
theorem F64.roundRat_nearest (n d : Nat) (hd : 0 < d) :
    2 * (n * 2 ^ 1074)
        ≤ 2 * (F64.roundSig n d * (d * 2 ^ F64.roundExp n d)) + d * 2 ^ F64.roundExp n d
      ∧ 2 * (F64.roundSig n d * (d * 2 ^ F64.roundExp n d))
        ≤ 2 * (n * 2 ^ 1074) + d * 2 ^ F64.roundExp n d :=
  F64.rne_nearest _ _ (Nat.mul_pos hd (F64.two_pow_pos _))

/-- The invariant of the binary search for the square root. -/
theorem F64.isqrtBits_spec (k : Nat) : ∀ n r : Nat, r * r ≤ n → n < (r + 2 ^ k) * (r + 2 ^ k) →
    F64.isqrtBits k n r * F64.isqrtBits k n r ≤ n
      ∧ n < (F64.isqrtBits k n r + 1) * (F64.isqrtBits k n r + 1) := by
  induction k with
  | zero =>
    intro n r h1 h2
    simpa [F64.isqrtBits] using ⟨h1, h2⟩
  | succ k ih =>
    intro n r h1 h2
    unfold F64.isqrtBits
    split
    · next hc =>
      apply ih _ _ hc
      have : r + 2 ^ k + 2 ^ k = r + 2 ^ (k + 1) := by rw [pow_succ]; omega
      rw [this]; exact h2
    · next hc =>
      exact ih _ _ h1 (by omega)

/-- The integer square root is the floor of the square root. -/
theorem F64.isqrt_spec (n : Nat) :
    F64.isqrt n * F64.isqrt n ≤ n ∧ n < (F64.isqrt n + 1) * (F64.isqrt n + 1) := by
  unfold F64.isqrt
  apply F64.isqrtBits_spec _ _ _ (Nat.zero_le _)
  rw [Nat.zero_add, ← pow_add]
  by_cases h : n = 0
  · subst h; exact F64.two_pow_pos _
  · refine lt_of_lt_of_le (F64.ilog2_spec n h).2 (F64.two_pow_le ?_)
    omega

/-- Packing a rounded significand gives a value binary64 stores. -/
theorem F64.pack_canonical (neg : Bool) (m e : Nat) (hm : m ≤ 2 ^ 53)
    (hinv : e = 0 ∨ 2 ^ 52 ≤ m) : (F64.pack neg m e).canonical = true := by
  unfold F64.pack
  simp only
  by_cases h53 : m = 2 ^ 53
  · rw [if_pos h53, if_pos h53]
    split
    · rfl
    · next he =>
      simp only [F64.canonical, Bool.and_eq_true, Bool.or_eq_true, decide_eq_true_eq]
      omega
  · rw [if_neg h53, if_neg h53]
    split
    · rfl
    · next he =>
      simp only [F64.canonical, Bool.and_eq_true, Bool.or_eq_true, decide_eq_true_eq]
      omega

/-- Every rounded value is one binary64 stores. -/
theorem F64.roundRat_canonical (neg : Bool) (n d : Nat) :
    (F64.roundRat neg n d).canonical = true :=
  F64.pack_canonical neg _ _ (F64.roundSig_bounds n d).1 (F64.roundSig_bounds n d).2

/-! ### Order -/

theorem F64.nonneg_cases {x : F64} (h : x.nonneg = true) :
    x = F64.inf false ∨ ∃ m e, x = F64.fin false m e := by
  cases x with
  | nan => simp [F64.nonneg] at h
  | inf s => left; simp [F64.nonneg] at h; rw [h]
  | fin s m e => right; simp [F64.nonneg] at h; exact ⟨m, e, by rw [h]⟩

theorem F64.le_fin_iff (m e k f : Nat) :
    F64.le (F64.fin false m e) (F64.fin false k f) = true ↔ m * 2 ^ e ≤ k * 2 ^ f := by
  simp only [F64.le, F64.signed, decide_eq_true_eq, Bool.false_eq_true, if_false]
  exact Int.ofNat_le

theorem F64.lt_zero_fin_iff (m e : Nat) :
    F64.lt F64.zero (F64.fin false m e) = true ↔ 0 < m := by
  simp only [F64.lt, F64.zero, F64.signed, decide_eq_true_eq, Bool.false_eq_true, if_false]
  rw [Nat.zero_mul]
  constructor
  · intro h
    have h1 : 0 < m * 2 ^ e := Int.ofNat_lt.1 h
    exact Nat.pos_of_mul_pos_right h1
  · intro h
    exact Int.ofNat_lt.2 (Nat.mul_pos h (F64.two_pow_pos e))

theorem F64.le_inf_of_nonneg {x : F64} (h : x.nonneg = true) : F64.le x (F64.inf false) = true := by
  rcases F64.nonneg_cases h with rfl | ⟨m, e, rfl⟩ <;> rfl

theorem F64.zero_le_of_nonneg {x : F64} (h : x.nonneg = true) :
    F64.le (F64.fin false 0 0) x = true := by
  rcases F64.nonneg_cases h with rfl | ⟨m, e, rfl⟩
  · rfl
  · rw [F64.le_fin_iff]; omega

theorem F64.nonneg_of_lt_zero {x : F64} (h : F64.lt F64.zero x = true) : x.nonneg = true := by
  cases x with
  | nan => simp [F64.lt, F64.zero] at h
  | inf s => simpa [F64.lt, F64.zero, F64.nonneg] using h
  | fin s m e =>
    cases s with
    | false => rfl
    | true =>
      exfalso
      simp only [F64.lt, F64.zero, F64.signed, decide_eq_true_eq, Bool.false_eq_true, if_false,
        if_true] at h
      have h1 : (0 : Int) ≤ ((m * 2 ^ e : Nat) : Int) := Int.ofNat_nonneg _
      have h2 : ((0 * 2 ^ 0 : Nat) : Int) = 0 := by simp
      omega

theorem F64.pack_nonneg (m e : Nat) : (F64.pack false m e).nonneg = true := by
  unfold F64.pack
  simp only
  split <;> split <;> rfl

theorem F64.roundRat_nonneg (n d : Nat) : (F64.roundRat false n d).nonneg = true :=
  F64.pack_nonneg _ _

/-- Rounding is monotone: a smaller fraction does not round to a larger
binary64 value. -/
theorem F64.roundRat_le {n1 d1 n2 d2 : Nat} (h1 : 0 < d1) (h2 : 0 < d2)
    (h : n1 * d2 ≤ n2 * d1) :
    F64.le (F64.roundRat false n1 d1) (F64.roundRat false n2 d2) = true := by
  have hv := F64.roundVal_mono h1 h2 h
  rcases Nat.lt_or_ge (F64.roundSig n2 d2 * 2 ^ F64.roundExp n2 d2) (2 ^ 2098) with hlt | hge
  · obtain ⟨m2, e2, p2, v2⟩ := F64.pack_fin false _ _ (F64.roundSig_bounds n2 d2).2 hlt
    obtain ⟨m1, e1, p1, v1⟩ := F64.pack_fin false _ _ (F64.roundSig_bounds n1 d1).2
      (lt_of_le_of_lt hv hlt)
    unfold F64.roundRat
    rw [p1, p2, F64.le_fin_iff, v1, v2]
    exact hv
  · have p2 := F64.pack_inf false _ _ (F64.roundSig_bounds n2 d2).1 hge
    unfold F64.roundRat at *
    rw [p2]
    exact F64.le_inf_of_nonneg (F64.pack_nonneg _ _)

/-- A fraction of at least one unit `2 ^ (-1074)` rounds to a positive
value. -/
theorem F64.roundRat_pos (n d : Nat) (hd : 0 < d) (h : d ≤ n * 2 ^ 1074) :
    F64.lt F64.zero (F64.roundRat false n d) = true := by
  have hQ : n * 2 ^ 1074 / d ≠ 0 := by
    have : 0 < n * 2 ^ 1074 / d := Nat.div_pos h hd
    omega
  have h1 := (F64.ilog2_spec _ hQ).1
  have h2 : 2 ^ F64.roundExp n d ≤ 2 ^ F64.ilog2 (n * 2 ^ 1074 / d) :=
    Nat.pow_le_pow_right (by decide) (Nat.sub_le _ _)
  have hs : d * 2 ^ F64.roundExp n d ≤ n * 2 ^ 1074 :=
    calc d * 2 ^ F64.roundExp n d ≤ d * (n * 2 ^ 1074 / d) :=
          Nat.mul_le_mul_left d (le_trans h2 h1)
      _ ≤ n * 2 ^ 1074 := Nat.mul_div_le _ d
  have hm : 1 ≤ F64.roundSig n d :=
    le_trans (Nat.div_pos hs (Nat.mul_pos hd (F64.two_pow_pos _))) (F64.div_le_rne _ _)
  rcases Nat.lt_or_ge (F64.roundSig n d * 2 ^ F64.roundExp n d) (2 ^ 2098) with hlt | hge
  · obtain ⟨m1, e1, p1, v1⟩ := F64.pack_fin false _ _ (F64.roundSig_bounds n d).2 hlt
    unfold F64.roundRat
    rw [p1, F64.lt_zero_fin_iff]
    have : 0 < m1 * 2 ^ e1 := by
      rw [v1]; exact Nat.mul_pos hm (F64.two_pow_pos _)
    exact Nat.pos_of_mul_pos_right this
  · unfold F64.roundRat
    rw [F64.pack_inf false _ _ (F64.roundSig_bounds n d).1 hge]
    rfl

/-! ### Multiplication and division of non-negative values -/

theorem F64.mul_fin_fin (m e k f : Nat) :
    F64.mul (F64.fin false m e) (F64.fin false k f)
      = F64.roundRat false (m * k * 2 ^ (e + f)) (2 ^ 2148) := rfl

theorem F64.div_fin_fin (m e k f : Nat) (hk : k ≠ 0) :
    F64.div (F64.fin false m e) (F64.fin false k f)
      = F64.roundRat false (m * 2 ^ e) (k * 2 ^ f) := by
  show (if k = 0 then _ else _) = _
  rw [if_neg hk]
  rfl

/-- A product of non-negative values is non-negative unless it is NaN. -/
theorem F64.mul_nonneg {a b : F64} (ha : a.nonneg = true) (hb : b.nonneg = true)
    (h : F64.mul a b ≠ F64.nan) : (F64.mul a b).nonneg = true := by
  rcases F64.nonneg_cases ha with rfl | ⟨m, e, rfl⟩ <;>
    rcases F64.nonneg_cases hb with rfl | ⟨k, f, rfl⟩
  · rfl
  · by_cases hk : k = 0
    · exact absurd (by simp [F64.mul, hk]) h
    · simp [F64.mul, hk, F64.nonneg]
  · by_cases hm : m = 0
    · exact absurd (by simp [F64.mul, hm]) h
    · simp [F64.mul, hm, F64.nonneg]
  · rw [F64.mul_fin_fin]; exact F64.roundRat_nonneg _ _

/-- Multiplication of non-negative values is monotone in both operands, as
long as neither product is NaN. -/
theorem F64.mul_le_mul {a a' b b' : F64} (ha : a.nonneg = true) (hb : b.nonneg = true)
    (ha' : a'.nonneg = true) (hb' : b'.nonneg = true)
    (haa : F64.le a a' = true) (hbb : F64.le b b' = true)
    (h1 : F64.mul a b ≠ F64.nan) (h2 : F64.mul a' b' ≠ F64.nan) :
    F64.le (F64.mul a b) (F64.mul a' b') = true := by
  have hn := F64.mul_nonneg ha hb h1
  rcases F64.nonneg_cases ha' with rfl | ⟨m', e', rfl⟩
  · -- the larger left operand is +Inf: so is the larger product
    have : F64.mul (F64.inf false) b' = F64.inf false := by
      rcases F64.nonneg_cases hb' with rfl | ⟨k', f', rfl⟩
      · rfl
      · by_cases hk : k' = 0
        · exact absurd (by simp [F64.mul, hk]) h2
        · simp [F64.mul, hk]
    rw [this]; exact F64.le_inf_of_nonneg hn
  · rcases F64.nonneg_cases hb' with rfl | ⟨k', f', rfl⟩
    · have : F64.mul (F64.fin false m' e') (F64.inf false) = F64.inf false := by
        by_cases hm : m' = 0
        · exact absurd (by simp [F64.mul, hm]) h2
        · simp [F64.mul, hm]
      rw [this]; exact F64.le_inf_of_nonneg hn
    · rcases F64.nonneg_cases ha with rfl | ⟨m, e, rfl⟩
      · simp [F64.le] at haa
      · rcases F64.nonneg_cases hb with rfl | ⟨k, f, rfl⟩
        · simp [F64.le] at hbb
        · rw [F64.le_fin_iff] at haa hbb
          rw [F64.mul_fin_fin, F64.mul_fin_fin]
          apply F64.roundRat_le (F64.two_pow_pos _) (F64.two_pow_pos _)
          apply Nat.mul_le_mul_right
          calc m * k * 2 ^ (e + f) = (m * 2 ^ e) * (k * 2 ^ f) := by rw [pow_add]; ring
            _ ≤ (m' * 2 ^ e') * (k' * 2 ^ f') := Nat.mul_le_mul haa hbb
            _ = m' * k' * 2 ^ (e' + f') := by rw [pow_add]; ring

/-- A quotient of non-negative values is non-negative unless it is NaN. -/
theorem F64.div_nonneg {a b : F64} (ha : a.nonneg = true) (hb : b.nonneg = true)
    (h : F64.div a b ≠ F64.nan) : (F64.div a b).nonneg = true := by
  rcases F64.nonneg_cases ha with rfl | ⟨m, e, rfl⟩ <;>
    rcases F64.nonneg_cases hb with rfl | ⟨k, f, rfl⟩
  · exact absurd rfl h
  · rfl
  · rfl
  · by_cases hk : k = 0
    · by_cases hm : m = 0
      · exact absurd (by simp [F64.div, hk, hm]) h
      · simp [F64.div, hk, hm, F64.nonneg]
    · rw [F64.div_fin_fin _ _ _ _ hk]; exact F64.roundRat_nonneg _ _

/-- Division of non-negative values is monotone in the dividend and antitone
in the divisor, as long as neither quotient is NaN. -/
theorem F64.div_le_div {a a' b b' : F64} (ha : a.nonneg = true) (hb : b.nonneg = true)
    (ha' : a'.nonneg = true) (hb' : b'.nonneg = true)
    (haa : F64.le a a' = true) (hbb : F64.le b' b = true)
    (h1 : F64.div a b ≠ F64.nan) (h2 : F64.div a' b' ≠ F64.nan) :
    F64.le (F64.div a b) (F64.div a' b') = true := by
  have hn := F64.div_nonneg ha hb h1
  have hn' := F64.div_nonneg ha' hb' h2
  rcases F64.nonneg_cases hb with rfl | ⟨k, f, rfl⟩
  · -- the divisor is +Inf: the quotient is zero
    rcases F64.nonneg_cases ha with rfl | ⟨m, e, rfl⟩
    · exact absurd rfl h1
    · exact F64.zero_le_of_nonneg hn'
  · rcases F64.nonneg_cases hb' with rfl | ⟨k', f', rfl⟩
    · simp [F64.le] at hbb
    · rcases F64.nonneg_cases ha' with rfl | ⟨m', e', rfl⟩
      · exact F64.le_inf_of_nonneg hn
      · rcases F64.nonneg_cases ha with rfl | ⟨m, e, rfl⟩
        · simp [F64.le] at haa
        · rw [F64.le_fin_iff] at haa hbb
          by_cases hk' : k' = 0
          · have : F64.div (F64.fin false m' e') (F64.fin false k' f') = F64.inf false := by
              by_cases hm : m' = 0
              · exact absurd (by simp [F64.div, hk', hm]) h2
              · simp [F64.div, hk', hm]
            rw [this]; exact F64.le_inf_of_nonneg hn
          · have hk : k ≠ 0 := by
              intro h0
              rw [h0, Nat.zero_mul] at hbb
              have : 0 < k' * 2 ^ f' := Nat.mul_pos (Nat.pos_of_ne_zero hk') (F64.two_pow_pos _)
              omega
            rw [F64.div_fin_fin _ _ _ _ hk, F64.div_fin_fin _ _ _ _ hk']
            exact F64.roundRat_le (Nat.mul_pos (Nat.pos_of_ne_zero hk) (F64.two_pow_pos _))
              (Nat.mul_pos (Nat.pos_of_ne_zero hk') (F64.two_pow_pos _))
              (Nat.mul_le_mul haa hbb)

theorem F64.le_refl_of_nonneg {x : F64} (h : x.nonneg = true) : F64.le x x = true := by
  rcases F64.nonneg_cases h with rfl | ⟨m, e, rfl⟩
  · rfl
  · rw [F64.le_fin_iff]

theorem F64.mul_ne_nan_left {a b : F64} (h : F64.mul a b ≠ F64.nan) : a ≠ F64.nan := by
  rintro rfl; cases b <;> exact h rfl

theorem F64.mul_ne_nan_right {a b : F64} (h : F64.mul a b ≠ F64.nan) : b ≠ F64.nan := by
  rintro rfl; cases a <;> exact h rfl

theorem F64.div_ne_nan_left {a b : F64} (h : F64.div a b ≠ F64.nan) : a ≠ F64.nan := by
  rintro rfl; cases b <;> exact h rfl

theorem F64.div_ne_nan_right {a b : F64} (h : F64.div a b ≠ F64.nan) : b ≠ F64.nan := by
  rintro rfl; cases a <;> exact h rfl

/-! ### Signs of squares, sums and square roots -/

theorem F64.mul_self_nonneg (x : F64) (h : F64.mul x x ≠ F64.nan) :
    (F64.mul x x).nonneg = true := by
  cases x with
  | nan => exact absurd rfl h
  | inf s => cases s <;> rfl
  | fin s m e =>
    have : F64.mul (F64.fin s m e) (F64.fin s m e)
        = F64.roundRat false (m * m * 2 ^ (e + e)) (2 ^ 2148) := by
      cases s <;> rfl
    rw [this]; exact F64.roundRat_nonneg _ _

theorem F64.add_fin_fin (m e k f : Nat) :
    F64.add (F64.fin false m e) (F64.fin false k f)
      = F64.roundRat false (m * 2 ^ e + k * 2 ^ f) (2 ^ 1074) := by
  simp only [F64.add, eq_self_iff_true, if_true]

theorem F64.sqrt_fin (m e : Nat) (hm : m ≠ 0) :
    F64.sqrt (F64.fin false m e)
      = F64.roundRat false
          ((2 * F64.isqrt (m * 2 ^ (e % 2) * 2 ^ 128)
            + (if F64.isqrt (m * 2 ^ (e % 2) * 2 ^ 128) * F64.isqrt (m * 2 ^ (e % 2) * 2 ^ 128)
                  = m * 2 ^ (e % 2) * 2 ^ 128 then 0 else 1)) * 2 ^ (e / 2)) (2 ^ 602) := by
  simp only [F64.sqrt, if_neg hm, Bool.false_eq_true, if_false]

theorem F64.add_nonneg {a b : F64} (ha : a.nonneg = true) (hb : b.nonneg = true) :
    (F64.add a b).nonneg = true := by
  rcases F64.nonneg_cases ha with rfl | ⟨m, e, rfl⟩ <;>
    rcases F64.nonneg_cases hb with rfl | ⟨k, f, rfl⟩
  · rfl
  · rfl
  · rfl
  · rw [F64.add_fin_fin]; exact F64.roundRat_nonneg _ _

theorem F64.sqrt_nonneg {a : F64} (ha : a.nonneg = true) : (F64.sqrt a).nonneg = true := by
  rcases F64.nonneg_cases ha with rfl | ⟨m, e, rfl⟩
  · rfl
  · by_cases hm : m = 0
    · simp [F64.sqrt, hm, F64.nonneg]
    · rw [F64.sqrt_fin m e hm]; exact F64.roundRat_nonneg _ _

theorem F64.add_ne_nan_left {a b : F64} (h : F64.add a b ≠ F64.nan) : a ≠ F64.nan := by
  rintro rfl; cases b <;> exact h rfl

theorem F64.add_ne_nan_right {a b : F64} (h : F64.add a b ≠ F64.nan) : b ≠ F64.nan := by
  rintro rfl; cases a <;> exact h rfl

theorem F64.sqrt_ne_nan {a : F64} (h : F64.sqrt a ≠ F64.nan) : a ≠ F64.nan := by
  rintro rfl; exact h rfl

/-- The square of a positive value of at least `2 ^ (-537)` is positive: it
does not underflow to zero. -/
theorem F64.mul_self_pos {x : F64} (hx : F64.lt F64.zero x = true)
    (ht : F64.le F64.tiny x = true) : F64.lt F64.zero (F64.mul x x) = true := by
  rcases F64.nonneg_cases (F64.nonneg_of_lt_zero hx) with rfl | ⟨m, e, rfl⟩
  · rfl
  · rw [F64.tiny, F64.le_fin_iff] at ht
    rw [F64.mul_fin_fin]
    apply F64.roundRat_pos _ _ (F64.two_pow_pos _)
    have h1 : (2 ^ 52 * 2 ^ 485) * (2 ^ 52 * 2 ^ 485) ≤ (m * 2 ^ e) * (m * 2 ^ e) :=
      Nat.mul_le_mul ht ht
    have h2 : (2 : Nat) ^ 52 * 2 ^ 485 * (2 ^ 52 * 2 ^ 485) = 2 ^ 1074 := by norm_num
    have h3 : (2 : Nat) ^ 2148 = 2 ^ 1074 * 2 ^ 1074 := by norm_num
    rw [h2] at h1
    calc 2 ^ 2148 = 2 ^ 1074 * 2 ^ 1074 := h3
      _ ≤ (m * 2 ^ e) * (m * 2 ^ e) * 2 ^ 1074 := Nat.mul_le_mul_right _ h1
      _ = m * m * 2 ^ (e + e) * 2 ^ 1074 := by rw [pow_add]; ring

/-- A positive value plus a non-negative one is positive. -/
theorem F64.add_pos {a b : F64} (ha : F64.lt F64.zero a = true) (hb : b.nonneg = true) :
    F64.lt F64.zero (F64.add a b) = true := by
  rcases F64.nonneg_cases (F64.nonneg_of_lt_zero ha) with rfl | ⟨m, e, rfl⟩ <;>
    rcases F64.nonneg_cases hb with rfl | ⟨k, f, rfl⟩
  · rfl
  · rfl
  · rfl
  · have hm : 0 < m := (F64.lt_zero_fin_iff m e).1 ha
    rw [F64.add_fin_fin]
    apply F64.roundRat_pos _ _ (F64.two_pow_pos _)
    have h1 : 1 ≤ m * 2 ^ e + k * 2 ^ f :=
      le_trans (Nat.mul_pos hm (F64.two_pow_pos e)) (Nat.le_add_right _ _)
    calc 2 ^ 1074 = 1 * 2 ^ 1074 := (Nat.one_mul _).symm
      _ ≤ (m * 2 ^ e + k * 2 ^ f) * 2 ^ 1074 := Nat.mul_le_mul_right _ h1

/-- The square root of a positive value is positive. -/
theorem F64.sqrt_pos {a : F64} (ha : F64.lt F64.zero a = true) :
    F64.lt F64.zero (F64.sqrt a) = true := by
  rcases F64.nonneg_cases (F64.nonneg_of_lt_zero ha) with rfl | ⟨m, e, rfl⟩
  · rfl
  · have hm : 0 < m := (F64.lt_zero_fin_iff m e).1 ha
    have hm0 : m ≠ 0 := by omega
    have hM : 0 < m * 2 ^ (e % 2) * 2 ^ 128 :=
      Nat.mul_pos (Nat.mul_pos hm (F64.two_pow_pos _)) (F64.two_pow_pos _)
    rw [F64.sqrt_fin m e hm0]
    apply F64.roundRat_pos _ _ (F64.two_pow_pos _)
    have h1 : 1 ≤ 2 * F64.isqrt (m * 2 ^ (e % 2) * 2 ^ 128)
        + (if F64.isqrt (m * 2 ^ (e % 2) * 2 ^ 128) * F64.isqrt (m * 2 ^ (e % 2) * 2 ^ 128)
              = m * 2 ^ (e % 2) * 2 ^ 128 then 0 else 1) := by
      by_cases hr : F64.isqrt (m * 2 ^ (e % 2) * 2 ^ 128) = 0
      · rw [hr, if_neg (by omega)]
      · omega
    have h2 : (2 : Nat) ^ 602 ≤ 2 ^ 1074 := by norm_num
    calc 2 ^ 602 ≤ 2 ^ 1074 := h2
      _ = 1 * 2 ^ 1074 := (Nat.one_mul _).symm
      _ ≤ _ := Nat.mul_le_mul_right _ (Nat.mul_pos h1 (F64.two_pow_pos _))

theorem F64.mul_self_ne_nan {x : F64} (hx : F64.lt F64.zero x = true) :
    F64.mul x x ≠ F64.nan := by
  rcases F64.nonneg_cases (F64.nonneg_of_lt_zero hx) with rfl | ⟨m, e, rfl⟩
  · exact fun h => F64.noConfusion h
  · intro h
    have := F64.roundRat_nonneg (m * m * 2 ^ (e + e)) (2 ^ 2148)
    rw [← F64.mul_fin_fin, h] at this
    exact absurd this (by decide)

/-! ### The fused sum of squares -/

theorem F64.fma_fin_fin_fin (m e c g : Nat) :
    F64.fma (F64.fin false m e) (F64.fin false m e) (F64.fin false c g)
      = F64.roundRat false (m * m * 2 ^ (e + e) + c * 2 ^ g * 2 ^ 1074) (2 ^ 2148) := by
  simp only [F64.fma, Bool.xor_self, if_true]

/-- A square fused into the addition of a non-negative value is non-negative
unless it is NaN. -/
theorem F64.fma_self_nonneg {x z : F64} (hz : z.nonneg = true)
    (h : F64.fma x x z ≠ F64.nan) : (F64.fma x x z).nonneg = true := by
  cases x with
  | nan => exact absurd (by cases z <;> rfl) h
  | inf s =>
    rcases F64.nonneg_cases hz with rfl | ⟨c, g, rfl⟩ <;> cases s <;> rfl
  | fin s m e =>
    rcases F64.nonneg_cases hz with rfl | ⟨c, g, rfl⟩
    · rfl
    · have : F64.fma (F64.fin s m e) (F64.fin s m e) (F64.fin false c g)
          = F64.roundRat false (m * m * 2 ^ (e + e) + c * 2 ^ g * 2 ^ 1074) (2 ^ 2148) := by
        simp only [F64.fma, Bool.xor_self, if_true]
      rw [this]; exact F64.roundRat_nonneg _ _

theorem F64.add_nan_right (a : F64) : F64.add a F64.nan = F64.nan := by
  cases a <;> rfl

theorem F64.fma_ne_nan_addend {x y z : F64} (h : F64.fma x y z ≠ F64.nan) : z ≠ F64.nan := by
  rintro rfl
  apply h
  cases x <;> cases y <;> first | rfl | exact F64.add_nan_right _

/-- A positive square fused into the addition of a non-negative value is
positive, when the square or the value added does not underflow. -/
theorem F64.fma_self_pos {x z : F64} (hx : F64.lt F64.zero x = true) (hz : z.nonneg = true)
    (h : F64.le F64.tiny x = true ∨ F64.lt F64.zero z = true) :
    F64.lt F64.zero (F64.fma x x z) = true := by
  rcases F64.nonneg_cases (F64.nonneg_of_lt_zero hx) with rfl | ⟨m, e, rfl⟩
  · rcases F64.nonneg_cases hz with rfl | ⟨c, g, rfl⟩ <;> rfl
  · rcases F64.nonneg_cases hz with rfl | ⟨c, g, rfl⟩
    · rfl
    · rw [F64.fma_fin_fin_fin]
      apply F64.roundRat_pos _ _ (F64.two_pow_pos _)
      have h3 : (2 : Nat) ^ 2148 = 2 ^ 1074 * 2 ^ 1074 := by norm_num
      rw [h3]
      apply Nat.mul_le_mul_right
      rcases h with ht | hp
      · rw [F64.tiny, F64.le_fin_iff] at ht
        have h1 : (2 ^ 52 * 2 ^ 485) * (2 ^ 52 * 2 ^ 485) ≤ (m * 2 ^ e) * (m * 2 ^ e) :=
          Nat.mul_le_mul ht ht
        have h2 : (2 : Nat) ^ 52 * 2 ^ 485 * (2 ^ 52 * 2 ^ 485) = 2 ^ 1074 := by norm_num
        rw [h2] at h1
        calc 2 ^ 1074 ≤ (m * 2 ^ e) * (m * 2 ^ e) := h1
          _ = m * m * 2 ^ (e + e) := by rw [pow_add]; ring
          _ ≤ m * m * 2 ^ (e + e) + c * 2 ^ g * 2 ^ 1074 := Nat.le_add_right _ _
      · have hc : 0 < c := (F64.lt_zero_fin_iff c g).1 hp
        calc 2 ^ 1074 = 1 * 2 ^ 1074 := (Nat.one_mul _).symm
          _ ≤ c * 2 ^ g * 2 ^ 1074 :=
              Nat.mul_le_mul_right _ (Nat.mul_pos hc (F64.two_pow_pos _))
          _ ≤ m * m * 2 ^ (e + e) + c * 2 ^ g * 2 ^ 1074 := Nat.le_add_left _ _

/-- The sum of squares is non-negative unless it is NaN, however it is
evaluated. -/
theorem sumSquares_nonneg (fu : Fusion) (x y : F64) (h : sumSquares fu x y ≠ F64.nan) :
    (sumSquares fu x y).nonneg = true := by
  cases fu with
  | separate =>
    exact F64.add_nonneg (F64.mul_self_nonneg x (F64.add_ne_nan_left h))
      (F64.mul_self_nonneg y (F64.add_ne_nan_right h))
  | fuseX =>
    exact F64.fma_self_nonneg (F64.mul_self_nonneg y (F64.fma_ne_nan_addend h)) h
  | fuseY =>
    exact F64.fma_self_nonneg (F64.mul_self_nonneg x (F64.fma_ne_nan_addend h)) h

/-- The sum of the squares of two positive values, one of them at least
`2 ^ (-537)`, is positive, however it is evaluated. -/
theorem sumSquares_pos (fu : Fusion) {x y : F64} (hx : F64.lt F64.zero x = true)
    (hy : F64.lt F64.zero y = true)
    (ht : F64.le F64.tiny x = true ∨ F64.le F64.tiny y = true) :
    F64.lt F64.zero (sumSquares fu x y) = true := by
  have nx := F64.mul_self_nonneg x (F64.mul_self_ne_nan hx)
  have ny := F64.mul_self_nonneg y (F64.mul_self_ne_nan hy)
  cases fu with
  | separate =>
    rcases ht with ht | ht
    · exact F64.add_pos (F64.mul_self_pos hx ht) ny
    · have h := F64.add_pos (F64.mul_self_pos hy ht) nx
      show F64.lt F64.zero (F64.add (F64.mul x x) (F64.mul y y)) = true
      rcases F64.nonneg_cases nx with ex | ⟨m, e, ex⟩ <;>
        rcases F64.nonneg_cases ny with ey | ⟨k, f, ey⟩ <;> rw [ex, ey] at h ⊢
      · exact h
      · rfl
      · rfl
      · rw [F64.add_fin_fin] at h ⊢
        rw [Nat.add_comm]
        exact h
  | fuseX =>
    rcases ht with ht | ht
    · exact F64.fma_self_pos hx ny (Or.inl ht)
    · exact F64.fma_self_pos hx ny (Or.inr (F64.mul_self_pos hy ht))
  | fuseY =>
    rcases ht with ht | ht
    · exact F64.fma_self_pos hy nx (Or.inr (F64.mul_self_pos hx ht))
    · exact F64.fma_self_pos hy nx (Or.inl ht)

/-- The diagonal is non-negative unless it is NaN. -/
theorem diag_nonneg {fu : Fusion} (s : size) (h : s.diag fu ≠ F64.nan) :
    (s.diag fu).nonneg = true :=
  F64.sqrt_nonneg (sumSquares_nonneg fu s.x s.y (F64.sqrt_ne_nan h))

/-- The diagonal of a size with positive width and height, one of them at least
`2 ^ (-537)`, is strictly positive. -/
theorem diag_pos_of_tiny_le {fu : Fusion} (s : size) (hx : F64.lt F64.zero s.x = true)
    (hy : F64.lt F64.zero s.y = true)
    (ht : F64.le F64.tiny s.x = true ∨ F64.le F64.tiny s.y = true) :
    F64.lt F64.zero (s.diag fu) = true :=
  F64.sqrt_pos (sumSquares_pos fu hx hy ht)

/-! ### Accuracy of one rounding -/

theorem F64.step_eq : F64.step = 9007199254740992 / 9007199254740991 := by
  norm_num [F64.step]

theorem F64.step_pos : 0 < F64.step := by
  rw [F64.step_eq]; norm_num

theorem F64.one_le_step : 1 ≤ F64.step := by
  rw [F64.step_eq]; norm_num

/-- A normal result of `roundRat` has the value of the rounded significand at
the rounding exponent, and that significand has 53 bits. -/
theorem F64.roundRat_normal_val (neg : Bool) (n d : Nat)
    (hn : (F64.roundRat neg n d).normal = true) :
    neg = false
      ∧ (F64.roundRat neg n d).val
        = ((F64.roundSig n d : ℚ) * 2 ^ F64.roundExp n d) / 2 ^ 1074
      ∧ 2 ^ 52 ≤ F64.roundSig n d := by
  unfold F64.roundRat F64.pack at hn ⊢
  simp only at hn ⊢
  by_cases h53 : F64.roundSig n d = 2 ^ 53
  · rw [if_pos h53, if_pos h53] at hn ⊢
    by_cases he : 2045 < F64.roundExp n d + 1
    · rw [if_pos he] at hn
      cases neg <;> simp [F64.normal] at hn
    · rw [if_neg he] at hn ⊢
      cases neg with
      | true => simp [F64.normal] at hn
      | false =>
        refine ⟨rfl, ?_, by rw [h53]; exact F64.two_pow_le (by omega)⟩
        simp only [F64.val, F64.signed]
        rw [h53]
        push_cast
        ring
  · rw [if_neg h53, if_neg h53] at hn ⊢
    by_cases he : 2045 < F64.roundExp n d
    · rw [if_pos he] at hn
      cases neg <;> simp [F64.normal] at hn
    · rw [if_neg he] at hn ⊢
      cases neg with
      | true => simp [F64.normal] at hn
      | false =>
        have hm : 2 ^ 52 ≤ F64.roundSig n d := by simpa [F64.normal] using hn
        refine ⟨rfl, ?_, hm⟩
        simp only [F64.val, F64.signed]
        push_cast
        rfl

theorem F64.close_of_nearest (S T P D N : ℚ) (hT : 0 < T) (hP : 0 < P) (hD : 0 < D)
    (hS : 2 ^ 52 ≤ S) (h1 : 2 * (N * P) ≤ 2 * (S * (D * T)) + D * T)
    (h2 : 2 * (S * (D * T)) ≤ 2 * (N * P) + D * T) :
    Close 1 (S * T / P) (N / D) := by
  have hST : 2 ^ 52 * (D * T) ≤ S * (D * T) :=
    mul_le_mul_of_nonneg_right hS (le_of_lt (mul_pos hD hT))
  constructor
  · rw [F64.step_eq, pow_one, div_mul_div_comm, div_le_div_iff₀ hP (by positivity)]
    nlinarith
  · rw [F64.step_eq, pow_one, div_mul_div_comm, div_le_div_iff₀ hD (by positivity)]
    nlinarith

/-- One rounding to a normal value moves it by a factor of at most `step`. -/
theorem F64.roundRat_close (n d : Nat) (hd : 0 < d)
    (hn : (F64.roundRat false n d).normal = true) :
    Close 1 (F64.roundRat false n d).val ((n : ℚ) / d) := by
  obtain ⟨-, hv, hS⟩ := F64.roundRat_normal_val false n d hn
  obtain ⟨h1, h2⟩ := F64.roundRat_nearest n d hd
  have hP : ((2 ^ 1074 : ℕ) : ℚ) = (2 : ℚ) ^ 1074 := by
    rw [Nat.cast_pow, Nat.cast_ofNat]
  have hE : ((2 ^ F64.roundExp n d : ℕ) : ℚ) = (2 : ℚ) ^ F64.roundExp n d := by
    rw [Nat.cast_pow, Nat.cast_ofNat]
  have h1q : (2 * ((n : ℚ) * 2 ^ 1074))
      ≤ 2 * ((F64.roundSig n d : ℚ) * ((d : ℚ) * 2 ^ F64.roundExp n d))
        + (d : ℚ) * 2 ^ F64.roundExp n d := by
    have h : ((2 * (n * 2 ^ 1074) : ℕ) : ℚ)
        ≤ ((2 * (F64.roundSig n d * (d * 2 ^ F64.roundExp n d))
            + d * 2 ^ F64.roundExp n d : ℕ) : ℚ) := Nat.cast_le.2 h1
    simp only [Nat.cast_add, Nat.cast_mul, hP, hE, Nat.cast_ofNat] at h
    exact h
  have h2q : 2 * ((F64.roundSig n d : ℚ) * ((d : ℚ) * 2 ^ F64.roundExp n d))
      ≤ 2 * ((n : ℚ) * 2 ^ 1074) + (d : ℚ) * 2 ^ F64.roundExp n d := by
    have h : ((2 * (F64.roundSig n d * (d * 2 ^ F64.roundExp n d)) : ℕ) : ℚ)
        ≤ ((2 * (n * 2 ^ 1074) + d * 2 ^ F64.roundExp n d : ℕ) : ℚ) := Nat.cast_le.2 h2
    simp only [Nat.cast_add, Nat.cast_mul, hP, hE, Nat.cast_ofNat] at h
    exact h
  have hSq : (2 : ℚ) ^ 52 ≤ (F64.roundSig n d : ℚ) := by exact_mod_cast hS
  rw [hv]
  exact F64.close_of_nearest _ _ _ _ _ (pow_pos (by norm_num) _) (pow_pos (by norm_num) _)
    (by exact_mod_cast hd) hSq h1q h2q

/-! ### Values that agree up to a number of roundings -/

theorem Close.refl (a : ℚ) : Close 0 a a :=
  ⟨by simp, by simp⟩

theorem Close.symm {k : Nat} {a b : ℚ} (h : Close k a b) : Close k b a := ⟨h.2, h.1⟩

theorem Close.trans {j k : Nat} {a b c : ℚ} (h1 : Close j a b) (h2 : Close k b c) :
    Close (j + k) a c := by
  have hj : (0 : ℚ) ≤ F64.step ^ j := le_of_lt (pow_pos F64.step_pos _)
  have hk : (0 : ℚ) ≤ F64.step ^ k := le_of_lt (pow_pos F64.step_pos _)
  constructor
  · calc a ≤ b * F64.step ^ j := h1.1
      _ ≤ c * F64.step ^ k * F64.step ^ j := mul_le_mul_of_nonneg_right h2.1 hj
      _ = c * F64.step ^ (j + k) := by rw [pow_add]; ring
  · calc c ≤ b * F64.step ^ k := h2.2
      _ ≤ a * F64.step ^ j * F64.step ^ k := mul_le_mul_of_nonneg_right h1.2 hk
      _ = a * F64.step ^ (j + k) := by rw [pow_add]; ring

theorem Close.mul {j k : Nat} {a a' b b' : ℚ} (ha : 0 ≤ a) (ha' : 0 ≤ a') (hb : 0 ≤ b)
    (hb' : 0 ≤ b') (h1 : Close j a a') (h2 : Close k b b') :
    Close (j + k) (a * b) (a' * b') := by
  have hj : (0 : ℚ) ≤ F64.step ^ j := le_of_lt (pow_pos F64.step_pos _)
  have hk : (0 : ℚ) ≤ F64.step ^ k := le_of_lt (pow_pos F64.step_pos _)
  constructor
  · calc a * b ≤ a' * F64.step ^ j * (b' * F64.step ^ k) :=
          mul_le_mul h1.1 h2.1 hb (mul_nonneg ha' hj)
      _ = a' * b' * F64.step ^ (j + k) := by rw [pow_add]; ring
  · calc a' * b' ≤ a * F64.step ^ j * (b * F64.step ^ k) :=
          mul_le_mul h1.2 h2.2 hb' (mul_nonneg ha hj)
      _ = a * b * F64.step ^ (j + k) := by rw [pow_add]; ring

theorem Close.inv {k : Nat} {b b' : ℚ} (hb : 0 < b) (hb' : 0 < b') (h : Close k b b') :
    Close k b⁻¹ b'⁻¹ := by
  have hk : (0 : ℚ) < F64.step ^ k := pow_pos F64.step_pos _
  constructor
  · rw [inv_eq_one_div, inv_eq_one_div, div_mul_eq_mul_div, one_mul, div_le_div_iff₀ hb hb']
    linarith [h.2]
  · rw [inv_eq_one_div, inv_eq_one_div, div_mul_eq_mul_div, one_mul, div_le_div_iff₀ hb' hb]
    linarith [h.1]

theorem Close.div {j k : Nat} {a a' b b' : ℚ} (ha : 0 ≤ a) (ha' : 0 ≤ a') (hb : 0 < b)
    (hb' : 0 < b') (h1 : Close j a a') (h2 : Close k b b') :
    Close (j + k) (a / b) (a' / b') := by
  rw [div_eq_mul_inv, div_eq_mul_inv]
  exact Close.mul ha ha' (le_of_lt (inv_pos.2 hb)) (le_of_lt (inv_pos.2 hb'))
    h1 (Close.inv hb hb' h2)

theorem Close.mono {j k : Nat} {a b : ℚ} (ha : 0 ≤ a) (hb : 0 ≤ b) (hjk : j ≤ k)
    (h : Close j a b) : Close k a b := by
  have hp : F64.step ^ j ≤ F64.step ^ k := pow_le_pow_right₀ F64.one_le_step hjk
  exact ⟨le_trans h.1 (mul_le_mul_of_nonneg_left hp hb),
    le_trans h.2 (mul_le_mul_of_nonneg_left hp ha)⟩

/-- A value close to a positive one is positive. -/
theorem Close.pos {k : Nat} {a b : ℚ} (ha : 0 < a) (h : Close k a b) : 0 < b := by
  have hk : (0 : ℚ) < F64.step ^ k := pow_pos F64.step_pos _
  by_contra hb
  have hb : b ≤ 0 := not_lt.1 hb
  have : b * F64.step ^ k ≤ 0 := mul_nonpos_of_nonpos_of_nonneg hb (le_of_lt hk)
  linarith [h.1]

/-! ### Values of normal numbers and of the operations -/

theorem F64.div_div_cancel (a b P : ℚ) (hP : P ≠ 0) : (a / P) / (b / P) = a / b := by
  by_cases hb : b = 0
  · subst hb; simp
  · field_simp

theorem F64.val_fin (m e : Nat) :
    (F64.fin false m e).val = ((m : ℚ) * 2 ^ e) / 2 ^ 1074 := by
  simp only [F64.val, F64.signed]
  push_cast
  rfl

theorem F64.val_nonneg {x : F64} (h : x.nonneg = true) : 0 ≤ x.val := by
  rcases F64.nonneg_cases h with rfl | ⟨m, e, rfl⟩
  · exact le_refl _
  · rw [F64.val_fin]
    have hP : (0 : ℚ) < 2 ^ 1074 := pow_pos (by norm_num) _
    have he : (0 : ℚ) < 2 ^ e := pow_pos (by norm_num) _
    have hm : (0 : ℚ) ≤ m := Nat.cast_nonneg _
    generalize (2 : ℚ) ^ 1074 = P at *
    positivity

theorem F64.normal_nonneg {x : F64} (h : x.normal = true) : x.nonneg = true := by
  cases x with
  | nan => simp [F64.normal] at h
  | inf s => simp [F64.normal] at h
  | fin s m e =>
    cases s with
    | true => simp [F64.normal] at h
    | false => rfl

theorem F64.val_pos_of_normal {x : F64} (h : x.normal = true) : 0 < x.val := by
  cases x with
  | nan => simp [F64.normal] at h
  | inf s => simp [F64.normal] at h
  | fin s m e =>
    cases s with
    | true => simp [F64.normal] at h
    | false =>
      have hm : 2 ^ 52 ≤ m := by simpa [F64.normal] using h
      have hm0 : (0 : ℚ) < m := by
        have : 0 < m := lt_of_lt_of_le (F64.two_pow_pos 52) hm
        exact_mod_cast this
      rw [F64.val_fin]
      exact div_pos (mul_pos hm0 (pow_pos (by norm_num) _)) (pow_pos (by norm_num) _)

/-- The order of two normal values is the order of their values. -/
theorem F64.lt_of_val_lt {a b : F64} (ha : a.normal = true) (hb : b.normal = true)
    (h : a.val < b.val) : F64.lt a b = true := by
  cases a with
  | nan => simp [F64.normal] at ha
  | inf s => simp [F64.normal] at ha
  | fin s m e =>
    cases b with
    | nan => simp [F64.normal] at hb
    | inf t => simp [F64.normal] at hb
    | fin t k f =>
      cases s with
      | true => simp [F64.normal] at ha
      | false =>
        cases t with
        | true => simp [F64.normal] at hb
        | false =>
          rw [F64.val_fin, F64.val_fin, div_lt_div_iff_of_pos_right (pow_pos (by norm_num) _)] at h
          have h' : m * 2 ^ e < k * 2 ^ f := by exact_mod_cast h
          simp only [F64.lt, F64.signed, Bool.false_eq_true, if_false, decide_eq_true_eq]
          exact_mod_cast h'

/-- A product that comes out normal: the factors are positive finite values and
the product is within one rounding of the exact product. -/
theorem F64.mul_close {a b : F64} (ha : a.nonneg = true)
    (hn : (F64.mul a b).normal = true) :
    b.nonneg = true ∧ Close 1 (F64.mul a b).val (a.val * b.val) := by
  rcases F64.nonneg_cases ha with rfl | ⟨m, e, rfl⟩
  · cases b with
    | nan => simp [F64.mul, F64.normal] at hn
    | inf t => cases t <;> simp [F64.mul, F64.normal] at hn
    | fin t k f =>
      simp only [F64.mul] at hn
      split at hn
      · simp [F64.normal] at hn
      · cases t <;> simp [F64.normal] at hn
  · cases b with
    | nan => simp [F64.mul, F64.normal] at hn
    | inf t =>
      simp only [F64.mul] at hn
      split at hn
      · simp [F64.normal] at hn
      · cases t <;> simp [F64.normal] at hn
    | fin t k f =>
      have ht : t = false := by
        have := (F64.roundRat_normal_val (xor false t) _ _ hn).1
        simpa using this
      subst ht
      refine ⟨rfl, ?_⟩
      rw [F64.mul_fin_fin] at hn ⊢
      have h := F64.roundRat_close _ _ (F64.two_pow_pos 2148) hn
      have e1 : (((m * k * 2 ^ (e + f) : Nat) : ℚ) / ((2 ^ 2148 : Nat) : ℚ))
          = (F64.fin false m e).val * (F64.fin false k f).val := by
        rw [F64.val_fin, F64.val_fin]
        simp only [Nat.cast_mul, Nat.cast_pow, Nat.cast_ofNat]
        have e2 : (2 : ℚ) ^ 2148 = 2 ^ 1074 * 2 ^ 1074 := by rw [← pow_add]
        rw [e2, pow_add]
        have hP : (2 : ℚ) ^ 1074 ≠ 0 := pow_ne_zero _ (by norm_num)
        field_simp
        ring
      rw [e1] at h
      exact h

/-- A quotient that comes out normal: dividend and divisor are positive finite
values and the quotient is within one rounding of the exact quotient. -/
theorem F64.div_close {a b : F64} (ha : a.nonneg = true) (hb : b.nonneg = true)
    (hn : (F64.div a b).normal = true) :
    0 < b.val ∧ Close 1 (F64.div a b).val (a.val / b.val) := by
  rcases F64.nonneg_cases ha with rfl | ⟨m, e, rfl⟩
  · rcases F64.nonneg_cases hb with rfl | ⟨k, f, rfl⟩ <;> simp [F64.div, F64.normal] at hn
  · rcases F64.nonneg_cases hb with rfl | ⟨k, f, rfl⟩
    · simp [F64.div, F64.normal] at hn
    · by_cases hk : k = 0
      · subst hk
        simp only [F64.div] at hn
        rw [if_pos True.intro] at hn
        split at hn <;> simp [F64.normal] at hn
      · rw [F64.div_fin_fin m e k f hk] at hn ⊢
        have hkq : (0 : ℚ) < k := by
          have : 0 < k := Nat.pos_of_ne_zero hk
          exact_mod_cast this
        have hd : 0 < k * 2 ^ f := Nat.mul_pos (Nat.pos_of_ne_zero hk) (F64.two_pow_pos f)
        have h := F64.roundRat_close _ _ hd hn
        have hP : (0 : ℚ) < 2 ^ 1074 := pow_pos (by norm_num) _
        have hf : (0 : ℚ) < 2 ^ f := pow_pos (by norm_num) _
        have e1 : (((m * 2 ^ e : Nat) : ℚ) / ((k * 2 ^ f : Nat) : ℚ))
            = (F64.fin false m e).val / (F64.fin false k f).val := by
          rw [F64.val_fin, F64.val_fin]
          push_cast
          exact (F64.div_div_cancel _ _ _ (ne_of_gt hP)).symm
        rw [e1] at h
        refine ⟨?_, h⟩
        rw [F64.val_fin]
        exact div_pos (mul_pos hkq hf) hP

/-! Concrete values are evaluated by the kernel; the limits below allow it. -/

set_option maxRecDepth 1000000
set_option exponentiation.threshold 5000

/-! ### Depth of field and circle of confusion -/

/-- C1: for every size and every focal length, aperture and focus distance
(any binary64 value: zero, negative, infinite or NaN, nothing is clamped or
checked), `depthOfField` is the formula
`2 * d^2 * N * circleOfConfusion(s) / f^2` evaluated in binary64; a zero focal
length divides by zero, so the result is then an infinity or NaN. -/
theorem depthOfField_eq_formula (fu : Fusion) (s : size)
    (focalLength aperture focalDistance : F64) :
    s.depthOfField fu focalLength aperture focalDistance
        = dofFormula focalDistance aperture (s.circleOfConfusion fu) focalLength
      ∧ (∀ neg e,
          (s.depthOfField fu (F64.fin neg 0 e) aperture focalDistance).isFinite = false) := by
  refine ⟨rfl, fun neg e => ?_⟩
  unfold size.depthOfField
  rw [F64.mul_self_of_isZero (F64.fin neg 0 e) (by simp [F64.isZero])]
  exact F64.div_zero_not_finite _

/-- C2: for every size, `circleOfConfusion` is `diag(s) * (0.025 / diag(35mm))`,
where the 35mm entry of the table is `size{36.0, 24.0}` and its diagonal comes
from the same `diag`; the basis does not mention `s`. -/
theorem circleOfConfusion_eq_diag_mul_basis (fu : Fusion) :
    formatIndex "35mm" = ⟨F64.ofRat 36 1, F64.ofRat 24 1⟩
      ∧ ∀ s : size, s.circleOfConfusion fu
          = F64.mul (s.diag fu)
              (F64.div (F64.ofRat 25 1000) (size.diag fu ⟨F64.ofRat 36 1, F64.ofRat 24 1⟩)) :=
  ⟨rfl, fun _ => rfl⟩

/-- The circle of confusion of the 35mm entry, however the sum of squares is
evaluated. -/
theorem coc_35mm_eq (fu : Fusion) :
    size.circleOfConfusion fu ⟨F64.ofRat 36 1, F64.ofRat 24 1⟩
      = F64.fin false 7205759403792793 1016 := by
  cases fu <;> decide

/-- C3, as stated, fails: for the 35mm entry, the size `36 x 24`,
`circleOfConfusion` is not the binary64 constant `0.025` but a value strictly
below it, however the sum of squares in `diag` is evaluated. -/
theorem circleOfConfusion_35mm_ne :
    formatIndex "35mm" = ⟨F64.ofRat 36 1, F64.ofRat 24 1⟩
      ∧ ∀ fu : Fusion, (formatIndex "35mm").circleOfConfusion fu ≠ F64.ofRat 25 1000
        ∧ F64.lt ((formatIndex "35mm").circleOfConfusion fu) (F64.ofRat 25 1000) = true := by
  refine ⟨rfl, fun fu => ?_⟩
  cases fu <;> decide

/-- C3, amended: for the 35mm entry `circleOfConfusion` is the binary64 value
next below the constant `0.025` (one unit in the last place, `2^-58`, apart),
within `4 * 10^-18` of `1/40`, and `%.6f` prints it as `0.025000`. -/
theorem circleOfConfusion_35mm_value (fu : Fusion) :
    (formatIndex "35mm").circleOfConfusion fu = F64.fin false 7205759403792793 1016
      ∧ F64.ofRat 25 1000 = F64.fin false 7205759403792794 1016
      ∧ (∃ q : ℚ, ((formatIndex "35mm").circleOfConfusion fu).toRat = some q
          ∧ q < 1 / 40 ∧ 1 / 40 - q < 4 / 10 ^ 18)
      ∧ F64.fixed 6 ((formatIndex "35mm").circleOfConfusion fu) = some 25000 := by
  have h : (formatIndex "35mm").circleOfConfusion fu = F64.fin false 7205759403792793 1016 :=
    coc_35mm_eq fu
  refine ⟨h, by decide, ⟨_, by rw [h]; rfl, ?_, ?_⟩, by rw [h]; decide⟩
  · norm_num [F64.signed]
  · norm_num [F64.signed]

/-- C4, as stated, fails: for the 35mm format, the size `36 x 24`, focal length
35, aperture 4.0 and focus distance 5000 the depth of field is above 4081, not
about 1020.41, and its one-decimal rendering is 4081.6, not 1020.4, however the
sum of squares in `diag` is evaluated. -/
theorem depthOfField_example_ne :
    formatIndex "35mm" = ⟨F64.ofRat 36 1, F64.ofRat 24 1⟩
      ∧ ∀ fu : Fusion,
        F64.lt (F64.ofRat 4081 1)
            ((formatIndex "35mm").depthOfField fu (F64.ofRat 35 1) (F64.ofRat 4 1)
              (F64.ofRat 5000 1)) = true
          ∧ F64.fixed 1
              ((formatIndex "35mm").depthOfField fu (F64.ofRat 35 1) (F64.ofRat 4 1)
                (F64.ofRat 5000 1))
            ≠ some 10204 := by
  refine ⟨rfl, fun fu => ?_⟩
  cases fu <;> decide

/-- C4, amended: when the tokens `35`, `4.0` and `5` parse as those numbers,
the invocation `35mm 35 4.0 5` returns success having printed the geometry of
35mm and the lens lines with focal length 35, aperture 4, focus distance
`5 * 1000 = 5000` and the depth of field
`2 * 5000^2 * 4.0 * circleOfConfusion / 35^2`, whose circle of confusion prints
as `0.025000` and whose depth of field lies between 4081.63 and 4081.64 and
prints as `4081.6`. -/
theorem run_35mm_example (env : Env) (prog : String) (out : List Call)
    (h35 : env.parseFloat "35" = Except.ok (F64.ofRat 35 1))
    (h4 : env.parseFloat "4.0" = Except.ok (F64.ofRat 4 1))
    (h5 : env.parseFloat "5" = Except.ok (F64.ofRat 5 1)) :
    ∃ coc depth : F64, ∃ q : ℚ,
      run env [prog, "35mm", "35", "4.0", "5"] out
          = Res.ret none
              ⟨geometryLines env.fusion "35mm" ⟨F64.ofRat 36 1, F64.ofRat 24 1⟩
                ++ lensLines (F64.ofRat 35 1) (F64.ofRat 4 1) (F64.ofRat 5000 1) depth,
               [], ["35", "4.0", "5"], out⟩
        ∧ coc = size.circleOfConfusion env.fusion ⟨F64.ofRat 36 1, F64.ofRat 24 1⟩
        ∧ F64.fixed 6 coc = some 25000
        ∧ depth = dofFormula (F64.ofRat 5000 1) (F64.ofRat 4 1) coc (F64.ofRat 35 1)
        ∧ depth.toRat = some q ∧ 408163 / 100 < q ∧ q < 408164 / 100
        ∧ F64.fixed 1 depth = some 40816 := by
  have hd : dofFormula (F64.ofRat 5000 1) (F64.ofRat 4 1)
      (size.circleOfConfusion env.fusion ⟨F64.ofRat 36 1, F64.ofRat 24 1⟩) (F64.ofRat 35 1)
      = F64.fin false 8975605124702041 1033 := by
    rw [coc_35mm_eq]
    decide
  have hm : F64.mul (F64.ofRat 5 1) (F64.ofRat 1000 1) = F64.ofRat 5000 1 := by decide
  have hl : formatLookup "35mm" = some ⟨F64.ofRat 36 1, F64.ofRat 24 1⟩ := by decide
  refine ⟨_, _, _, ?_, rfl, by rw [coc_35mm_eq]; decide, rfl, by rw [hd]; rfl, ?_, ?_,
    by rw [hd]; decide⟩
  · simp only [run, List.length_cons, List.length_nil, List.getD_cons_succ, List.getD_cons_zero,
      parse, h35, h4, h5, Res.andThen, hl, hm]
    simp [World.printf, geometryLines, lensLines, size.depthOfField, dofFormula]
  · norm_num [F64.signed]
  · norm_num [F64.signed]

/-- Witness for C4: the plain decimal parser reads the three tokens as
required. -/
theorem run_35mm_example_witness :
    ∃ coc depth : F64, ∃ q : ℚ,
      run decimalEnv ["dof", "35mm", "35", "4.0", "5"] []
          = Res.ret none
              ⟨geometryLines Fusion.separate "35mm" ⟨F64.ofRat 36 1, F64.ofRat 24 1⟩
                ++ lensLines (F64.ofRat 35 1) (F64.ofRat 4 1) (F64.ofRat 5000 1) depth,
               [], ["35", "4.0", "5"], []⟩
        ∧ coc = size.circleOfConfusion Fusion.separate ⟨F64.ofRat 36 1, F64.ofRat 24 1⟩
        ∧ F64.fixed 6 coc = some 25000
        ∧ depth = dofFormula (F64.ofRat 5000 1) (F64.ofRat 4 1) coc (F64.ofRat 35 1)
        ∧ depth.toRat = some q ∧ 408163 / 100 < q ∧ q < 408164 / 100
        ∧ F64.fixed 1 depth = some 40816 :=
  run_35mm_example decimalEnv "dof" [] (by rfl) (by rfl) (by rfl)

/-! ### The format table -/

theorem formatLookup_eq_none {k : String} (h : k ∉ format.map Prod.fst) : formatLookup k = none := by
  simp only [format, List.map_cons, List.map_nil, List.mem_cons, List.mem_singleton, not_or,
    List.not_mem_nil, or_false] at h
  obtain ⟨h1, h2, h3, h4, h5⟩ := h
  simp [formatLookup, format, List.lookup, beq_eq_false_iff_ne.2 h1, beq_eq_false_iff_ne.2 h2,
    beq_eq_false_iff_ne.2 h3, beq_eq_false_iff_ne.2 h4, beq_eq_false_iff_ne.2 h5]

/-- C8: the format table has exactly the five names 35mm, aps-c-canon,
aps-c-fuji, apx-c-generic and m43, each once, with the sizes (36.0, 24.0),
(22.5, 15.0), (23.6, 15.6), (24.0, 16.0) and (18.0, 13.5) (the binary64 values
of those constants, exact but for 23.6 and 15.6, which are within `2^-49`);
looking up any other string reports not found; every width and height is
strictly positive. -/
theorem format_table :
    format.map Prod.fst = ["35mm", "aps-c-canon", "aps-c-fuji", "apx-c-generic", "m43"]
      ∧ (format.map Prod.fst).Nodup
      ∧ formatLookup "35mm" = some ⟨F64.ofRat 36 1, F64.ofRat 24 1⟩
      ∧ formatLookup "aps-c-canon" = some ⟨F64.ofRat 225 10, F64.ofRat 15 1⟩
      ∧ formatLookup "aps-c-fuji" = some ⟨F64.ofRat 236 10, F64.ofRat 156 10⟩
      ∧ formatLookup "apx-c-generic" = some ⟨F64.ofRat 24 1, F64.ofRat 16 1⟩
      ∧ formatLookup "m43" = some ⟨F64.ofRat 18 1, F64.ofRat 135 10⟩
      ∧ (∀ k : String, k ∉ ["35mm", "aps-c-canon", "aps-c-fuji", "apx-c-generic", "m43"] →
          formatLookup k = none)
      ∧ (∀ kv ∈ format, F64.lt F64.zero kv.2.x = true ∧ F64.lt F64.zero kv.2.y = true)
      ∧ ([F64.ofRat 36 1, F64.ofRat 24 1, F64.ofRat 225 10, F64.ofRat 15 1, F64.ofRat 16 1,
            F64.ofRat 18 1, F64.ofRat 135 10].map F64.toRat
          = [some 36, some 24, some (225 / 10), some 15, some 16, some 18, some (135 / 10)])
      ∧ (∃ a b : ℚ, (F64.ofRat 236 10).toRat = some a ∧ (F64.ofRat 156 10).toRat = some b
          ∧ |a - 236 / 10| < 1 / 2 ^ 49 ∧ |b - 156 / 10| < 1 / 2 ^ 49) := by
  have e36 : F64.ofRat 36 1 = F64.fin false 5066549580791808 1027 := by decide
  have e24 : F64.ofRat 24 1 = F64.fin false 6755399441055744 1026 := by decide
  have e225 : F64.ofRat 225 10 = F64.fin false 6333186975989760 1026 := by decide
  have e15 : F64.ofRat 15 1 = F64.fin false 8444249301319680 1025 := by decide
  have e16 : F64.ofRat 16 1 = F64.fin false 4503599627370496 1026 := by decide
  have e18 : F64.ofRat 18 1 = F64.fin false 5066549580791808 1026 := by decide
  have e135 : F64.ofRat 135 10 = F64.fin false 7599824371187712 1025 := by decide
  have e236 : F64.ofRat 236 10 = F64.fin false 6642809450371482 1026 := by decide
  have e156 : F64.ofRat 156 10 = F64.fin false 8782019273372467 1025 := by decide
  refine ⟨by decide, by decide, by decide, by decide, by decide, by decide, by decide,
    fun k hk => formatLookup_eq_none (by simpa [format] using hk), by decide, ?_, ?_⟩
  · rw [e36, e24, e225, e15, e16, e18, e135]
    norm_num [F64.toRat, F64.signed]
  · rw [e236, e156]
    refine ⟨_, _, rfl, rfl, ?_, ?_⟩
    · rw [abs_lt]; constructor <;> norm_num [F64.signed]
    · rw [abs_lt]; constructor <;> norm_num [F64.signed]

/-! ### The command-line driver -/

theorem eprintf_foldl (f : String × size → Call) (l : List (String × size)) (w : World) :
    l.foldl (fun acc kv => { acc with stderr := acc.stderr ++ [f kv] }) w
      = { w with stderr := w.stderr ++ l.map f } := by
  induction l generalizing w with
  | nil => simp
  | cons a l ih => simp [ih]

theorem usage_eq (env : Env) (w : World) :
    usage env w = { w with stderr := w.stderr ++ usageText env.rangeOrder } := by
  unfold usage World.eprintf usageText
  rw [eprintf_foldl (fun kv =>
    (⟨"%-20s %3.1fmm x %3.1fmm\n", [Arg.str kv.1, Arg.num kv.2.x, Arg.num kv.2.y]⟩ : Call))]
  simp

theorem run_short (env : Env) (args : List String) (out : List Call) (h : args.length < 2) :
    run env args out = Res.ret none ⟨[], usageText env.rangeOrder, [], out⟩ := by
  simp [run, h, usage_eq]

/-- C9: when the second argument is not a key of the format table, whatever
the length of the argument list and whatever follows the name, `run` does what
it does with no positional argument: it writes the format-listing usage text to
standard error, nothing to standard output, hands no token to the parser, and
returns `nil`. -/
theorem run_unknown_format (env : Env) (prog name : String) (rest : List String)
    (out : List Call) (h : name ∉ format.map Prod.fst) :
    run env (prog :: name :: rest) out = run env [prog] out
      ∧ run env (prog :: name :: rest) out
          = Res.ret none ⟨[], usageText env.rangeOrder, [], out⟩ := by
  have hr : run env (prog :: name :: rest) out
      = Res.ret none ⟨[], usageText env.rangeOrder, [], out⟩ := by
    simp [run, formatLookup_eq_none h, usage_eq]
  exact ⟨by rw [hr, run_short env [prog] out (by simp)], hr⟩

/-- Witness for C9: the name `bogus` followed by three lens tokens. -/
theorem run_unknown_format_witness :
    run decimalEnv ["dof", "bogus", "35", "wide", "5"] [] = run decimalEnv ["dof"] []
      ∧ run decimalEnv ["dof", "bogus", "35", "wide", "5"] []
          = Res.ret none ⟨[], usageText decimalEnv.rangeOrder, [], []⟩ :=
  run_unknown_format decimalEnv "dof" "bogus" ["35", "wide", "5"] [] (by decide)

/-- C10: with a recognised format name and at least three further arguments
that all parse, as `f`, `N` and `m`, `run` prints the four geometry lines, then
focal length `f`, aperture `N`, focus distance `m * 1000` and the depth of field
`depthOfField(format, f, N, m * 1000)`, writes nothing to standard error, and
returns `nil`; the arguments after the fifth have no effect. -/
theorem run_lens (env : Env) (prog name a2 a3 a4 : String) (rest : List String)
    (out : List Call) (s : size) (f N m : F64)
    (hs : formatLookup name = some s)
    (h2 : env.parseFloat a2 = Except.ok f)
    (h3 : env.parseFloat a3 = Except.ok N)
    (h4 : env.parseFloat a4 = Except.ok m) :
    run env (prog :: name :: a2 :: a3 :: a4 :: rest) out
        = Res.ret none
            ⟨geometryLines env.fusion name s
              ++ lensLines f N (F64.mul m (F64.ofRat 1000 1))
                  (s.depthOfField env.fusion f N (F64.mul m (F64.ofRat 1000 1))),
             [], [a2, a3, a4], out⟩
      ∧ run env (prog :: name :: a2 :: a3 :: a4 :: rest) out
          = run env [prog, name, a2, a3, a4] out := by
  have key : ∀ r : List String, run env (prog :: name :: a2 :: a3 :: a4 :: r) out
      = Res.ret none
          ⟨geometryLines env.fusion name s
            ++ lensLines f N (F64.mul m (F64.ofRat 1000 1))
                (s.depthOfField env.fusion f N (F64.mul m (F64.ofRat 1000 1))),
           [], [a2, a3, a4], out⟩ := by
    intro r
    have l2 : ¬ (r.length + 1 + 1 + 1 + 1 + 1 < 2) := by omega
    have l5 : ¬ (r.length + 1 + 1 + 1 + 1 + 1 < 5) := by omega
    simp only [run, List.length_cons, List.getD_cons_succ, List.getD_cons_zero,
      parse, h2, h3, h4, Res.andThen, hs]
    simp [World.printf, geometryLines, lensLines, l2, l5]
  exact ⟨key rest, by rw [key rest, key []]⟩

/-- Witness for C10: the format m43 with lens tokens `50`, `2.8`, `3` and two
further arguments. -/
theorem run_lens_witness :
    run decimalEnv ["dof", "m43", "50", "2.8", "3", "x", "y"] []
        = Res.ret none
            ⟨geometryLines Fusion.separate "m43" ⟨F64.ofRat 18 1, F64.ofRat 135 10⟩
              ++ lensLines (F64.ofRat 50 1) (F64.ofRat 28 10)
                  (F64.mul (F64.ofRat 3 1) (F64.ofRat 1000 1))
                  (size.depthOfField Fusion.separate ⟨F64.ofRat 18 1, F64.ofRat 135 10⟩ (F64.ofRat 50 1)
                    (F64.ofRat 28 10) (F64.mul (F64.ofRat 3 1) (F64.ofRat 1000 1))),
             [], ["50", "2.8", "3"], []⟩
      ∧ run decimalEnv ["dof", "m43", "50", "2.8", "3", "x", "y"] []
          = run decimalEnv ["dof", "m43", "50", "2.8", "3"] [] :=
  run_lens decimalEnv "dof" "m43" "50" "2.8" "3" ["x", "y"] [] _ _ _ _
    (by decide) (by rfl) (by rfl) (by rfl)

/-! ### The diagonal, ratios and monotonicity -/

/-- Fusing the multiplication and the addition in `diag`, either way round,
does not change the diagonal of any table format. -/
theorem diag_fused_table (fu : Fusion) :
    ∀ kv ∈ format,
      kv.2.diag fu = F64.sqrt (F64.add (F64.mul kv.2.x kv.2.x) (F64.mul kv.2.y kv.2.y)) := by
  cases fu <;> decide

/-- Fusion can change the diagonal of a size outside the table: for
`35.8 x 23.9` the fused sum of squares gives the binary64 value next below the
one that separately rounded squares give. -/
theorem diag_fused_differs :
    size.diag Fusion.fuseX ⟨F64.ofRat 358 10, F64.ofRat 239 10⟩
        = F64.fin false 6058009180303267 1027
      ∧ size.diag Fusion.separate ⟨F64.ofRat 358 10, F64.ofRat 239 10⟩
        = F64.fin false 6058009180303268 1027 := by
  decide

/-- C5, as stated, fails: the size `1e-200 x 1e-200` has positive width and
height, but its squares underflow and its diagonal is zero. -/
theorem diag_not_pos :
    F64.lt F64.zero (F64.ofRat 1 (10 ^ 200)) = true
      ∧ ∀ fu : Fusion,
        size.diag fu ⟨F64.ofRat 1 (10 ^ 200), F64.ofRat 1 (10 ^ 200)⟩ = F64.zero
          ∧ F64.lt F64.zero
              (size.diag fu ⟨F64.ofRat 1 (10 ^ 200), F64.ofRat 1 (10 ^ 200)⟩) = false := by
  refine ⟨by decide, fun fu => ?_⟩
  cases fu <;> decide

/-- C5, amended: for every size, `diag` is the binary64 square root of the
sum of squares `x*x + y*y` as the compiled program evaluates it: with each
operation rounded on its own, or with the first or the second product fused
into the addition and rounded once.  In each of the three cases, for positive
width and height with one of them at least `2^-537`, the diagonal is strictly
positive.  For the five table formats the three evaluations agree and the
diagonal is positive, and for 35mm it is the binary64 value nearest to
`sqrt(1872)`, between 43.2666 and 43.2667. -/
theorem diag_eq_sqrt_pos (fu : Fusion) (s : size) (hx : F64.lt F64.zero s.x = true)
    (hy : F64.lt F64.zero s.y = true)
    (ht : F64.le F64.tiny s.x = true ∨ F64.le F64.tiny s.y = true) :
    s.diag fu = F64.sqrt (sumSquares fu s.x s.y)
      ∧ sumSquares Fusion.separate s.x s.y = F64.add (F64.mul s.x s.x) (F64.mul s.y s.y)
      ∧ sumSquares Fusion.fuseX s.x s.y = F64.fma s.x s.x (F64.mul s.y s.y)
      ∧ sumSquares Fusion.fuseY s.x s.y = F64.fma s.y s.y (F64.mul s.x s.x)
      ∧ F64.lt F64.zero (s.diag fu) = true
      ∧ (∀ kv ∈ format, F64.lt F64.zero kv.2.x = true ∧ F64.lt F64.zero kv.2.y = true
          ∧ F64.le F64.tiny kv.2.x = true ∧ F64.lt F64.zero (kv.2.diag fu) = true
          ∧ kv.2.diag fu
              = F64.sqrt (F64.add (F64.mul kv.2.x kv.2.x) (F64.mul kv.2.y kv.2.y)))
      ∧ (∃ q : ℚ, ((formatIndex "35mm").diag fu).toRat = some q
          ∧ 432666 / 10000 < q ∧ q < 432667 / 10000
          ∧ (q - 1 / 2 ^ 48) ^ 2 < 1872 ∧ 1872 < (q + 1 / 2 ^ 48) ^ 2) := by
  have h35 : (formatIndex "35mm").diag fu = F64.fin false 6089234767741815 1027 := by
    cases fu <;> decide
  refine ⟨rfl, rfl, rfl, rfl, diag_pos_of_tiny_le s hx hy ht, by cases fu <;> decide, _,
    by rw [h35]; rfl, ?_, ?_, ?_, ?_⟩
  · norm_num [F64.signed]
  · norm_num [F64.signed]
  · norm_num [F64.signed]
  · norm_num [F64.signed]

/-- Witness for C5: the size `35.8 x 23.9` with the first product fused into
the addition. -/
theorem diag_eq_sqrt_pos_witness :
    F64.lt F64.zero (F64.ofRat 358 10) = true
      ∧ F64.lt F64.zero (F64.ofRat 239 10) = true
      ∧ F64.le F64.tiny (F64.ofRat 358 10) = true
      ∧ size.diag Fusion.fuseX ⟨F64.ofRat 358 10, F64.ofRat 239 10⟩
          = F64.sqrt (F64.fma (F64.ofRat 358 10) (F64.ofRat 358 10)
              (F64.mul (F64.ofRat 239 10) (F64.ofRat 239 10)))
      ∧ F64.lt F64.zero (size.diag Fusion.fuseX ⟨F64.ofRat 358 10, F64.ofRat 239 10⟩) = true :=
  have h := diag_eq_sqrt_pos Fusion.fuseX ⟨F64.ofRat 358 10, F64.ofRat 239 10⟩ (by decide)
    (by decide) (Or.inl (by decide))
  ⟨by decide, by decide, by decide, h.1, h.2.2.2.2.1⟩

/-- C6, as stated, fails: for aps-c-canon the quotient of the circles of
confusion is 0.625 and the quotient of the diagonals is the binary64 value next
below it. -/
theorem coc_ratio_ne :
    formatLookup "aps-c-canon" = some ⟨F64.ofRat 225 10, F64.ofRat 15 1⟩
      ∧ ∀ fu : Fusion,
        F64.div (size.circleOfConfusion fu ⟨F64.ofRat 225 10, F64.ofRat 15 1⟩)
            ((formatIndex "35mm").circleOfConfusion fu)
          ≠ F64.div (size.diag fu ⟨F64.ofRat 225 10, F64.ofRat 15 1⟩)
              ((formatIndex "35mm").diag fu)
        ∧ F64.lt
            (F64.div (size.diag fu ⟨F64.ofRat 225 10, F64.ofRat 15 1⟩)
              ((formatIndex "35mm").diag fu))
            (F64.div (size.circleOfConfusion fu ⟨F64.ofRat 225 10, F64.ofRat 15 1⟩)
              ((formatIndex "35mm").circleOfConfusion fu)) = true := by
  refine ⟨by decide, fun fu => ?_⟩
  cases fu <;> decide

/-- C6, amended: for every format in the table the binary64 quotients
`circleOfConfusion(f) / circleOfConfusion(35mm)` and `diag(f) / diag(35mm)`
differ by at most `2^-53`, one unit in the last place; for 35mm and m43 they
are equal. -/
theorem coc_ratio_close (fu : Fusion) :
    (∀ kv ∈ format, ∃ a b : ℚ,
        (F64.div (kv.2.circleOfConfusion fu) ((formatIndex "35mm").circleOfConfusion fu)).toRat = some a
          ∧ (F64.div (kv.2.diag fu) ((formatIndex "35mm").diag fu)).toRat = some b
          ∧ |a - b| ≤ 1 / 2 ^ 53)
      ∧ F64.div ((formatIndex "35mm").circleOfConfusion fu) ((formatIndex "35mm").circleOfConfusion fu)
          = F64.div ((formatIndex "35mm").diag fu) ((formatIndex "35mm").diag fu)
      ∧ F64.div ((formatIndex "m43").circleOfConfusion fu) ((formatIndex "35mm").circleOfConfusion fu)
          = F64.div ((formatIndex "m43").diag fu) ((formatIndex "35mm").diag fu) := by
  refine ⟨?_, by cases fu <;> decide, by cases fu <;> decide⟩
  intro kv hkv
  simp only [format, List.mem_cons, List.mem_singleton, List.not_mem_nil, or_false] at hkv
  rcases hkv with rfl | rfl | rfl | rfl | rfl
  · have e1 : F64.div (size.circleOfConfusion fu ⟨F64.ofRat 36 1, F64.ofRat 24 1⟩)
        ((formatIndex "35mm").circleOfConfusion fu) = F64.fin false 4503599627370496 1022 := by
      cases fu <;> decide
    have e2 : F64.div (size.diag fu ⟨F64.ofRat 36 1, F64.ofRat 24 1⟩) ((formatIndex "35mm").diag fu)
        = F64.fin false 4503599627370496 1022 := by
      cases fu <;> decide
    exact ⟨_, _, by rw [e1]; rfl, by rw [e2]; rfl, by norm_num [F64.signed]⟩
  · have e1 : F64.div (size.circleOfConfusion fu ⟨F64.ofRat 225 10, F64.ofRat 15 1⟩)
        ((formatIndex "35mm").circleOfConfusion fu) = F64.fin false 5629499534213120 1021 := by
      cases fu <;> decide
    have e2 : F64.div (size.diag fu ⟨F64.ofRat 225 10, F64.ofRat 15 1⟩) ((formatIndex "35mm").diag fu)
        = F64.fin false 5629499534213119 1021 := by
      cases fu <;> decide
    refine ⟨_, _, by rw [e1]; rfl, by rw [e2]; rfl, ?_⟩
    rw [abs_le]; constructor <;> norm_num [F64.signed]
  · have e1 : F64.div (size.circleOfConfusion fu ⟨F64.ofRat 236 10, F64.ofRat 156 10⟩)
        ((formatIndex "35mm").circleOfConfusion fu) = F64.fin false 5889367874528363 1021 := by
      cases fu <;> decide
    have e2 : F64.div (size.diag fu ⟨F64.ofRat 236 10, F64.ofRat 156 10⟩) ((formatIndex "35mm").diag fu)
        = F64.fin false 5889367874528362 1021 := by
      cases fu <;> decide
    refine ⟨_, _, by rw [e1]; rfl, by rw [e2]; rfl, ?_⟩
    rw [abs_le]; constructor <;> norm_num [F64.signed]
  · have e1 : F64.div (size.circleOfConfusion fu ⟨F64.ofRat 24 1, F64.ofRat 16 1⟩)
        ((formatIndex "35mm").circleOfConfusion fu) = F64.fin false 6004799503160660 1021 := by
      cases fu <;> decide
    have e2 : F64.div (size.diag fu ⟨F64.ofRat 24 1, F64.ofRat 16 1⟩) ((formatIndex "35mm").diag fu)
        = F64.fin false 6004799503160661 1021 := by
      cases fu <;> decide
    refine ⟨_, _, by rw [e1]; rfl, by rw [e2]; rfl, ?_⟩
    rw [abs_le]; constructor <;> norm_num [F64.signed]
  · have e1 : F64.div (size.circleOfConfusion fu ⟨F64.ofRat 18 1, F64.ofRat 135 10⟩)
        ((formatIndex "35mm").circleOfConfusion fu) = F64.fin false 4684026744416780 1021 := by
      cases fu <;> decide
    have e2 : F64.div (size.diag fu ⟨F64.ofRat 18 1, F64.ofRat 135 10⟩) ((formatIndex "35mm").diag fu)
        = F64.fin false 4684026744416780 1021 := by
      cases fu <;> decide
    exact ⟨_, _, by rw [e1]; rfl, by rw [e2]; rfl, by norm_num [F64.signed]⟩

/-- The circle of confusion is non-negative unless it is NaN: the basis is a
positive constant. -/
theorem circleOfConfusion_nonneg {fu : Fusion} (s : size) (h : (s.circleOfConfusion fu) ≠ F64.nan) :
    (s.circleOfConfusion fu).nonneg = true := by
  have hb : (F64.div (F64.ofRat 25 1000) ((formatIndex "35mm").diag fu)).nonneg = true := by
    cases fu <;> decide
  exact F64.mul_nonneg (diag_nonneg s (F64.mul_ne_nan_left h)) hb h

/-- The dividend of `depthOfField`, `2.0 * (d*d) * N * circleOfConfusion`, is
monotone in `d` and `N` over the positive values. -/
theorem dividend_mono (c N N' d d' : F64) (hc : c.nonneg = true)
    (hN : F64.lt F64.zero N = true) (hN' : F64.lt F64.zero N' = true)
    (hd : F64.lt F64.zero d = true) (hd' : F64.lt F64.zero d' = true)
    (hNN : F64.le N N' = true) (hdd : F64.le d d' = true)
    (h1 : F64.mul (F64.mul (F64.mul (F64.ofRat 2 1) (F64.mul d d)) N) c ≠ F64.nan)
    (h2 : F64.mul (F64.mul (F64.mul (F64.ofRat 2 1) (F64.mul d' d')) N') c ≠ F64.nan) :
    (F64.mul (F64.mul (F64.mul (F64.ofRat 2 1) (F64.mul d d)) N) c).nonneg = true
      ∧ (F64.mul (F64.mul (F64.mul (F64.ofRat 2 1) (F64.mul d' d')) N') c).nonneg = true
      ∧ F64.le (F64.mul (F64.mul (F64.mul (F64.ofRat 2 1) (F64.mul d d)) N) c)
          (F64.mul (F64.mul (F64.mul (F64.ofRat 2 1) (F64.mul d' d')) N') c) = true := by
  have n2 : (F64.ofRat 2 1).nonneg = true := F64.roundRat_nonneg _ _
  have nd := F64.nonneg_of_lt_zero hd
  have nd' := F64.nonneg_of_lt_zero hd'
  have nN := F64.nonneg_of_lt_zero hN
  have nN' := F64.nonneg_of_lt_zero hN'
  have z1 := F64.mul_ne_nan_left h1
  have z2 := F64.mul_ne_nan_left h2
  have y1 := F64.mul_ne_nan_left z1
  have y2 := F64.mul_ne_nan_left z2
  have x1 := F64.mul_ne_nan_right y1
  have x2 := F64.mul_ne_nan_right y2
  have nx1 := F64.mul_nonneg nd nd x1
  have nx2 := F64.mul_nonneg nd' nd' x2
  have lx := F64.mul_le_mul nd nd nd' nd' hdd hdd x1 x2
  have ny1 := F64.mul_nonneg n2 nx1 y1
  have ny2 := F64.mul_nonneg n2 nx2 y2
  have ly := F64.mul_le_mul n2 nx1 n2 nx2 (F64.le_refl_of_nonneg n2) lx y1 y2
  have nz1 := F64.mul_nonneg ny1 nN z1
  have nz2 := F64.mul_nonneg ny2 nN' z2
  have lz := F64.mul_le_mul ny1 nN ny2 nN' ly hNN z1 z2
  exact ⟨F64.mul_nonneg nz1 hc h1, F64.mul_nonneg nz2 hc h2,
    F64.mul_le_mul nz1 hc nz2 hc lz (F64.le_refl_of_nonneg hc) h1 h2⟩

/-! ### Accuracy of the depth of field -/

theorem F64.val_two : (F64.ofRat 2 1).val = 2 := by
  have e : F64.ofRat 2 1 = F64.fin false 4503599627370496 1023 := by decide
  rw [e, F64.val_fin]
  norm_num

theorem Close.abs_sub_le {k : Nat} {a b ε : ℚ} (ha : 0 ≤ a) (hb : 0 ≤ b) (h : Close k a b)
    (h1 : F64.step ^ k ≤ 1 + ε) (h2 : (1 - ε) * F64.step ^ k ≤ 1) (hε : ε ≤ 1) :
    |a - b| ≤ b * ε := by
  have u : a ≤ b * (1 + ε) := le_trans h.1 (mul_le_mul_of_nonneg_left h1 hb)
  have l : b * (1 - ε) ≤ a :=
    calc b * (1 - ε) ≤ a * F64.step ^ k * (1 - ε) :=
          mul_le_mul_of_nonneg_right h.2 (by linarith)
      _ = a * ((1 - ε) * F64.step ^ k) := by ring
      _ ≤ a * 1 := mul_le_mul_of_nonneg_left h2 ha
      _ = a := mul_one a
  rw [abs_le]
  constructor <;> linarith

theorem Close.lt_of_separated {j k : Nat} {a b a' b' ε : ℚ} (hb : 0 < b)
    (h : Close j a b) (h' : Close k a' b') (hs : b * (1 + ε) ≤ b')
    (hε : F64.step ^ j * F64.step ^ k < 1 + ε) : a < a' := by
  have hk : (0 : ℚ) < F64.step ^ k := pow_pos F64.step_pos _
  have h1 : a * F64.step ^ k ≤ b * (F64.step ^ j * F64.step ^ k) :=
    calc a * F64.step ^ k ≤ b * F64.step ^ j * F64.step ^ k :=
          mul_le_mul_of_nonneg_right h.1 (le_of_lt hk)
      _ = b * (F64.step ^ j * F64.step ^ k) := by ring
  have h2 : b * (F64.step ^ j * F64.step ^ k) < b * (1 + ε) := mul_lt_mul_of_pos_left hε hb
  have h3 : a * F64.step ^ k < a' * F64.step ^ k :=
    lt_of_le_of_lt h1 (lt_of_lt_of_le h2 (le_trans hs h'.2))
  exact lt_of_mul_lt_mul_right h3 (le_of_lt hk)

theorem F64.step_pow_six : F64.step ^ 6 ≤ 1 + 1 / 2 ^ 50
    ∧ (1 - 1 / 2 ^ 50) * F64.step ^ 6 ≤ 1 := by
  rw [F64.step_eq]
  constructor <;> norm_num

theorem F64.step_pow_twelve : F64.step ^ 6 * F64.step ^ 6 < 1 + 1 / 2 ^ 49 := by
  rw [F64.step_eq]
  norm_num

theorem F64.step_pow_fourteen : F64.step ^ 14 ≤ 1 + 1 / 2 ^ 49
    ∧ (1 - 1 / 2 ^ 49) * F64.step ^ 14 ≤ 1
    ∧ F64.step ^ 7 * F64.step ^ 7 < 1 + 1 / 2 ^ 49 := by
  rw [F64.step_eq]
  refine ⟨?_, ?_, ?_⟩ <;> norm_num

theorem F64.step_pow_sixteen : F64.step ^ 16 ≤ 1 + 1 / 2 ^ 48
    ∧ (1 - 1 / 2 ^ 48) * F64.step ^ 16 ≤ 1 := by
  rw [F64.step_eq]
  constructor <;> norm_num

/-- In the normal range the depth of field formula is within six roundings of
its exact value, and all operands are positive. -/
theorem dofFormula_close {d N c f : F64} (hd : d.nonneg = true) (hf : f.nonneg = true)
    (hr : dofRegular d N c f = true) :
    Close 6 (dofFormula d N c f).val (dofExact d.val N.val c.val f.val)
      ∧ 0 < dofExact d.val N.val c.val f.val
      ∧ 0 ≤ N.val ∧ 0 ≤ c.val ∧ 0 < d.val ∧ 0 < f.val := by
  simp only [dofRegular, Bool.and_eq_true] at hr
  obtain ⟨⟨⟨⟨⟨n1, n2⟩, n3⟩, n4⟩, n5⟩, n6⟩ := hr
  have vd := F64.val_nonneg hd
  have vf := F64.val_nonneg hf
  obtain ⟨-, c1⟩ := F64.mul_close hd n1
  have h2 : (F64.ofRat 2 1).nonneg = true := F64.roundRat_nonneg 2 1
  obtain ⟨-, c2⟩ := F64.mul_close h2 n2
  obtain ⟨hN, c3⟩ := F64.mul_close (F64.normal_nonneg n2) n3
  obtain ⟨hc, c4⟩ := F64.mul_close (F64.normal_nonneg n3) n4
  obtain ⟨-, c5⟩ := F64.mul_close hf n5
  obtain ⟨py, c6⟩ := F64.div_close (F64.normal_nonneg n4) (F64.normal_nonneg n5) n6
  have vN := F64.val_nonneg hN
  have vc := F64.val_nonneg hc
  have p1 := F64.val_pos_of_normal n1
  have p2 := F64.val_pos_of_normal n2
  have p3 := F64.val_pos_of_normal n3
  have p4 := F64.val_pos_of_normal n4
  have p5 := F64.val_pos_of_normal n5
  rw [F64.val_two] at c2
  have q1 : 0 < d.val * d.val := Close.pos p1 c1
  have q5 : 0 < f.val * f.val := Close.pos p5 c5
  have d2 : Close 2 (F64.mul (F64.ofRat 2 1) (F64.mul d d)).val (2 * (d.val * d.val)) :=
    Close.trans c2 (Close.mul (by norm_num) (by norm_num) (le_of_lt p1) (le_of_lt q1)
      (Close.refl 2) c1)
  have q2 : 0 < 2 * (d.val * d.val) := Close.pos p2 d2
  have d3 : Close 3 (F64.mul (F64.mul (F64.ofRat 2 1) (F64.mul d d)) N).val
      (2 * (d.val * d.val) * N.val) :=
    Close.trans c3 (Close.mul (le_of_lt p2) (le_of_lt q2) vN vN d2 (Close.refl _))
  have q3 : 0 < 2 * (d.val * d.val) * N.val := Close.pos p3 d3
  have d4 : Close 4 (F64.mul (F64.mul (F64.mul (F64.ofRat 2 1) (F64.mul d d)) N) c).val
      (2 * (d.val * d.val) * N.val * c.val) :=
    Close.trans c4 (Close.mul (le_of_lt p3) (le_of_lt q3) vc vc d3 (Close.refl _))
  have q4 : 0 < 2 * (d.val * d.val) * N.val * c.val := Close.pos p4 d4
  have d6 : Close 6 (dofFormula d N c f).val
      (2 * (d.val * d.val) * N.val * c.val / (f.val * f.val)) :=
    Close.trans c6 (Close.div (le_of_lt p4) (le_of_lt q4) p5 q5 d4 c5)
  have e : dofExact d.val N.val c.val f.val
      = 2 * (d.val * d.val) * N.val * c.val / (f.val * f.val) := by
    unfold dofExact
    ring
  rw [e]
  refine ⟨d6, div_pos q4 q5, vN, vc, ?_, ?_⟩
  · exact lt_of_le_of_ne vd (fun h => by rw [← h] at q1; simp at q1)
  · exact lt_of_le_of_ne vf (fun h => by rw [← h] at q5; simp at q5)

/-- In the normal range `depthOfField` is within six roundings of the exact
formula, taken at the values of its operands. -/
theorem depthOfField_close (fu : Fusion) (s : size) {f N d : F64}
    (hf : F64.lt F64.zero f = true) (hd : F64.lt F64.zero d = true)
    (hr : dofRegular d N (s.circleOfConfusion fu) f = true) :
    Close 6 (s.depthOfField fu f N d).val
        (dofExact d.val N.val (s.circleOfConfusion fu).val f.val)
      ∧ 0 < dofExact d.val N.val (s.circleOfConfusion fu).val f.val
      ∧ 0 ≤ N.val ∧ 0 ≤ (s.circleOfConfusion fu).val ∧ 0 < d.val ∧ 0 < f.val
      ∧ (s.depthOfField fu f N d).normal = true := by
  have h := dofFormula_close (F64.nonneg_of_lt_zero hd) (F64.nonneg_of_lt_zero hf) hr
  have hn : (dofFormula d N (s.circleOfConfusion fu) f).normal = true := by
    simp only [dofRegular, Bool.and_eq_true] at hr
    exact hr.2
  exact ⟨h.1, h.2.1, h.2.2.1, h.2.2.2.1, h.2.2.2.2.1, h.2.2.2.2.2, hn⟩

/-- The exact formula is proportional to the square of the focus distance, to
the aperture, to the circle of confusion and to the inverse square of the focal
length. -/
theorem dofExact_scale (d N c f a b g : ℚ) (hf : f ≠ 0) (hg : g ≠ 0) :
    dofExact (a * d) (b * N) c (g * f) = a ^ 2 * b / g ^ 2 * dofExact d N c f := by
  unfold dofExact
  field_simp
  ring

/-- Lower bounds for the growth of the exact formula when one operand grows by
a given factor. -/
theorem dofExact_separated (d d' N N' c f f' : ℚ) (hd : 0 < d) (hN : 0 ≤ N) (hc : 0 ≤ c)
    (hf' : 0 < f') :
    (d * (1 + 1 / 2 ^ 50) ≤ d' →
        dofExact d N c f' * (1 + 1 / 2 ^ 49) ≤ dofExact d' N c f')
      ∧ (N * (1 + 1 / 2 ^ 49) ≤ N' →
        dofExact d N c f' * (1 + 1 / 2 ^ 49) ≤ dofExact d N' c f')
      ∧ (f' * (1 + 1 / 2 ^ 50) ≤ f →
        dofExact d N c f * (1 + 1 / 2 ^ 49) ≤ dofExact d N c f') := by
  have hf2 : 0 < f' ^ 2 := by positivity
  refine ⟨fun h => ?_, fun h => ?_, fun h => ?_⟩
  · have h2 : d ^ 2 * (1 + 1 / 2 ^ 49) ≤ d' ^ 2 := by
      have h0 : 0 ≤ d * (1 + 1 / 2 ^ 50) := by positivity
      have h3 : (d * (1 + 1 / 2 ^ 50)) ^ 2 ≤ d' ^ 2 := pow_le_pow_left₀ h0 h 2
      have h4 : d ^ 2 * (1 + 1 / 2 ^ 49) ≤ (d * (1 + 1 / 2 ^ 50)) ^ 2 := by
        have : 0 ≤ d ^ 2 := by positivity
        nlinarith
      exact le_trans h4 h3
    have hK : 0 ≤ 2 * N * c / f' ^ 2 := by positivity
    calc dofExact d N c f' * (1 + 1 / 2 ^ 49)
        = 2 * N * c / f' ^ 2 * (d ^ 2 * (1 + 1 / 2 ^ 49)) := by unfold dofExact; ring
      _ ≤ 2 * N * c / f' ^ 2 * d' ^ 2 := mul_le_mul_of_nonneg_left h2 hK
      _ = dofExact d' N c f' := by unfold dofExact; ring
  · have hK : 0 ≤ 2 * d ^ 2 * c / f' ^ 2 := by positivity
    calc dofExact d N c f' * (1 + 1 / 2 ^ 49)
        = 2 * d ^ 2 * c / f' ^ 2 * (N * (1 + 1 / 2 ^ 49)) := by unfold dofExact; ring
      _ ≤ 2 * d ^ 2 * c / f' ^ 2 * N' := mul_le_mul_of_nonneg_left h hK
      _ = dofExact d N' c f' := by unfold dofExact; ring
  · have h0 : 0 ≤ f' * (1 + 1 / 2 ^ 50) := by positivity
    have hf : 0 < f := lt_of_lt_of_le (by positivity) h
    have h3 : (f' * (1 + 1 / 2 ^ 50)) ^ 2 ≤ f ^ 2 := pow_le_pow_left₀ h0 h 2
    have h4 : f' ^ 2 * (1 + 1 / 2 ^ 49) ≤ f ^ 2 := by
      have : 0 ≤ f' ^ 2 := by positivity
      nlinarith
    have hK : 0 ≤ 2 * d ^ 2 * N * c := by positivity
    have hfq : 0 < f ^ 2 := by positivity
    have h5 : (1 + 1 / 2 ^ 49) / f ^ 2 ≤ 1 / f' ^ 2 := by
      rw [div_le_div_iff₀ hfq hf2]
      linarith
    calc dofExact d N c f * (1 + 1 / 2 ^ 49)
        = 2 * d ^ 2 * N * c * ((1 + 1 / 2 ^ 49) / f ^ 2) := by unfold dofExact; ring
      _ ≤ 2 * d ^ 2 * N * c * (1 / f' ^ 2) := mul_le_mul_of_nonneg_left h5 hK
      _ = dofExact d N c f' := by unfold dofExact; ring

/-- In the normal range, operands whose exact formula values differ by the
factor `1 + 2^-49` or more give strictly ordered depths of field. -/
theorem depthOfField_lt_of_separated (fu : Fusion) (s : size) {f f' N N' d d' : F64}
    (hf : F64.lt F64.zero f = true) (hf' : F64.lt F64.zero f' = true)
    (hd : F64.lt F64.zero d = true) (hd' : F64.lt F64.zero d' = true)
    (hr : dofRegular d N (s.circleOfConfusion fu) f = true)
    (hr' : dofRegular d' N' (s.circleOfConfusion fu) f' = true)
    (hs : dofExact d.val N.val (s.circleOfConfusion fu).val f.val * (1 + 1 / 2 ^ 49)
      ≤ dofExact d'.val N'.val (s.circleOfConfusion fu).val f'.val) :
    F64.lt (s.depthOfField fu f N d) (s.depthOfField fu f' N' d') = true := by
  obtain ⟨c1, p1, -, -, -, -, n1⟩ := depthOfField_close fu s hf hd hr
  obtain ⟨c2, -, -, -, -, -, n2⟩ := depthOfField_close fu s hf' hd' hr'
  exact F64.lt_of_val_lt n1 n2 (Close.lt_of_separated p1 c1 c2 hs F64.step_pow_twelve)

/-! ### Results in the normal range -/

/-- A rounded significand of 53 bits below the overflow threshold packs to a
positive normal number. -/
theorem F64.pack_normal (m e : Nat) (hm : 2 ^ 52 ≤ m) (h : m * 2 ^ e < 2 ^ 2098) :
    (F64.pack false m e).normal = true := by
  by_cases h53 : m = 2 ^ 53
  · have he : e + 1 ≤ 2045 := by
      rw [h53, ← pow_add] at h
      have := (Nat.pow_lt_pow_iff_right (by decide : 1 < 2)).1 h
      omega
    unfold F64.pack
    simp only
    rw [if_pos h53, if_pos h53, if_neg (by omega)]
    simp [F64.normal]
  · have he : e ≤ 2045 := by
      by_contra hc
      have hc : 2046 ≤ e := by omega
      have h0 : (2 : Nat) ^ 2098 = 2 ^ 52 * 2 ^ 2046 := by norm_num
      have h1 : 2 ^ 2098 ≤ m * 2 ^ e := by
        rw [h0]
        exact Nat.mul_le_mul hm (F64.two_pow_le hc)
      exact absurd (lt_of_le_of_lt h1 h) (lt_irrefl _)
    unfold F64.pack
    simp only
    rw [if_neg h53, if_neg h53, if_neg (by omega)]
    simpa [F64.normal] using hm

/-- A fraction between `2 ^ (-1022)` and `2 ^ 1023` rounds to a positive normal
number. -/
theorem F64.roundRat_normal_of_range (n d : Nat) (hd : 0 < d)
    (hlo : d * 2 ^ 52 ≤ n * 2 ^ 1074) (hhi : n * 2 ^ 1074 ≤ d * 2 ^ 2097) :
    (F64.roundRat false n d).normal = true := by
  have hQlo : 2 ^ 52 ≤ n * 2 ^ 1074 / d :=
    (Nat.le_div_iff_mul_le hd).2 (by rw [Nat.mul_comm]; exact hlo)
  have hQhi : n * 2 ^ 1074 / d ≤ 2 ^ 2097 :=
    Nat.div_le_of_le_mul hhi
  have hQ0 : n * 2 ^ 1074 / d ≠ 0 := by
    have : 0 < n * 2 ^ 1074 / d := lt_of_lt_of_le (F64.two_pow_pos 52) hQlo
    omega
  obtain ⟨l1, l2⟩ := F64.ilog2_spec _ hQ0
  have hL52 : 52 ≤ F64.ilog2 (n * 2 ^ 1074 / d) := by
    have := (Nat.pow_lt_pow_iff_right (by decide : 1 < 2)).1 (lt_of_le_of_lt hQlo l2)
    omega
  have hL : F64.ilog2 (n * 2 ^ 1074 / d) ≤ 2097 :=
    (Nat.pow_le_pow_iff_right (by decide : 1 < 2)).1 (le_trans l1 hQhi)
  have hE : F64.roundExp n d ≤ 2045 := by
    unfold F64.roundExp
    omega
  have hEQ : 2 ^ 52 * 2 ^ F64.roundExp n d ≤ n * 2 ^ 1074 / d := by
    have e : 2 ^ 52 * 2 ^ F64.roundExp n d = 2 ^ F64.ilog2 (n * 2 ^ 1074 / d) := by
      unfold F64.roundExp
      rw [← pow_add]
      congr 1
      omega
    rw [e]
    exact l1
  have hpos : 0 < d * 2 ^ F64.roundExp n d := Nat.mul_pos hd (F64.two_pow_pos _)
  have hS : 2 ^ 52 ≤ F64.roundSig n d := by
    refine le_trans ((Nat.le_div_iff_mul_le hpos).2 ?_) (F64.div_le_rne _ _)
    calc 2 ^ 52 * (d * 2 ^ F64.roundExp n d)
        = d * (2 ^ 52 * 2 ^ F64.roundExp n d) := by ring
      _ ≤ d * (n * 2 ^ 1074 / d) := Nat.mul_le_mul_left d hEQ
      _ ≤ n * 2 ^ 1074 := Nat.mul_div_le _ d
  have hfin : F64.roundSig n d * 2 ^ F64.roundExp n d < 2 ^ 2098 := by
    by_contra hc
    have hc : 2 ^ 2098 ≤ F64.roundSig n d * 2 ^ F64.roundExp n d := not_lt.1 hc
    have h2 := (F64.roundRat_nearest n d hd).2
    have hE' : 2 ^ F64.roundExp n d ≤ 2 ^ 2045 := F64.two_pow_le hE
    have k : d * (2 * 2 ^ 2098) ≤ d * (2 * 2 ^ 2097 + 2 ^ 2045) :=
      calc d * (2 * 2 ^ 2098)
          ≤ d * (2 * (F64.roundSig n d * 2 ^ F64.roundExp n d)) :=
            Nat.mul_le_mul_left d (Nat.mul_le_mul_left 2 hc)
        _ = 2 * (F64.roundSig n d * (d * 2 ^ F64.roundExp n d)) := by ring
        _ ≤ 2 * (n * 2 ^ 1074) + d * 2 ^ F64.roundExp n d := h2
        _ ≤ 2 * (d * 2 ^ 2097) + d * 2 ^ 2045 :=
            Nat.add_le_add (Nat.mul_le_mul_left 2 hhi) (Nat.mul_le_mul_left d hE')
        _ = d * (2 * 2 ^ 2097 + 2 ^ 2045) := by ring
    have k' := Nat.le_of_mul_le_mul_left k hd
    norm_num at k'
  unfold F64.roundRat
  exact F64.pack_normal _ _ hS hfin

/-- A value that is positive is a finite value with the sign bit clear. -/
theorem F64.fin_of_val_pos {x : F64} (h : 0 < x.val) : ∃ m e, x = F64.fin false m e := by
  cases x with
  | nan => simp [F64.val] at h
  | inf s => simp [F64.val] at h
  | fin s m e =>
    cases s with
    | false => exact ⟨m, e, rfl⟩
    | true =>
      exfalso
      have hP : (0 : ℚ) < 2 ^ 1074 := pow_pos (by norm_num) _
      have hn : (F64.fin true m e).val ≤ 0 := by
        simp only [F64.val, F64.signed, if_true]
        apply div_nonpos_of_nonpos_of_nonneg _ (le_of_lt hP)
        simp
      exact absurd h (not_lt.2 hn)

theorem F64.nonneg_of_val_pos {x : F64} (h : 0 < x.val) : x.nonneg = true := by
  obtain ⟨m, e, rfl⟩ := F64.fin_of_val_pos h
  rfl

/-- A product of positive values whose exact value lies between `2 ^ (-1022)`
and `2 ^ 1023` comes out normal. -/
theorem F64.mul_normal_of_range {a b : F64} (ha : 0 < a.val) (hb : 0 < b.val)
    (hlo : 1 / 2 ^ 1022 ≤ a.val * b.val) (hhi : a.val * b.val ≤ 2 ^ 1023) :
    (F64.mul a b).normal = true := by
  obtain ⟨m, e, rfl⟩ := F64.fin_of_val_pos ha
  obtain ⟨k, f, rfl⟩ := F64.fin_of_val_pos hb
  rw [F64.mul_fin_fin]
  rw [F64.val_fin, F64.val_fin] at hlo hhi
  have hP : (0 : ℚ) < 2 ^ 1074 := pow_pos (by norm_num) _
  have e1 : (2 : ℚ) ^ 2148 = 2 ^ 1074 * 2 ^ 1074 := by rw [← pow_add]
  have e2 : (2 : ℚ) ^ 1074 = 2 ^ 52 * 2 ^ 1022 := by rw [← pow_add]
  have e3 : (2 : ℚ) ^ 2097 = 2 ^ 1023 * 2 ^ 1074 := by rw [← pow_add]
  have h1022 : (0 : ℚ) < 2 ^ 1022 := pow_pos (by norm_num) _
  have h52 : (0 : ℚ) < 2 ^ 52 := pow_pos (by norm_num) _
  rw [div_mul_div_comm, div_le_div_iff₀ h1022 (mul_pos hP hP), one_mul] at hlo
  rw [div_mul_div_comm, div_le_iff₀ (mul_pos hP hP)] at hhi
  apply F64.roundRat_normal_of_range _ _ (F64.two_pow_pos _)
  · have q : (2 : ℚ) ^ 2148 * 2 ^ 52 ≤ (m : ℚ) * k * 2 ^ (e + f) * 2 ^ 1074 :=
      calc (2 : ℚ) ^ 2148 * 2 ^ 52 = 2 ^ 1074 * 2 ^ 1074 * 2 ^ 52 := by rw [e1]
        _ ≤ (m : ℚ) * 2 ^ e * (k * 2 ^ f) * 2 ^ 1022 * 2 ^ 52 :=
            mul_le_mul_of_nonneg_right hlo (le_of_lt h52)
        _ = (m : ℚ) * k * 2 ^ (e + f) * 2 ^ 1074 := by rw [e2, pow_add]; ring
    exact_mod_cast q
  · have q : (m : ℚ) * k * 2 ^ (e + f) * 2 ^ 1074 ≤ 2 ^ 2148 * 2 ^ 2097 :=
      calc (m : ℚ) * k * 2 ^ (e + f) * 2 ^ 1074
          = (m : ℚ) * 2 ^ e * (k * 2 ^ f) * 2 ^ 1074 := by rw [pow_add]; ring
        _ ≤ 2 ^ 1023 * (2 ^ 1074 * 2 ^ 1074) * 2 ^ 1074 :=
            mul_le_mul_of_nonneg_right hhi (le_of_lt hP)
        _ = 2 ^ 2148 * 2 ^ 2097 := by rw [e1, e3]; ring
    exact_mod_cast q

/-- A quotient of positive values whose exact value lies between `2 ^ (-1022)`
and `2 ^ 1023` comes out normal. -/
theorem F64.div_normal_of_range {a b : F64} (ha : 0 < a.val) (hb : 0 < b.val)
    (hlo : 1 / 2 ^ 1022 ≤ a.val / b.val) (hhi : a.val / b.val ≤ 2 ^ 1023) :
    (F64.div a b).normal = true := by
  obtain ⟨m, e, rfl⟩ := F64.fin_of_val_pos ha
  obtain ⟨k, f, rfl⟩ := F64.fin_of_val_pos hb
  have hP : (0 : ℚ) < 2 ^ 1074 := pow_pos (by norm_num) _
  have hk : k ≠ 0 := by
    rintro rfl
    rw [F64.val_fin] at hb
    simp at hb
  have hkq : (0 : ℚ) < (k : ℚ) * 2 ^ f := by
    have : 0 < k := Nat.pos_of_ne_zero hk
    have : (0 : ℚ) < k := by exact_mod_cast this
    positivity
  rw [F64.div_fin_fin m e k f hk]
  rw [F64.val_fin, F64.val_fin, F64.div_div_cancel _ _ _ (ne_of_gt hP)] at hlo hhi
  have e2 : (2 : ℚ) ^ 1074 = 2 ^ 52 * 2 ^ 1022 := by rw [← pow_add]
  have e3 : (2 : ℚ) ^ 2097 = 2 ^ 1023 * 2 ^ 1074 := by rw [← pow_add]
  have h1022 : (0 : ℚ) < 2 ^ 1022 := pow_pos (by norm_num) _
  have h52 : (0 : ℚ) < 2 ^ 52 := pow_pos (by norm_num) _
  rw [div_le_div_iff₀ h1022 hkq, one_mul] at hlo
  rw [div_le_iff₀ hkq] at hhi
  apply F64.roundRat_normal_of_range _ _ (Nat.mul_pos (Nat.pos_of_ne_zero hk) (F64.two_pow_pos _))
  · have q : (k : ℚ) * 2 ^ f * 2 ^ 52 ≤ (m : ℚ) * 2 ^ e * 2 ^ 1074 :=
      calc (k : ℚ) * 2 ^ f * 2 ^ 52 ≤ (m : ℚ) * 2 ^ e * 2 ^ 1022 * 2 ^ 52 :=
            mul_le_mul_of_nonneg_right hlo (le_of_lt h52)
        _ = (m : ℚ) * 2 ^ e * 2 ^ 1074 := by rw [e2]; ring
    exact_mod_cast q
  · have q : (m : ℚ) * 2 ^ e * 2 ^ 1074 ≤ (k : ℚ) * 2 ^ f * 2 ^ 2097 :=
      calc (m : ℚ) * 2 ^ e * 2 ^ 1074 ≤ 2 ^ 1023 * ((k : ℚ) * 2 ^ f) * 2 ^ 1074 :=
            mul_le_mul_of_nonneg_right hhi (le_of_lt hP)
        _ = (k : ℚ) * 2 ^ f * 2 ^ 2097 := by rw [e3]; ring
    exact_mod_cast q

theorem F64.step_le_two : F64.step ≤ 2 := by
  rw [F64.step_eq]; norm_num

/-- A product of values in given positive ranges, with the exact product in the
normal range, is normal and lies within a factor two of the product of the
bounds. -/
theorem product_range {a b : F64} {L1 U1 L2 U2 : ℚ} (h1 : 0 < L1) (h2 : 0 < L2)
    (ha : L1 ≤ a.val ∧ a.val ≤ U1) (hb : L2 ≤ b.val ∧ b.val ≤ U2)
    (hL : 1 / 2 ^ 1022 ≤ L1 * L2) (hU : U1 * U2 ≤ 2 ^ 1023) :
    (F64.mul a b).normal = true
      ∧ L1 * L2 / 2 ≤ (F64.mul a b).val ∧ (F64.mul a b).val ≤ U1 * U2 * 2 := by
  have pa : 0 < a.val := lt_of_lt_of_le h1 ha.1
  have pb : 0 < b.val := lt_of_lt_of_le h2 hb.1
  have lo : L1 * L2 ≤ a.val * b.val := mul_le_mul ha.1 hb.1 (le_of_lt h2) (le_of_lt pa)
  have hi : a.val * b.val ≤ U1 * U2 :=
    mul_le_mul ha.2 hb.2 (le_of_lt pb) (le_trans (le_of_lt pa) ha.2)
  have hn := F64.mul_normal_of_range pa pb (le_trans hL lo) (le_trans hi hU)
  obtain ⟨-, c⟩ := F64.mul_close (F64.nonneg_of_val_pos pa) hn
  have pv := F64.val_pos_of_normal hn
  have c1 := c.le
  have c2 := c.ge
  rw [pow_one] at c1 c2
  have s2 := F64.step_le_two
  have s0 := F64.step_pos
  have px : 0 < a.val * b.val := mul_pos pa pb
  refine ⟨hn, ?_, ?_⟩
  · have : a.val * b.val ≤ (F64.mul a b).val * 2 :=
      le_trans c2 (mul_le_mul_of_nonneg_left s2 (le_of_lt pv))
    linarith
  · have : (F64.mul a b).val ≤ a.val * b.val * 2 :=
      le_trans c1 (mul_le_mul_of_nonneg_left s2 (le_of_lt px))
    linarith

/-- A quotient of values in given positive ranges, with the exact quotient in
the normal range, is normal and lies within a factor two of the quotient of the
bounds. -/
theorem quotient_range {a b : F64} {L1 U1 L2 U2 : ℚ} (h1 : 0 < L1) (h2 : 0 < L2)
    (ha : L1 ≤ a.val ∧ a.val ≤ U1) (hb : L2 ≤ b.val ∧ b.val ≤ U2)
    (hL : 1 / 2 ^ 1022 ≤ L1 / U2) (hU : U1 / L2 ≤ 2 ^ 1023) :
    (F64.div a b).normal = true
      ∧ L1 / U2 / 2 ≤ (F64.div a b).val ∧ (F64.div a b).val ≤ U1 / L2 * 2 := by
  have pa : 0 < a.val := lt_of_lt_of_le h1 ha.1
  have pb : 0 < b.val := lt_of_lt_of_le h2 hb.1
  have pU : 0 < U2 := lt_of_lt_of_le pb hb.2
  have lo : L1 / U2 ≤ a.val / b.val := div_le_div₀ (le_of_lt pa) ha.1 pb hb.2
  have hi : a.val / b.val ≤ U1 / L2 :=
    div_le_div₀ (le_trans (le_of_lt pa) ha.2) ha.2 h2 hb.1
  have hn := F64.div_normal_of_range pa pb (le_trans hL lo) (le_trans hi hU)
  obtain ⟨-, c⟩ := F64.div_close (F64.nonneg_of_val_pos pa) (F64.nonneg_of_val_pos pb) hn
  have pv := F64.val_pos_of_normal hn
  have c1 := c.le
  have c2 := c.ge
  rw [pow_one] at c1 c2
  have s2 := F64.step_le_two
  have px : 0 < a.val / b.val := div_pos pa pb
  refine ⟨hn, ?_, ?_⟩
  · have : a.val / b.val ≤ (F64.div a b).val * 2 :=
      le_trans c2 (mul_le_mul_of_nonneg_left s2 (le_of_lt pv))
    linarith
  · have : (F64.div a b).val ≤ a.val / b.val * 2 :=
      le_trans c1 (mul_le_mul_of_nonneg_left s2 (le_of_lt px))
    linarith

/-- For a focus distance, an aperture, a circle of confusion and a focal length
between `2 ^ (-100)` and `2 ^ 100` the depth of field runs in the normal range,
and comes out between `2 ^ (-605)` and `2 ^ 607`. -/
theorem dofRegular_of_moderate {d N c f : F64} (hd : d.moderate) (hN : N.moderate)
    (hc : c.moderate) (hf : f.moderate) :
    dofRegular d N c f = true
      ∧ 1 / 2 ^ 605 ≤ (dofFormula d N c f).val ∧ (dofFormula d N c f).val ≤ 2 ^ 607 := by
  have p : (0 : ℚ) < 1 / 2 ^ 100 := by norm_num
  have h2 : (2 : ℚ) ≤ (F64.ofRat 2 1).val ∧ (F64.ofRat 2 1).val ≤ 2 := by
    rw [F64.val_two]
    exact ⟨le_refl _, le_refl _⟩
  obtain ⟨n1, r1⟩ := product_range p p hd hd (by norm_num) (by norm_num)
  obtain ⟨n2, r2⟩ := product_range (by norm_num) (by norm_num) h2 r1 (by norm_num)
    (by norm_num)
  obtain ⟨n3, r3⟩ := product_range (by norm_num) p r2 hN (by norm_num) (by norm_num)
  obtain ⟨n4, r4⟩ := product_range (by norm_num) p r3 hc (by norm_num) (by norm_num)
  obtain ⟨n5, r5⟩ := product_range p p hf hf (by norm_num) (by norm_num)
  obtain ⟨n6, r6⟩ := quotient_range (by norm_num) (by norm_num) r4 r5 (by norm_num)
    (by norm_num)
  have n6' : (dofFormula d N c f).normal = true := n6
  have r6' : 1 / 2 ^ 605 ≤ (dofFormula d N c f).val ∧ (dofFormula d N c f).val ≤ 2 ^ 607 := by
    constructor
    · refine le_trans ?_ r6.1
      norm_num
    · refine le_trans r6.2 ?_
      norm_num
  refine ⟨?_, r6'⟩
  simp only [dofRegular, Bool.and_eq_true]
  exact ⟨⟨⟨⟨⟨n1, n2⟩, n3⟩, n4⟩, n5⟩, n6'⟩

/-- The basis of the circle of confusion, however the sum of squares is
evaluated. -/
theorem cocBasis_eq (fu : Fusion) : cocBasis fu = F64.fin false 5329381540314203 1011 := by
  cases fu <;> decide

/-- The circle of confusion of every table format lies between `2 ^ (-100)` and
`2 ^ 100`. -/
theorem circleOfConfusion_table_moderate (fu : Fusion) :
    ∀ kv ∈ format, (kv.2.circleOfConfusion fu).moderate := by
  have e : ∀ kv ∈ format,
      kv.2.circleOfConfusion fu = kv.2.circleOfConfusion Fusion.separate := by
    cases fu <;> decide
  intro kv hkv
  rw [e kv hkv]
  simp only [format, List.mem_cons, List.mem_singleton, List.not_mem_nil, or_false] at hkv
  rcases hkv with rfl | rfl | rfl | rfl | rfl
  · have v : size.circleOfConfusion Fusion.separate ⟨F64.ofRat 36 1, F64.ofRat 24 1⟩
        = F64.fin false 7205759403792793 1016 := by decide
    simp only [F64.moderate]
    rw [v, F64.val_fin]
    constructor <;> norm_num
  · have v : size.circleOfConfusion Fusion.separate ⟨F64.ofRat 225 10, F64.ofRat 15 1⟩
        = F64.fin false 9007199254740991 1015 := by decide
    simp only [F64.moderate]
    rw [v, F64.val_fin]
    constructor <;> norm_num
  · have v : size.circleOfConfusion Fusion.separate ⟨F64.ofRat 236 10, F64.ofRat 156 10⟩
        = F64.fin false 4711494299622690 1016 := by decide
    simp only [F64.moderate]
    rw [v, F64.val_fin]
    constructor <;> norm_num
  · have v : size.circleOfConfusion Fusion.separate ⟨F64.ofRat 24 1, F64.ofRat 16 1⟩
        = F64.fin false 4803839602528528 1016 := by decide
    simp only [F64.moderate]
    rw [v, F64.val_fin]
    constructor <;> norm_num
  · have v : size.circleOfConfusion Fusion.separate ⟨F64.ofRat 18 1, F64.ofRat 135 10⟩
        = F64.fin false 7494442791066848 1015 := by decide
    simp only [F64.moderate]
    rw [v, F64.val_fin]
    constructor <;> norm_num

/-- A size whose diagonal lies between `2 ^ (-80)` and `2 ^ 80` has a normal
circle of confusion between `2 ^ (-100)` and `2 ^ 100`. -/
theorem circleOfConfusion_of_diag_range (fu : Fusion) (s : size)
    (hg : 1 / 2 ^ 80 ≤ (s.diag fu).val ∧ (s.diag fu).val ≤ 2 ^ 80) :
    (s.circleOfConfusion fu).normal = true ∧ (s.circleOfConfusion fu).moderate := by
  have hb : (1 : ℚ) / 2 ^ 11 ≤ (cocBasis fu).val ∧ (cocBasis fu).val ≤ 1 / 2 ^ 10 := by
    rw [cocBasis_eq, F64.val_fin]
    constructor <;> norm_num
  obtain ⟨n, r⟩ := product_range (by norm_num) (by norm_num) hg hb (by norm_num) (by norm_num)
  have n' : (s.circleOfConfusion fu).normal = true := n
  have r' : (s.circleOfConfusion fu).moderate := by
    constructor
    · refine le_trans ?_ r.1
      norm_num
    · refine le_trans r.2 ?_
      norm_num
  exact ⟨n', r'⟩

/-- For sizes with a diagonal between `2 ^ (-80)` and `2 ^ 80` and a focal
length, an aperture and a focus distance between `2 ^ (-100)` and `2 ^ 100`,
the circle of confusion, the depth of field and its product with such a
diagonal all run in the normal range. -/
theorem regular_of_moderate (fu : Fusion) (s t : size) {f N d : F64}
    (hs : 1 / 2 ^ 80 ≤ (s.diag fu).val ∧ (s.diag fu).val ≤ 2 ^ 80)
    (ht : 1 / 2 ^ 80 ≤ (t.diag fu).val ∧ (t.diag fu).val ≤ 2 ^ 80)
    (hf : f.moderate) (hN : N.moderate) (hd : d.moderate) :
    s.regular fu f N d = true
      ∧ (F64.mul (s.depthOfField fu f N d) (t.diag fu)).normal = true := by
  obtain ⟨n, m⟩ := circleOfConfusion_of_diag_range fu s hs
  obtain ⟨r, v⟩ := dofRegular_of_moderate hd hN m hf
  have v' : 1 / 2 ^ 605 ≤ (s.depthOfField fu f N d).val
      ∧ (s.depthOfField fu f N d).val ≤ 2 ^ 607 := v
  obtain ⟨k, -⟩ := product_range (by norm_num) (by norm_num) v' ht (by norm_num)
    (by norm_num)
  refine ⟨?_, k⟩
  simp only [size.regular, Bool.and_eq_true]
  exact ⟨n, r⟩

/-- C7, as stated, fails: for the 35mm format, focal length 35 and focus
distance 5000, the apertures 4.0 and 4.000000000000001 give the same depth of
field, so it is not strictly increasing in the aperture. -/
theorem depthOfField_not_strict :
    F64.lt (F64.ofRat 4 1) (F64.ofRat 4000000000000001 (10 ^ 15)) = true
      ∧ ∀ fu : Fusion,
        F64.lt
            ((formatIndex "35mm").depthOfField fu (F64.ofRat 35 1) (F64.ofRat 4 1)
              (F64.ofRat 5000 1))
            ((formatIndex "35mm").depthOfField fu (F64.ofRat 35 1)
              (F64.ofRat 4000000000000001 (10 ^ 15)) (F64.ofRat 5000 1)) = false
          ∧ (formatIndex "35mm").depthOfField fu (F64.ofRat 35 1) (F64.ofRat 4 1)
              (F64.ofRat 5000 1)
            = (formatIndex "35mm").depthOfField fu (F64.ofRat 35 1)
                (F64.ofRat 4000000000000001 (10 ^ 15)) (F64.ofRat 5000 1) := by
  refine ⟨by decide, fun fu => ?_⟩
  cases fu <;> decide

/-- In the normal range the depth of field differs from the exact value of the
formula by at most the fraction `2^-50` of it. -/
theorem depthOfField_accurate (fu : Fusion) (s : size) {f N d : F64}
    (hf : F64.lt F64.zero f = true) (hd : F64.lt F64.zero d = true)
    (hr : dofRegular d N (s.circleOfConfusion fu) f = true) :
    |(s.depthOfField fu f N d).val - dofExact d.val N.val (s.circleOfConfusion fu).val f.val|
      ≤ dofExact d.val N.val (s.circleOfConfusion fu).val f.val * (1 / 2 ^ 50) := by
  obtain ⟨c, p, -, -, -, -, n⟩ := depthOfField_close fu s hf hd hr
  exact Close.abs_sub_le (le_of_lt (F64.val_pos_of_normal n)) (le_of_lt p) c
    F64.step_pow_six.1 F64.step_pow_six.2 (by norm_num)

/-- In the normal range the depth of field grows strictly when the focus
distance grows by the factor `1 + 2^-50`, when the aperture grows by the factor
`1 + 2^-49`, and when the focal length shrinks by the factor `1 + 2^-50`, the
other two parameters held fixed. -/
theorem depthOfField_strict_each (fu : Fusion) (s : size) (f f' N N' d d' : F64)
    (hf : F64.lt F64.zero f = true) (hf' : F64.lt F64.zero f' = true)
    (hd : F64.lt F64.zero d = true) (hd' : F64.lt F64.zero d' = true)
    (hr : dofRegular d N (s.circleOfConfusion fu) f = true) :
    (dofRegular d' N (s.circleOfConfusion fu) f = true →
        d.val * (1 + 1 / 2 ^ 50) ≤ d'.val →
        F64.lt (s.depthOfField fu f N d) (s.depthOfField fu f N d') = true)
      ∧ (dofRegular d N' (s.circleOfConfusion fu) f = true →
        N.val * (1 + 1 / 2 ^ 49) ≤ N'.val →
        F64.lt (s.depthOfField fu f N d) (s.depthOfField fu f N' d) = true)
      ∧ (dofRegular d N (s.circleOfConfusion fu) f' = true →
        f'.val * (1 + 1 / 2 ^ 50) ≤ f.val →
        F64.lt (s.depthOfField fu f N d) (s.depthOfField fu f' N d) = true) := by
  obtain ⟨-, -, vN, vc, vd, vf, -⟩ := depthOfField_close fu s hf hd hr
  refine ⟨fun hr' hs => ?_, fun hr' hs => ?_, fun hr' hs => ?_⟩
  · exact depthOfField_lt_of_separated fu s hf hf hd hd' hr hr'
      ((dofExact_separated d.val d'.val N.val N.val _ f.val f.val vd vN vc vf).1 hs)
  · exact depthOfField_lt_of_separated fu s hf hf hd hd hr hr'
      ((dofExact_separated d.val d.val N.val N'.val _ f.val f.val vd vN vc vf).2.1 hs)
  · obtain ⟨-, -, -, -, -, vf', -⟩ := depthOfField_close fu s hf' hd hr'
    exact depthOfField_lt_of_separated fu s hf hf' hd hd hr hr'
      ((dofExact_separated d.val d.val N.val N.val _ f.val f'.val vd vN vc vf').2.2 hs)

/-- C7, amended: for every size (so for every table format), however the sum
of squares in `diag` is evaluated, and all strictly positive focal lengths,
apertures and focus distances: `depthOfField` does not decrease when the focus
distance or the aperture grows or the focal length shrinks, whenever neither
result is NaN.  When the six floating-point results of a computation are
positive normal numbers, the depth of field differs from the exact value of
`2 d² N c / f²` (quadratic in `d`, linear in `N`, inverse-square in `f`) by at
most the fraction `2^-50` of it; and two such computations are strictly
ordered as soon as their exact values differ by the factor `1 + 2^-49`, which
is the case when the focus distance grows by the factor `1 + 2^-50`, the
aperture by `1 + 2^-49`, or the focal length shrinks by `1 + 2^-50`, the other
two parameters held fixed.  The computation runs in the normal range whenever
focal length, aperture, focus distance and circle of confusion lie between
`2^-100` and `2^100`; the circle of confusion of every table format does, so
for every table format and such parameters the accuracy bound and the three
strict orders hold. -/
theorem depthOfField_monotone (fu : Fusion) (s : size) (f f' N N' d d' : F64)
    (hf : F64.lt F64.zero f = true) (hf' : F64.lt F64.zero f' = true)
    (hN : F64.lt F64.zero N = true) (hN' : F64.lt F64.zero N' = true)
    (hd : F64.lt F64.zero d = true) (hd' : F64.lt F64.zero d' = true)
    (hff : F64.le f' f = true) (hNN : F64.le N N' = true) (hdd : F64.le d d' = true)
    (h1 : s.depthOfField fu f N d ≠ F64.nan) (h2 : s.depthOfField fu f' N' d' ≠ F64.nan) :
    F64.le (s.depthOfField fu f N d) (s.depthOfField fu f' N' d') = true
      ∧ (dofRegular d N (s.circleOfConfusion fu) f = true →
          |(s.depthOfField fu f N d).val
              - dofExact d.val N.val (s.circleOfConfusion fu).val f.val|
            ≤ dofExact d.val N.val (s.circleOfConfusion fu).val f.val * (1 / 2 ^ 50))
      ∧ (dofRegular d N (s.circleOfConfusion fu) f = true →
          dofRegular d' N' (s.circleOfConfusion fu) f' = true →
          dofExact d.val N.val (s.circleOfConfusion fu).val f.val * (1 + 1 / 2 ^ 49)
            ≤ dofExact d'.val N'.val (s.circleOfConfusion fu).val f'.val →
          F64.lt (s.depthOfField fu f N d) (s.depthOfField fu f' N' d') = true)
      ∧ (dofRegular d N (s.circleOfConfusion fu) f = true →
          dofRegular d' N (s.circleOfConfusion fu) f = true →
          d.val * (1 + 1 / 2 ^ 50) ≤ d'.val →
          F64.lt (s.depthOfField fu f N d) (s.depthOfField fu f N d') = true)
      ∧ (dofRegular d N (s.circleOfConfusion fu) f = true →
          dofRegular d N' (s.circleOfConfusion fu) f = true →
          N.val * (1 + 1 / 2 ^ 49) ≤ N'.val →
          F64.lt (s.depthOfField fu f N d) (s.depthOfField fu f N' d) = true)
      ∧ (dofRegular d N (s.circleOfConfusion fu) f = true →
          dofRegular d N (s.circleOfConfusion fu) f' = true →
          f'.val * (1 + 1 / 2 ^ 50) ≤ f.val →
          F64.lt (s.depthOfField fu f N d) (s.depthOfField fu f' N d) = true)
      ∧ (d.moderate → N.moderate → (s.circleOfConfusion fu).moderate → f.moderate →
          dofRegular d N (s.circleOfConfusion fu) f = true)
      ∧ (∀ kv ∈ format, (kv.2.circleOfConfusion fu).moderate)
      ∧ (∀ kv ∈ format, d.moderate → N.moderate → f.moderate →
          |(kv.2.depthOfField fu f N d).val
              - dofExact d.val N.val (kv.2.circleOfConfusion fu).val f.val|
            ≤ dofExact d.val N.val (kv.2.circleOfConfusion fu).val f.val * (1 / 2 ^ 50)
          ∧ (d'.moderate → d.val * (1 + 1 / 2 ^ 50) ≤ d'.val →
              F64.lt (kv.2.depthOfField fu f N d) (kv.2.depthOfField fu f N d') = true)
          ∧ (N'.moderate → N.val * (1 + 1 / 2 ^ 49) ≤ N'.val →
              F64.lt (kv.2.depthOfField fu f N d) (kv.2.depthOfField fu f N' d) = true)
          ∧ (f'.moderate → f'.val * (1 + 1 / 2 ^ 50) ≤ f.val →
              F64.lt (kv.2.depthOfField fu f N d) (kv.2.depthOfField fu f' N d) = true)) := by
  refine ⟨?_, fun hr => depthOfField_accurate fu s hf hd hr,
    fun hr hr' hs => depthOfField_lt_of_separated fu s hf hf' hd hd' hr hr' hs,
    fun hr => (depthOfField_strict_each fu s f f' N N' d d' hf hf' hd hd' hr).1,
    fun hr => (depthOfField_strict_each fu s f f' N N' d d' hf hf' hd hd' hr).2.1,
    fun hr => (depthOfField_strict_each fu s f f' N N' d d' hf hf' hd hd' hr).2.2,
    fun md mN mc mf => (dofRegular_of_moderate md mN mc mf).1,
    circleOfConfusion_table_moderate fu, fun kv hkv md mN mf => ?_⟩
  · unfold size.depthOfField at h1 h2 ⊢
    have a1 := F64.div_ne_nan_left h1
    have a2 := F64.div_ne_nan_left h2
    have b1 := F64.div_ne_nan_right h1
    have b2 := F64.div_ne_nan_right h2
    have hc := circleOfConfusion_nonneg s (F64.mul_ne_nan_right a1)
    obtain ⟨na1, na2, la⟩ := dividend_mono _ N N' d d' hc hN hN' hd hd' hNN hdd a1 a2
    have nf := F64.nonneg_of_lt_zero hf
    have nf' := F64.nonneg_of_lt_zero hf'
    exact F64.div_le_div na1 (F64.mul_nonneg nf nf b1) na2 (F64.mul_nonneg nf' nf' b2) la
      (F64.mul_le_mul nf' nf' nf nf hff hff b2 b1) h1 h2
  · have mc := circleOfConfusion_table_moderate fu kv hkv
    have hr := (dofRegular_of_moderate md mN mc mf).1
    have e := depthOfField_strict_each fu kv.2 f f' N N' d d' hf hf' hd hd' hr
    exact ⟨depthOfField_accurate fu kv.2 hf hd hr,
      fun md' hs => e.1 (dofRegular_of_moderate md' mN mc mf).1 hs,
      fun mN' hs => e.2.1 (dofRegular_of_moderate md mN' mc mf).1 hs,
      fun mf' hs => e.2.2 (dofRegular_of_moderate md mN mc mf').1 hs⟩

/-- Witness for C7: the format m43, from focal length 50, aperture 2.8 and
focus distance 3000 to focal length 35, aperture 4 and focus distance 5000;
the computation at the first point runs in the normal range, and from aperture
2.8 to aperture 4 the depth of field grows strictly. -/
theorem depthOfField_monotone_witness :
    F64.le
        (size.depthOfField Fusion.separate ⟨F64.ofRat 18 1, F64.ofRat 135 10⟩ (F64.ofRat 50 1)
          (F64.ofRat 28 10) (F64.ofRat 3000 1))
        (size.depthOfField Fusion.separate ⟨F64.ofRat 18 1, F64.ofRat 135 10⟩ (F64.ofRat 35 1)
          (F64.ofRat 4 1) (F64.ofRat 5000 1)) = true
      ∧ dofRegular (F64.ofRat 3000 1) (F64.ofRat 28 10)
          (size.circleOfConfusion Fusion.separate ⟨F64.ofRat 18 1, F64.ofRat 135 10⟩)
          (F64.ofRat 50 1) = true
      ∧ F64.lt
          (size.depthOfField Fusion.separate ⟨F64.ofRat 18 1, F64.ofRat 135 10⟩ (F64.ofRat 50 1)
            (F64.ofRat 28 10) (F64.ofRat 3000 1))
          (size.depthOfField Fusion.separate ⟨F64.ofRat 18 1, F64.ofRat 135 10⟩ (F64.ofRat 50 1)
            (F64.ofRat 4 1) (F64.ofRat 3000 1)) = true :=
  have h := depthOfField_monotone Fusion.separate ⟨F64.ofRat 18 1, F64.ofRat 135 10⟩
    (F64.ofRat 50 1) (F64.ofRat 35 1) (F64.ofRat 28 10) (F64.ofRat 4 1) (F64.ofRat 3000 1)
    (F64.ofRat 5000 1)
    (by decide) (by decide) (by decide) (by decide) (by decide) (by decide)
    (by decide) (by decide) (by decide) (by decide) (by decide)
  ⟨h.1, by decide, h.2.2.2.2.1 (by decide) (by decide) (by
    have e1 : F64.ofRat 28 10 = F64.fin false 6305039478318694 1023 := by decide
    have e2 : F64.ofRat 4 1 = F64.fin false 4503599627370496 1024 := by decide
    rw [e1, e2, F64.val_fin, F64.val_fin]
    norm_num)⟩

/-! ### The branches of `run` -/

theorem run_not_found (env : Env) (prog name : String) (rest : List String) (out : List Call)
    (h : formatLookup name = none) :
    run env (prog :: name :: rest) out = Res.ret none ⟨[], usageText env.rangeOrder, [], out⟩ := by
  simp [run, h, usage_eq]

theorem run_geometry (env : Env) (prog name : String) (out : List Call) (s : size)
    (hs : formatLookup name = some s) :
    run env [prog, name] out = Res.ret none ⟨geometryLines env.fusion name s, [], [], out⟩ := by
  simp [run, hs, World.printf, geometryLines]

theorem run_usage2 (env : Env) (prog name a : String) (rest : List String) (out : List Call)
    (s : size) (hs : formatLookup name = some s) (hr : rest.length ≤ 1) :
    run env (prog :: name :: a :: rest) out
      = Res.ret none ⟨geometryLines env.fusion name s, usage2Text, [], out⟩ := by
  have l2 : ¬ (rest.length + 1 + 1 + 1 < 2) := by omega
  have l5 : rest.length + 1 + 1 + 1 < 5 := by omega
  have e2 : ¬ (rest.length + 1 + 1 + 1 = 2) := by omega
  simp only [run, List.length_cons, List.getD_cons_succ, List.getD_cons_zero, hs]
  simp [World.printf, World.eprintf, usage2, geometryLines, usage2Text, l2, l5, e2]

theorem run_parsed (env : Env) (prog name a2 a3 a4 : String) (rest : List String)
    (out : List Call) (s : size) (f N m : F64)
    (hs : formatLookup name = some s)
    (h2 : env.parseFloat a2 = Except.ok f)
    (h3 : env.parseFloat a3 = Except.ok N)
    (h4 : env.parseFloat a4 = Except.ok m) :
    run env (prog :: name :: a2 :: a3 :: a4 :: rest) out
      = Res.ret none
          ⟨geometryLines env.fusion name s
            ++ lensLines f N (F64.mul m (F64.ofRat 1000 1))
                (s.depthOfField env.fusion f N (F64.mul m (F64.ofRat 1000 1))),
           [], [a2, a3, a4], out⟩ := by
  have l2 : ¬ (rest.length + 1 + 1 + 1 + 1 + 1 < 2) := by omega
  have l5 : ¬ (rest.length + 1 + 1 + 1 + 1 + 1 < 5) := by omega
  simp only [run, List.length_cons, List.getD_cons_succ, List.getD_cons_zero,
    parse, h2, h3, h4, Res.andThen, hs]
  simp [World.printf, geometryLines, lensLines, l2, l5]

theorem run_first_token_fails (env : Env) (prog name a2 a3 a4 : String) (rest : List String)
    (out : List Call) (s : size) (e : String)
    (hs : formatLookup name = some s)
    (h2 : env.parseFloat a2 = Except.error e) :
    run env (prog :: name :: a2 :: a3 :: a4 :: rest) out
      = Res.exit 1 ⟨geometryLines env.fusion name s, [fatalLine a2 e], [a2], out⟩ := by
  have l2 : ¬ (rest.length + 1 + 1 + 1 + 1 + 1 < 2) := by omega
  have l5 : ¬ (rest.length + 1 + 1 + 1 + 1 + 1 < 5) := by omega
  simp only [run, List.length_cons, List.getD_cons_succ, List.getD_cons_zero,
    parse, h2, Res.andThen, hs]
  simp [World.printf, World.eprintf, geometryLines, fatalLine, l2, l5]

theorem run_second_token_fails (env : Env) (prog name a2 a3 a4 : String) (rest : List String)
    (out : List Call) (s : size) (f : F64) (e : String)
    (hs : formatLookup name = some s)
    (h2 : env.parseFloat a2 = Except.ok f)
    (h3 : env.parseFloat a3 = Except.error e) :
    run env (prog :: name :: a2 :: a3 :: a4 :: rest) out
      = Res.exit 1 ⟨geometryLines env.fusion name s, [fatalLine a3 e], [a2, a3], out⟩ := by
  have l2 : ¬ (rest.length + 1 + 1 + 1 + 1 + 1 < 2) := by omega
  have l5 : ¬ (rest.length + 1 + 1 + 1 + 1 + 1 < 5) := by omega
  simp only [run, List.length_cons, List.getD_cons_succ, List.getD_cons_zero,
    parse, h2, h3, Res.andThen, hs]
  simp [World.printf, World.eprintf, geometryLines, fatalLine, l2, l5]

theorem run_third_token_fails (env : Env) (prog name a2 a3 a4 : String) (rest : List String)
    (out : List Call) (s : size) (f N : F64) (e : String)
    (hs : formatLookup name = some s)
    (h2 : env.parseFloat a2 = Except.ok f)
    (h3 : env.parseFloat a3 = Except.ok N)
    (h4 : env.parseFloat a4 = Except.error e) :
    run env (prog :: name :: a2 :: a3 :: a4 :: rest) out
      = Res.exit 1 ⟨geometryLines env.fusion name s, [fatalLine a4 e], [a2, a3, a4], out⟩ := by
  have l2 : ¬ (rest.length + 1 + 1 + 1 + 1 + 1 < 2) := by omega
  have l5 : ¬ (rest.length + 1 + 1 + 1 + 1 + 1 < 5) := by omega
  simp only [run, List.length_cons, List.getD_cons_succ, List.getD_cons_zero,
    parse, h2, h3, h4, Res.andThen, hs]
  simp [World.printf, World.eprintf, geometryLines, fatalLine, l2, l5]

/-- Every run ends in one of five ways, whatever writer it is given: the format
listing, the geometry alone, the geometry and the second usage message, the
geometry and the lens lines, or the geometry and a fatal parse failure. -/
theorem run_cases (env : Env) (args : List String) :
    (∀ out, run env args out = Res.ret none ⟨[], usageText env.rangeOrder, [], out⟩)
      ∨ ∃ name s, formatLookup name = some s ∧ args.getD 1 "" = name ∧
          ((∀ out, run env args out = Res.ret none ⟨geometryLines env.fusion name s, [], [], out⟩)
            ∨ (∀ out, run env args out
                = Res.ret none ⟨geometryLines env.fusion name s, usage2Text, [], out⟩)
            ∨ (∃ f N m a2 a3 a4, ∀ out, run env args out
                = Res.ret none
                    ⟨geometryLines env.fusion name s
                      ++ lensLines f N (F64.mul m (F64.ofRat 1000 1))
                          (s.depthOfField env.fusion f N (F64.mul m (F64.ofRat 1000 1))),
                     [], [a2, a3, a4], out⟩)
            ∨ (∃ t e pre, env.parseFloat t = Except.error e ∧ 5 ≤ args.length
                ∧ ∀ out, run env args out
                  = Res.exit 1 ⟨geometryLines env.fusion name s, [fatalLine t e], pre ++ [t], out⟩)) := by
  rcases args with _ | ⟨prog, _ | ⟨name, rest⟩⟩
  · exact Or.inl fun out => run_short env [] out (by simp)
  · exact Or.inl fun out => run_short env [prog] out (by simp)
  · cases hs : formatLookup name with
    | none => exact Or.inl fun out => run_not_found env prog name rest out hs
    | some s =>
      refine Or.inr ⟨name, s, hs, rfl, ?_⟩
      rcases rest with _ | ⟨a2, _ | ⟨a3, _ | ⟨a4, r⟩⟩⟩
      · exact Or.inl fun out => run_geometry env prog name out s hs
      · exact Or.inr (Or.inl fun out => run_usage2 env prog name a2 [] out s hs (by simp))
      · exact Or.inr (Or.inl fun out => run_usage2 env prog name a2 [a3] out s hs (by simp))
      · right; right
        cases h2 : env.parseFloat a2 with
        | error e =>
          exact Or.inr ⟨a2, e, [], h2, by simp,
            fun out => run_first_token_fails env prog name a2 a3 a4 r out s e hs h2⟩
        | ok f =>
          cases h3 : env.parseFloat a3 with
          | error e =>
            exact Or.inr ⟨a3, e, [a2], h3, by simp,
              fun out => run_second_token_fails env prog name a2 a3 a4 r out s f e hs h2 h3⟩
          | ok N =>
            cases h4 : env.parseFloat a4 with
            | error e =>
              exact Or.inr ⟨a4, e, [a2, a3], h4, by simp,
                fun out => run_third_token_fails env prog name a2 a3 a4 r out s f N e hs h2 h3 h4⟩
            | ok m =>
              exact Or.inl ⟨f, N, m, a2, a3, a4,
                fun out => run_parsed env prog name a2 a3 a4 r out s f N m hs h2 h3 h4⟩

theorem lensLines_not_geometry {fu : Fusion} (name : String) (s : size) (f N d z : F64) :
    ∀ c ∈ lensLines f N d z, c ∉ geometryLines fu name s := by
  intro c hc
  simp only [lensLines, List.mem_cons, List.mem_singleton, List.not_mem_nil, or_false] at hc
  rcases hc with rfl | rfl | rfl | rfl <;> simp [geometryLines]

/-- C11: with a recognised format name and at least three further arguments of
which not all three lens tokens parse, the run ends in `log.Fatalf`: the process
exits with status 1, the diagnostic names the first token that fails in the
order focal length, aperture, focus distance (the tokens before it parsed, the
ones after it were not looked at), and standard output holds the four geometry
lines only, none of the lens lines. -/
theorem run_fatal (env : Env) (prog name a2 a3 a4 : String) (rest : List String)
    (out : List Call) (s : size) (hs : formatLookup name = some s)
    (hfail : ¬ ∃ f N m, env.parseFloat a2 = Except.ok f ∧ env.parseFloat a3 = Except.ok N
      ∧ env.parseFloat a4 = Except.ok m) :
    ∃ t e pre suf, [a2, a3, a4] = pre ++ t :: suf
      ∧ (∀ u ∈ pre, ∃ v, env.parseFloat u = Except.ok v)
      ∧ env.parseFloat t = Except.error e
      ∧ run env (prog :: name :: a2 :: a3 :: a4 :: rest) out
          = Res.exit 1 ⟨geometryLines env.fusion name s, [fatalLine t e], pre ++ [t], out⟩
      ∧ main env (prog :: name :: a2 :: a3 :: a4 :: rest)
          = (1, ⟨geometryLines env.fusion name s, [fatalLine t e], pre ++ [t], []⟩)
      ∧ (∀ f N d z, ∀ c ∈ lensLines f N d z, c ∉ geometryLines env.fusion name s) := by
  cases h2 : env.parseFloat a2 with
  | error e =>
    refine ⟨a2, e, [], [a3, a4], rfl, by simp, h2,
      run_first_token_fails env prog name a2 a3 a4 rest out s e hs h2, ?_,
      fun f N d z => lensLines_not_geometry name s f N d z⟩
    simp only [main, run_first_token_fails env prog name a2 a3 a4 rest [] s e hs h2, List.nil_append]
  | ok f =>
    cases h3 : env.parseFloat a3 with
    | error e =>
      refine ⟨a3, e, [a2], [a4], rfl, by simpa using ⟨f, h2⟩, h3,
        run_second_token_fails env prog name a2 a3 a4 rest out s f e hs h2 h3, ?_,
        fun f N d z => lensLines_not_geometry name s f N d z⟩
      simp only [main, run_second_token_fails env prog name a2 a3 a4 rest [] s f e hs h2 h3,
        List.cons_append, List.nil_append]
    | ok N =>
      cases h4 : env.parseFloat a4 with
      | error e =>
        refine ⟨a4, e, [a2, a3], [], rfl, ?_, h4,
          run_third_token_fails env prog name a2 a3 a4 rest out s f N e hs h2 h3 h4, ?_,
          fun f N d z => lensLines_not_geometry name s f N d z⟩
        · intro u hu
          simp only [List.mem_cons, List.mem_singleton, List.not_mem_nil, or_false] at hu
          rcases hu with rfl | rfl
          · exact ⟨f, h2⟩
          · exact ⟨N, h3⟩
        · simp only [main, run_third_token_fails env prog name a2 a3 a4 rest [] s f N e hs h2 h3 h4,
            List.cons_append, List.nil_append]
      | ok m => exact absurd ⟨f, N, m, h2, h3, h4⟩ hfail

/-- Witness for C11: the aperture token `wide` does not parse. -/
theorem run_fatal_witness :
    ∃ t e pre suf, ["35", "wide", "5"] = pre ++ t :: suf
      ∧ (∀ u ∈ pre, ∃ v, decimalEnv.parseFloat u = Except.ok v)
      ∧ decimalEnv.parseFloat t = Except.error e
      ∧ run decimalEnv ["dof", "35mm", "35", "wide", "5"] []
          = Res.exit 1
              ⟨geometryLines Fusion.separate "35mm" ⟨F64.ofRat 36 1, F64.ofRat 24 1⟩, [fatalLine t e],
                pre ++ [t], []⟩
      ∧ main decimalEnv ["dof", "35mm", "35", "wide", "5"]
          = (1, ⟨geometryLines Fusion.separate "35mm" ⟨F64.ofRat 36 1, F64.ofRat 24 1⟩, [fatalLine t e],
              pre ++ [t], []⟩)
      ∧ (∀ f N d z, ∀ c ∈ lensLines f N d z,
          c ∉ geometryLines Fusion.separate "35mm" ⟨F64.ofRat 36 1, F64.ofRat 24 1⟩) :=
  run_fatal decimalEnv "dof" "35mm" "35" "wide" "5" [] [] ⟨F64.ofRat 36 1, F64.ofRat 24 1⟩
    (by decide) (by
      rintro ⟨f, N, m, _, h, _⟩
      have e : decimalEnv.parseFloat "wide" = Except.error "invalid syntax" := by rfl
      rw [e] at h
      exact Except.noConfusion h)

/-! ### Incomplete lens arguments, the geometry alone, and the states -/

theorem run_usage2_of_length (env : Env) (args : List String) (out : List Call) (s : size)
    (hlen : args.length = 3 ∨ args.length = 4)
    (hs : formatLookup (args.getD 1 "") = some s) :
    run env args out
      = Res.ret none ⟨geometryLines env.fusion (args.getD 1 "") s, usage2Text, [], out⟩ := by
  rcases args with _ | ⟨prog, _ | ⟨name, _ | ⟨a, rest⟩⟩⟩
  · simp at hlen
  · simp at hlen
  · simp at hlen
  · have hr : rest.length ≤ 1 := by
      simp only [List.length_cons] at hlen
      omega
    exact run_usage2 env prog name a rest out s hs hr

/-- C12, as stated, fails: with the recognised format m43 and one lens token,
standard output is not empty; it holds the four geometry lines. -/
theorem run_incomplete_stdout :
    run decimalEnv ["dof", "m43", "35"] []
        = Res.ret none
            ⟨geometryLines Fusion.separate "m43" ⟨F64.ofRat 18 1, F64.ofRat 135 10⟩, usage2Text, [], []⟩
      ∧ (run decimalEnv ["dof", "m43", "35"] []).world.stdout ≠ [] := by
  have h := run_usage2 decimalEnv "dof" "m43" "35" [] []
    ⟨F64.ofRat 18 1, F64.ofRat 135 10⟩ (by decide) (by simp)
  refine ⟨h, ?_⟩
  rw [h]
  simp [Res.world, geometryLines]

/-- C12, amended: for every argument list of length 3 or 4 with a recognised
format name, `run` prints the four geometry lines of the format to standard
output, writes the second usage message, and nothing else, to standard error,
hands no token to the parser, and returns `nil`. -/
theorem run_incomplete (env : Env) (args : List String) (out : List Call) (s : size)
    (hlen : args.length = 3 ∨ args.length = 4)
    (hs : formatLookup (args.getD 1 "") = some s) :
    run env args out
      = Res.ret none ⟨geometryLines env.fusion (args.getD 1 "") s, usage2Text, [], out⟩ :=
  run_usage2_of_length env args out s hlen hs

/-- Witness for C12: the format 35mm with two lens tokens. -/
theorem run_incomplete_witness :
    run decimalEnv ["dof", "35mm", "35", "4.0"] []
      = Res.ret none
          ⟨geometryLines Fusion.separate "35mm" ⟨F64.ofRat 36 1, F64.ofRat 24 1⟩, usage2Text, [], []⟩ :=
  run_incomplete decimalEnv ["dof", "35mm", "35", "4.0"] [] ⟨F64.ofRat 36 1, F64.ofRat 24 1⟩
    (Or.inr rfl) (by decide)

/-- C13: for every argument list of length exactly 2 whose format name is in the
table, `run` prints exactly four lines to standard output, the format name, the
image size, the diagonal `diag` and the circle of confusion `circleOfConfusion`
of the format, writes nothing to standard error, hands no token to the parser,
prints no lens line, and returns `nil`. -/
theorem run_format_only (env : Env) (args : List String) (out : List Call) (s : size)
    (hlen : args.length = 2) (hs : formatLookup (args.getD 1 "") = some s) :
    run env args out
        = Res.ret none
            ⟨[⟨"format               %s\n", [Arg.str (args.getD 1 "")]⟩,
              ⟨"image size           %3.1fmm x %3.1fmm\n", [Arg.num s.x, Arg.num s.y]⟩,
              ⟨"diagonal             %.3fmm\n", [Arg.num (s.diag env.fusion)]⟩,
              ⟨"circle of confusion  %.6fmm\n", [Arg.num (s.circleOfConfusion env.fusion)]⟩],
             [], [], out⟩
      ∧ (∀ f N d z, ∀ c ∈ lensLines f N d z, c ∉ (run env args out).world.stdout) := by
  rcases args with _ | ⟨prog, _ | ⟨name, _ | ⟨a, rest⟩⟩⟩
  · simp at hlen
  · simp at hlen
  · have h := run_geometry env prog name out s hs
    refine ⟨h, fun f N d z c hc => ?_⟩
    rw [h]
    exact lensLines_not_geometry name s f N d z c hc
  · simp at hlen

/-- Witness for C13: the format aps-c-fuji. -/
theorem run_format_only_witness :
    run decimalEnv ["dof", "aps-c-fuji"] []
        = Res.ret none
            ⟨[⟨"format               %s\n", [Arg.str "aps-c-fuji"]⟩,
              ⟨"image size           %3.1fmm x %3.1fmm\n",
                [Arg.num (F64.ofRat 236 10), Arg.num (F64.ofRat 156 10)]⟩,
              ⟨"diagonal             %.3fmm\n",
                [Arg.num (size.diag Fusion.separate ⟨F64.ofRat 236 10, F64.ofRat 156 10⟩)]⟩,
              ⟨"circle of confusion  %.6fmm\n",
                [Arg.num (size.circleOfConfusion Fusion.separate ⟨F64.ofRat 236 10, F64.ofRat 156 10⟩)]⟩],
             [], [], []⟩ :=
  (run_format_only decimalEnv ["dof", "aps-c-fuji"] [] ⟨F64.ofRat 236 10, F64.ofRat 156 10⟩
    rfl (by decide)).1

theorem endState_listing (order : List (String × size)) (out : List Call) :
    endState (Res.ret none ⟨[], usageText order, [], out⟩) = State.listing := by
  simp [endState, usageText, usage2Text]

theorem endState_usage2 (fu : Fusion) (name : String) (s : size) (out : List Call) :
    endState (Res.ret none ⟨geometryLines fu name s, usage2Text, [], out⟩)
      = State.lensUsage := by
  simp [endState, geometryLines]

theorem endState_computed (fu : Fusion) (name : String) (s : size) (f N d z : F64)
    (p : List String) (out : List Call) :
    endState (Res.ret none ⟨geometryLines fu name s ++ lensLines f N d z, [], p, out⟩)
      = State.computed := by
  simp [endState, geometryLines, lensLines]

/-- With a recognised format name and five or more arguments the run ends in
the lens computation when the three lens tokens parse, and in the fatal exit
otherwise. -/
theorem endState_of_tokens (env : Env) (args : List String) (out : List Call) (s : size)
    (hlen : 5 ≤ args.length) (hs : formatLookup (args.getD 1 "") = some s) :
    endState (run env args out)
      = if lensTokensParse env args = true then State.computed else State.fatal := by
  rcases args with _ | ⟨prog, _ | ⟨name, _ | ⟨a2, _ | ⟨a3, _ | ⟨a4, r⟩⟩⟩⟩⟩
  · simp at hlen
  · simp at hlen
  · simp at hlen
  · simp at hlen
  · simp at hlen
  · simp only [List.getD_cons_succ, List.getD_cons_zero] at hs
    cases h2 : env.parseFloat a2 with
    | error e =>
      rw [run_first_token_fails env prog name a2 a3 a4 r out s e hs h2]
      simp [endState, lensTokensParse, Env.accepts, h2]
    | ok f =>
      cases h3 : env.parseFloat a3 with
      | error e =>
        rw [run_second_token_fails env prog name a2 a3 a4 r out s f e hs h2 h3]
        simp [endState, lensTokensParse, Env.accepts, h2, h3]
      | ok N =>
        cases h4 : env.parseFloat a4 with
        | error e =>
          rw [run_third_token_fails env prog name a2 a3 a4 r out s f N e hs h2 h3 h4]
          simp [endState, lensTokensParse, Env.accepts, h2, h3, h4]
        | ok m =>
          rw [run_parsed env prog name a2 a3 a4 r out s f N m hs h2 h3 h4,
            endState_computed]
          simp [lensTokensParse, Env.accepts, h2, h3, h4]

/-- What a run with a recognised format name and five or more arguments leaves
behind: the geometry and the four lens lines when the three lens tokens parse,
and otherwise an exit with status 1 after the geometry lines alone. -/
theorem run_of_tokens (env : Env) (args : List String) (out : List Call) (s : size)
    (hlen : 5 ≤ args.length) (hs : formatLookup (args.getD 1 "") = some s) :
    (lensTokensParse env args = true →
        ∃ f N m, env.parseFloat (args.getD 2 "") = Except.ok f
          ∧ env.parseFloat (args.getD 3 "") = Except.ok N
          ∧ env.parseFloat (args.getD 4 "") = Except.ok m
          ∧ run env args out
            = Res.ret none
                ⟨geometryLines env.fusion (args.getD 1 "") s
                  ++ lensLines f N (F64.mul m (F64.ofRat 1000 1))
                      (s.depthOfField env.fusion f N (F64.mul m (F64.ofRat 1000 1))),
                 [], [args.getD 2 "", args.getD 3 "", args.getD 4 ""], out⟩)
      ∧ (lensTokensParse env args = false →
          ∃ l p, run env args out
            = Res.exit 1 ⟨geometryLines env.fusion (args.getD 1 "") s, l, p, out⟩) := by
  rcases args with _ | ⟨prog, _ | ⟨name, _ | ⟨a2, _ | ⟨a3, _ | ⟨a4, r⟩⟩⟩⟩⟩
  · simp at hlen
  · simp at hlen
  · simp at hlen
  · simp at hlen
  · simp at hlen
  · simp only [List.getD_cons_succ, List.getD_cons_zero] at hs ⊢
    cases h2 : env.parseFloat a2 with
    | error e =>
      refine ⟨fun h => ?_, fun _ =>
        ⟨_, _, run_first_token_fails env prog name a2 a3 a4 r out s e hs h2⟩⟩
      simp [lensTokensParse, Env.accepts, h2] at h
    | ok f =>
      cases h3 : env.parseFloat a3 with
      | error e =>
        refine ⟨fun h => ?_, fun _ =>
          ⟨_, _, run_second_token_fails env prog name a2 a3 a4 r out s f e hs h2 h3⟩⟩
        simp [lensTokensParse, Env.accepts, h3] at h
      | ok N =>
        cases h4 : env.parseFloat a4 with
        | error e =>
          refine ⟨fun h => ?_, fun _ =>
            ⟨_, _, run_third_token_fails env prog name a2 a3 a4 r out s f N e hs h2 h3 h4⟩⟩
          simp [lensTokensParse, Env.accepts, h4] at h
        | ok m =>
          refine ⟨fun _ => ⟨f, N, m, rfl, rfl, rfl,
            run_parsed env prog name a2 a3 a4 r out s f N m hs h2 h3 h4⟩, fun h => ?_⟩
          simp [lensTokensParse, Env.accepts, h2, h3, h4] at h

/-- C14, as stated, fails: two argument lists of length 3 end in different
states, the format listing for the unknown name `bogus` and the second usage
message for `m43`; and two lists of length 5 with the same format name end in
different states, the lens computation and the fatal exit, when a lens token of
one of them does not parse. -/
theorem endState_depends_on_name :
    run decimalEnv ["dof", "bogus", "35"] []
        = Res.ret none ⟨[], usageText format, [], []⟩
      ∧ run decimalEnv ["dof", "m43", "35"] []
        = Res.ret none
            ⟨geometryLines Fusion.separate "m43" ⟨F64.ofRat 18 1, F64.ofRat 135 10⟩,
              usage2Text, [], []⟩
      ∧ endState (run decimalEnv ["dof", "bogus", "35"] []) = State.listing
      ∧ endState (run decimalEnv ["dof", "m43", "35"] []) = State.lensUsage
      ∧ endState (run decimalEnv ["dof", "bogus", "35"] [])
        ≠ endState (run decimalEnv ["dof", "m43", "35"] [])
      ∧ endState (run decimalEnv ["dof", "m43", "50", "2.8", "3"] []) = State.computed
      ∧ endState (run decimalEnv ["dof", "m43", "50", "wide", "3"] []) = State.fatal
      ∧ endState (run decimalEnv ["dof", "m43", "50", "2.8", "3"] [])
        ≠ endState (run decimalEnv ["dof", "m43", "50", "wide", "3"] []) := by
  have h1 : run decimalEnv ["dof", "bogus", "35"] []
      = Res.ret none ⟨[], usageText format, [], []⟩ :=
    run_not_found decimalEnv "dof" "bogus" ["35"] [] (by decide)
  have h2 := run_usage2 decimalEnv "dof" "m43" "35" [] []
    ⟨F64.ofRat 18 1, F64.ofRat 135 10⟩ (by decide) (by simp)
  have h3 : endState (run decimalEnv ["dof", "m43", "50", "2.8", "3"] []) = State.computed := by
    rw [endState_of_tokens decimalEnv _ [] ⟨F64.ofRat 18 1, F64.ofRat 135 10⟩ (by decide)
      (by decide)]
    rfl
  have h4 : endState (run decimalEnv ["dof", "m43", "50", "wide", "3"] []) = State.fatal := by
    rw [endState_of_tokens decimalEnv _ [] ⟨F64.ofRat 18 1, F64.ofRat 135 10⟩ (by decide)
      (by decide)]
    rfl
  refine ⟨h1, h2, ?_, ?_, ?_, h3, h4, ?_⟩
  · rw [h1]; exact endState_listing _ _
  · rw [h2]; exact endState_usage2 _ _ _ _
  · rw [h1, h2, endState_listing, endState_usage2]
    exact fun h => State.noConfusion h
  · rw [h3, h4]
    exact fun h => State.noConfusion h

/-- C14, amended: the state `run` ends in is determined by the number of
arguments, by whether the format name is recognised and, from five arguments
on, by whether the three lens tokens parse.  For two argument lists of the same
length, at least 3, whose format names are both in the table: with length 3 or
4 both end in the second usage message; with length 5 or more each ends in the
lens computation (exit by return, the four geometry and the four lens lines on
standard output) when its three lens tokens parse and in the fatal exit (status
1, the geometry lines alone on standard output) otherwise, so the two end in
the same state exactly when their tokens fare alike.  A list whose format name
is not in the table ends in the format listing whatever its length. -/
theorem endState_by_length_and_name (env : Env) (args1 args2 : List String)
    (out1 out2 : List Call) (s1 s2 : size)
    (hlen : args1.length = args2.length) (h3 : 3 ≤ args1.length)
    (hs1 : formatLookup (args1.getD 1 "") = some s1)
    (hs2 : formatLookup (args2.getD 1 "") = some s2) :
    (args1.length ≤ 4 →
        endState (run env args1 out1) = State.lensUsage
          ∧ endState (run env args2 out2) = State.lensUsage)
      ∧ (5 ≤ args1.length →
          endState (run env args1 out1)
              = (if lensTokensParse env args1 = true then State.computed else State.fatal)
            ∧ endState (run env args2 out2)
              = (if lensTokensParse env args2 = true then State.computed else State.fatal)
            ∧ (endState (run env args1 out1) = endState (run env args2 out2)
                ↔ lensTokensParse env args1 = lensTokensParse env args2))
      ∧ (5 ≤ args1.length → lensTokensParse env args1 = true →
          ∃ f N m, env.parseFloat (args1.getD 2 "") = Except.ok f
            ∧ env.parseFloat (args1.getD 3 "") = Except.ok N
            ∧ env.parseFloat (args1.getD 4 "") = Except.ok m
            ∧ run env args1 out1
              = Res.ret none
                  ⟨geometryLines env.fusion (args1.getD 1 "") s1
                    ++ lensLines f N (F64.mul m (F64.ofRat 1000 1))
                        (s1.depthOfField env.fusion f N (F64.mul m (F64.ofRat 1000 1))),
                   [], [args1.getD 2 "", args1.getD 3 "", args1.getD 4 ""], out1⟩)
      ∧ (5 ≤ args1.length → lensTokensParse env args1 = false →
          ∃ l p, run env args1 out1
            = Res.exit 1 ⟨geometryLines env.fusion (args1.getD 1 "") s1, l, p, out1⟩)
      ∧ (∀ args out, 2 ≤ args.length → formatLookup (args.getD 1 "") = none →
          endState (run env args out) = State.listing) := by
  have short : ∀ (args : List String) (out : List Call) (s : size), 3 ≤ args.length →
      args.length ≤ 4 → formatLookup (args.getD 1 "") = some s →
      endState (run env args out) = State.lensUsage := by
    intro args out s h3 h4 hs
    rw [run_usage2_of_length env args out s (by omega) hs]
    exact endState_usage2 _ _ _ _
  refine ⟨fun h4 => ⟨short args1 out1 s1 h3 h4 hs1, short args2 out2 s2 (by omega) (by omega) hs2⟩,
    fun h5 => ?_, fun h5 => (run_of_tokens env args1 out1 s1 h5 hs1).1,
    fun h5 => (run_of_tokens env args1 out1 s1 h5 hs1).2, ?_⟩
  · have e1 := endState_of_tokens env args1 out1 s1 h5 hs1
    have e2 := endState_of_tokens env args2 out2 s2 (by omega) hs2
    refine ⟨e1, e2, ?_⟩
    rw [e1, e2]
    cases lensTokensParse env args1 <;> cases lensTokensParse env args2 <;> decide
  · intro args out h2 hn
    rcases args with _ | ⟨prog, _ | ⟨name, rest⟩⟩
    · simp at h2
    · simp at h2
    · rw [run_not_found env prog name rest out hn]
      exact endState_listing _ _

/-- Witness for C14: two lists of length 5 with the formats m43 and 35mm; the
tokens of the first parse, the second has a token that does not parse. -/
theorem endState_by_length_and_name_witness :
    endState (run decimalEnv ["dof", "m43", "50", "2.8", "3"] []) = State.computed
      ∧ endState (run decimalEnv ["dof", "35mm", "35", "wide", "5"] []) = State.fatal :=
  have h := (endState_by_length_and_name decimalEnv ["dof", "m43", "50", "2.8", "3"]
    ["dof", "35mm", "35", "wide", "5"] [] [] ⟨F64.ofRat 18 1, F64.ofRat 135 10⟩
    ⟨F64.ofRat 36 1, F64.ofRat 24 1⟩ rfl (by decide) (by decide) (by decide)).2.1 (by decide)
  ⟨h.1.trans rfl, h.2.1.trans rfl⟩

/-! ### Streams, the listing, return values and the writer -/

theorem usageText_usage (order : List (String × size)) :
    ∀ c ∈ usageText order, isUsageCall c = true ∧ isResultCall c = false := by
  intro c hc
  simp only [usageText, List.mem_cons, List.mem_map] at hc
  rcases hc with rfl | ⟨kv, _, rfl⟩ <;> exact ⟨rfl, rfl⟩

theorem usage2Text_usage :
    ∀ c ∈ usage2Text, isUsageCall c = true ∧ isResultCall c = false := by
  decide

theorem geometryLines_result {fu : Fusion} (name : String) (s : size) :
    ∀ c ∈ geometryLines fu name s, isResultCall c = true ∧ isUsageCall c = false := by
  intro c hc
  simp only [geometryLines, List.mem_cons, List.mem_singleton, List.not_mem_nil, or_false] at hc
  rcases hc with rfl | rfl | rfl | rfl <;> exact ⟨rfl, rfl⟩

theorem lensLines_result (f N d z : F64) :
    ∀ c ∈ lensLines f N d z, isResultCall c = true ∧ isUsageCall c = false := by
  intro c hc
  simp only [lensLines, List.mem_cons, List.mem_singleton, List.not_mem_nil, or_false] at hc
  rcases hc with rfl | rfl | rfl | rfl <;> exact ⟨rfl, rfl⟩

theorem fatalLine_neither (t e : String) :
    isUsageCall (fatalLine t e) = false ∧ isResultCall (fatalLine t e) = false :=
  ⟨rfl, rfl⟩

/-- C15, as stated, fails: when the aperture token does not parse, standard
error holds the diagnostic of `log.Fatalf`, which is not usage text. -/
theorem stderr_not_usage :
    run decimalEnv ["dof", "35mm", "35", "wide", "5"] []
        = Res.exit 1
            ⟨geometryLines Fusion.separate "35mm" ⟨F64.ofRat 36 1, F64.ofRat 24 1⟩,
              [fatalLine "wide" "invalid syntax"], ["35", "wide"], []⟩
      ∧ (∃ c ∈ (run decimalEnv ["dof", "35mm", "35", "wide", "5"] []).world.stderr,
          isUsageCall c = false) := by
  have h := run_second_token_fails decimalEnv "dof" "35mm" "35" "wide" "5" [] []
    ⟨F64.ofRat 36 1, F64.ofRat 24 1⟩ (F64.ofRat 35 1) "invalid syntax"
    (by decide) (by rfl) (by rfl)
  refine ⟨h, fatalLine "wide" "invalid syntax", ?_, by decide⟩
  rw [h]
  simp [Res.world]

/-- C15, amended: for every argument list, every line `run` writes to standard
output is a result line and not usage text; every line it writes to standard
error is usage text (of `usage` or `usage2`) or the diagnostic `log.Fatalf`
writes for a token that does not parse, and is not a result line; when `run`
returns, standard error holds usage text only. -/
theorem streams_separate (env : Env) (args : List String) (out : List Call) :
    (∀ c ∈ (run env args out).world.stdout, isResultCall c = true ∧ isUsageCall c = false)
      ∧ (∀ c ∈ (run env args out).world.stderr,
          (isUsageCall c = true
            ∨ ∃ t e, c = fatalLine t e ∧ env.parseFloat t = Except.error e)
          ∧ isResultCall c = false)
      ∧ (∀ e w, run env args out = Res.ret e w → ∀ c ∈ w.stderr, isUsageCall c = true) := by
  rcases run_cases env args with h | ⟨name, s, _, _, h | h | ⟨f, N, m, a2, a3, a4, h⟩
      | ⟨t, e, pre, ht, _, h⟩⟩
  · rw [h out]
    refine ⟨by simp [Res.world], fun c hc => ?_, fun e w hw c hc => ?_⟩
    · exact ⟨Or.inl (usageText_usage _ c hc).1, (usageText_usage _ c hc).2⟩
    · injection hw with _ hw
      subst hw
      exact (usageText_usage _ c hc).1
  · rw [h out]
    refine ⟨fun c hc => geometryLines_result name s c hc, by simp [Res.world],
      fun e w hw c hc => ?_⟩
    injection hw with _ hw
    subst hw
    simp at hc
  · rw [h out]
    refine ⟨fun c hc => geometryLines_result name s c hc, fun c hc => ?_,
      fun e w hw c hc => ?_⟩
    · exact ⟨Or.inl (usage2Text_usage c hc).1, (usage2Text_usage c hc).2⟩
    · injection hw with _ hw
      subst hw
      exact (usage2Text_usage c hc).1
  · rw [h out]
    refine ⟨fun c hc => ?_, by simp [Res.world], fun e w hw c hc => ?_⟩
    · rcases List.mem_append.1 hc with hc | hc
      · exact geometryLines_result name s c hc
      · exact lensLines_result _ _ _ _ c hc
    · injection hw with _ hw
      subst hw
      simp at hc
  · rw [h out]
    refine ⟨fun c hc => geometryLines_result name s c hc, fun c hc => ?_,
      fun e w hw => Res.noConfusion hw⟩
    have hc' : c = fatalLine t e := by simpa [Res.world] using hc
    subst hc'
    exact ⟨Or.inr ⟨t, e, rfl, ht⟩, (fatalLine_neither t e).2⟩

/-- C16: for an argument list of length less than 2, when `range format` yields
each entry of the table once, in any order, `run` writes to standard error the
header line followed by one line for each of the five entries (name, width,
height), in that order, writes nothing to standard output, hands no token to the
parser, and returns `nil`. -/
theorem run_listing (env : Env) (args : List String) (out : List Call)
    (hperm : env.rangeOrder.Perm format) (hlen : args.length < 2) :
    ∃ lines : List Call,
      run env args out = Res.ret none ⟨[], ⟨"usage: dof fmt\n", []⟩ :: lines, [], out⟩
        ∧ lines.Perm (format.map fun kv =>
            ⟨"%-20s %3.1fmm x %3.1fmm\n", [Arg.str kv.1, Arg.num kv.2.x, Arg.num kv.2.y]⟩)
        ∧ lines.length = 5 := by
  refine ⟨env.rangeOrder.map fun kv =>
    ⟨"%-20s %3.1fmm x %3.1fmm\n", [Arg.str kv.1, Arg.num kv.2.x, Arg.num kv.2.y]⟩, ?_, ?_, ?_⟩
  · rw [run_short env args out hlen]
    rfl
  · exact hperm.map _
  · rw [List.length_map, hperm.length_eq]
    rfl

/-- Witness for C16: no argument but the program name, and a `range` that yields
the table in the reverse order of the map literal. -/
theorem run_listing_witness :
    ∃ lines : List Call,
      run ⟨parseDecimal, format.reverse, Fusion.separate⟩ ["dof"] []
          = Res.ret none ⟨[], ⟨"usage: dof fmt\n", []⟩ :: lines, [], []⟩
        ∧ lines.Perm (format.map fun kv =>
            ⟨"%-20s %3.1fmm x %3.1fmm\n", [Arg.str kv.1, Arg.num kv.2.x, Arg.num kv.2.y]⟩)
        ∧ lines.length = 5 :=
  run_listing ⟨parseDecimal, format.reverse, Fusion.separate⟩ ["dof"] [] (List.reverse_perm format) (by decide)

/-- C17: soft failures are never errors.  Whenever `run` returns, it returns
`nil`; with fewer than 5 arguments or a format name that is not in the table it
does return; so `main` ends with status 0, or with status 1 through `log.Fatalf`
on a token that does not parse, and never through an error returned by `run`. -/
theorem run_returns_nil (env : Env) (args : List String) (out : List Call) :
    (∀ e w, run env args out = Res.ret e w → e = none)
      ∧ (args.length < 5 ∨ formatLookup (args.getD 1 "") = none →
          ∃ w, run env args out = Res.ret none w)
      ∧ ((∃ w, run env args [] = Res.ret none w ∧ main env args = (0, w))
          ∨ ∃ w t e, run env args [] = Res.exit 1 w ∧ main env args = (1, w)
              ∧ fatalLine t e ∈ w.stderr ∧ env.parseFloat t = Except.error e) := by
  rcases run_cases env args with h | ⟨name, s, hs, hn, h | h | ⟨f, N, m, a2, a3, a4, h⟩
      | ⟨t, e, pre, ht, h5, h⟩⟩
  · refine ⟨fun e w hw => ?_, fun _ => ⟨_, h out⟩, Or.inl ⟨_, h [], ?_⟩⟩
    · rw [h out] at hw
      injection hw with he _
      exact he.symm
    · simp only [main, h []]
  · refine ⟨fun e w hw => ?_, fun _ => ⟨_, h out⟩, Or.inl ⟨_, h [], ?_⟩⟩
    · rw [h out] at hw
      injection hw with he _
      exact he.symm
    · simp only [main, h []]
  · refine ⟨fun e w hw => ?_, fun _ => ⟨_, h out⟩, Or.inl ⟨_, h [], ?_⟩⟩
    · rw [h out] at hw
      injection hw with he _
      exact he.symm
    · simp only [main, h []]
  · refine ⟨fun e w hw => ?_, fun _ => ⟨_, h out⟩, Or.inl ⟨_, h [], ?_⟩⟩
    · rw [h out] at hw
      injection hw with he _
      exact he.symm
    · simp only [main, h []]
  · refine ⟨fun e w hw => ?_, fun hsoft => ?_, Or.inr ⟨_, t, e, h [], ?_, ?_, ht⟩⟩
    · rw [h out] at hw
      exact Res.noConfusion hw
    · exfalso
      rcases hsoft with hl | hl
      · omega
      · rw [hn, hs] at hl
        exact Option.noConfusion hl
    · simp only [main, h []]
    · simp

/-- C18: `run` never writes to the writer it is given: what the writer holds
after the run is what it held before, and with another writer the run does the
same but for the writer it leaves untouched. -/
theorem run_writer_untouched (env : Env) (args : List String) (out : List Call) :
    (run env args out).world.writer = out
      ∧ ∀ out', run env args out'
          = (run env args out).mapWorld fun w => { w with writer := out' } := by
  rcases run_cases env args with h | ⟨name, s, _, _, h | h | ⟨f, N, m, a2, a3, a4, h⟩
      | ⟨t, e, pre, _, _, h⟩⟩ <;>
    exact ⟨by rw [h out]; rfl, fun out' => by rw [h out, h out']; rfl⟩

/-! ### Dependence on the diagonal -/

/-- Floating-point addition is commutative. -/
theorem F64.add_comm (a b : F64) : F64.add a b = F64.add b a := by
  cases a with
  | nan => cases b <;> rfl
  | inf s =>
    cases b with
    | nan => rfl
    | inf t =>
      by_cases h : s = t
      · subst h; rfl
      · have h' : ¬ t = s := fun e => h e.symm
        simp only [F64.add, if_neg h, if_neg h']
    | fin t k f => rfl
  | fin s m e =>
    cases b with
    | nan => rfl
    | inf t => rfl
    | fin t k f =>
      simp only [F64.add]
      by_cases h : s = t
      · subst h
        rw [if_pos rfl, if_pos rfl, Nat.add_comm]
      · have h' : ¬ t = s := fun e => h e.symm
        rw [if_neg h, if_neg h']
        by_cases hab : m * 2 ^ e = k * 2 ^ f
        · rw [if_pos hab, if_pos hab.symm]
        · have hba : ¬ k * 2 ^ f = m * 2 ^ e := fun e => hab e.symm
          rw [if_neg hab, if_neg hba]
          by_cases hlt : k * 2 ^ f < m * 2 ^ e
          · have hnl : ¬ m * 2 ^ e < k * 2 ^ f := by omega
            rw [if_pos hlt, if_neg hnl]
          · have hl : m * 2 ^ e < k * 2 ^ f := by omega
            rw [if_neg hlt, if_pos hl]

/-- Exchanging width and height exchanges which product of the sum of squares
is fused. -/
theorem sumSquares_swap (fu : Fusion) (x y : F64) :
    sumSquares fu y x = sumSquares fu.swap x y := by
  cases fu
  · simp only [sumSquares, Fusion.swap]
    exact F64.add_comm _ _
  · simp only [sumSquares, Fusion.swap]
  · simp only [sumSquares, Fusion.swap]

theorem diag_swap (fu : Fusion) (x y : F64) :
    size.diag fu ⟨y, x⟩ = size.diag fu.swap ⟨x, y⟩ := by
  show F64.sqrt (sumSquares fu y x) = F64.sqrt (sumSquares fu.swap x y)
  rw [sumSquares_swap]

/-- The diagonal of the 35mm format does not depend on the fusion. -/
theorem diag_35mm_swap (fu : Fusion) :
    (formatIndex "35mm").diag fu = (formatIndex "35mm").diag fu.swap := by
  cases fu <;> decide

theorem circleOfConfusion_swap (fu : Fusion) (x y : F64) :
    size.circleOfConfusion fu ⟨y, x⟩ = size.circleOfConfusion fu.swap ⟨x, y⟩ := by
  simp only [size.circleOfConfusion]
  rw [diag_swap, diag_35mm_swap]

theorem depthOfField_swap (fu : Fusion) (x y f N d : F64) :
    size.depthOfField fu ⟨y, x⟩ f N d = size.depthOfField fu.swap ⟨x, y⟩ f N d := by
  simp only [size.depthOfField]
  rw [circleOfConfusion_swap]

/-- The depth of field does not decrease when the diagonal grows, for a
positive aperture and results that are not NaN. -/
theorem depthOfField_mono_diag {fu : Fusion} (s1 s2 : size) (f N d : F64)
    (hN : F64.lt F64.zero N = true) (hd : F64.le (s1.diag fu) (s2.diag fu) = true)
    (h1 : s1.depthOfField fu f N d ≠ F64.nan) (h2 : s2.depthOfField fu f N d ≠ F64.nan) :
    F64.le (s1.depthOfField fu f N d) (s2.depthOfField fu f N d) = true := by
  have hb : (F64.div (F64.ofRat 25 1000) ((formatIndex "35mm").diag fu)).nonneg = true := by
    cases fu <;> decide
  unfold size.depthOfField at h1 h2 ⊢
  have a1 := F64.div_ne_nan_left h1
  have a2 := F64.div_ne_nan_left h2
  have b1 := F64.div_ne_nan_right h1
  have c1 := F64.mul_ne_nan_right a1
  have c2 := F64.mul_ne_nan_right a2
  have z1 := F64.mul_ne_nan_left a1
  have y1 := F64.mul_ne_nan_left z1
  have x1 := F64.mul_ne_nan_right y1
  have n2 : (F64.ofRat 2 1).nonneg = true := F64.roundRat_nonneg _ _
  have nz := F64.mul_nonneg (F64.mul_nonneg n2 (F64.mul_self_nonneg d x1) y1)
    (F64.nonneg_of_lt_zero hN) z1
  have nb := F64.mul_self_nonneg f b1
  have nc1 := circleOfConfusion_nonneg s1 c1
  have nc2 := circleOfConfusion_nonneg s2 c2
  have lc : F64.le (s1.circleOfConfusion fu) (s2.circleOfConfusion fu) = true :=
    F64.mul_le_mul (diag_nonneg s1 (F64.mul_ne_nan_left c1)) hb
      (diag_nonneg s2 (F64.mul_ne_nan_left c2)) hb hd (F64.le_refl_of_nonneg hb) c1 c2
  exact F64.div_le_div (F64.mul_nonneg nz nc1 a1) nb (F64.mul_nonneg nz nc2 a2) nb
    (F64.mul_le_mul nz nc1 nz nc2 (F64.le_refl_of_nonneg nz) lc a1 a2)
    (F64.le_refl_of_nonneg nb) h1 h2

theorem F64.ne_nan_of_normal {x : F64} (h : x.normal = true) : x ≠ F64.nan := by
  intro e
  rw [e] at h
  simp [F64.normal] at h

/-- In the normal range the depth of field is within seven roundings of the
exact formula taken at the exact product of the diagonal and the basis. -/
theorem depthOfField_close_diag (fu : Fusion) (s : size) {f N d : F64}
    (hf : F64.lt F64.zero f = true) (hd : F64.lt F64.zero d = true)
    (hr : s.regular fu f N d = true) :
    Close 7 (s.depthOfField fu f N d).val
        (dofExact d.val N.val ((s.diag fu).val * (cocBasis fu).val) f.val)
      ∧ 0 < dofExact d.val N.val ((s.diag fu).val * (cocBasis fu).val) f.val
      ∧ 0 ≤ (s.diag fu).val ∧ 0 ≤ (cocBasis fu).val
      ∧ 0 ≤ N.val ∧ 0 < d.val ∧ 0 < f.val
      ∧ (s.depthOfField fu f N d).normal = true := by
  simp only [size.regular, Bool.and_eq_true] at hr
  obtain ⟨hc, hr⟩ := hr
  obtain ⟨c6, p, vN, vc, vd, vf, n⟩ := depthOfField_close fu s hf hd hr
  have hc' : (F64.mul (s.diag fu) (cocBasis fu)).normal = true := hc
  have hg : (s.diag fu).nonneg = true :=
    diag_nonneg s (F64.mul_ne_nan_left (F64.ne_nan_of_normal hc'))
  obtain ⟨hb, cc⟩ := F64.mul_close hg hc'
  have cc' : Close 1 (s.circleOfConfusion fu).val ((s.diag fu).val * (cocBasis fu).val) := cc
  have vg := F64.val_nonneg hg
  have vb := F64.val_nonneg hb
  have e : ∀ c : ℚ, dofExact d.val N.val c f.val = 2 * d.val ^ 2 * N.val / f.val ^ 2 * c := by
    intro c
    unfold dofExact
    ring
  have hK : 0 ≤ 2 * d.val ^ 2 * N.val / f.val ^ 2 := by positivity
  have c1 : Close (0 + 1) (dofExact d.val N.val (s.circleOfConfusion fu).val f.val)
      (dofExact d.val N.val ((s.diag fu).val * (cocBasis fu).val) f.val) := by
    rw [e, e]
    exact Close.mul hK hK vc (mul_nonneg vg vb) (Close.refl _) cc'
  have c7 : Close 7 (s.depthOfField fu f N d).val
      (dofExact d.val N.val ((s.diag fu).val * (cocBasis fu).val) f.val) :=
    Close.trans c6 c1
  exact ⟨c7, Close.pos p c1, vg, vb, vN, vd, vf, n⟩

/-- The exact formula scales with the circle of confusion. -/
theorem dofExact_cross (d N f g1 g2 b : ℚ) :
    dofExact d N (g1 * b) f * g2 = dofExact d N (g2 * b) f * g1 := by
  unfold dofExact
  ring

/-- In the normal range the depth of field scales with the diagonal up to
fourteen roundings. -/
theorem depthOfField_cross_close (fu : Fusion) (s1 s2 : size) {f N d : F64}
    (hf : F64.lt F64.zero f = true) (hd : F64.lt F64.zero d = true)
    (hr1 : s1.regular fu f N d = true) (hr2 : s2.regular fu f N d = true) :
    Close 14 ((s1.depthOfField fu f N d).val * (s2.diag fu).val)
        ((s2.depthOfField fu f N d).val * (s1.diag fu).val)
      ∧ 0 ≤ (s1.depthOfField fu f N d).val * (s2.diag fu).val
      ∧ 0 ≤ (s2.depthOfField fu f N d).val * (s1.diag fu).val := by
  obtain ⟨c1, p1, g1, -, -, -, -, n1⟩ := depthOfField_close_diag fu s1 hf hd hr1
  obtain ⟨c2, p2, g2, -, -, -, -, n2⟩ := depthOfField_close_diag fu s2 hf hd hr2
  have v1 := le_of_lt (F64.val_pos_of_normal n1)
  have v2 := le_of_lt (F64.val_pos_of_normal n2)
  have a1 : Close (7 + 0) ((s1.depthOfField fu f N d).val * (s2.diag fu).val)
      (dofExact d.val N.val ((s1.diag fu).val * (cocBasis fu).val) f.val * (s2.diag fu).val) :=
    Close.mul v1 (le_of_lt p1) g2 g2 c1 (Close.refl _)
  have a2 : Close (7 + 0) ((s2.depthOfField fu f N d).val * (s1.diag fu).val)
      (dofExact d.val N.val ((s2.diag fu).val * (cocBasis fu).val) f.val * (s1.diag fu).val) :=
    Close.mul v2 (le_of_lt p2) g1 g1 c2 (Close.refl _)
  rw [dofExact_cross] at a1
  exact ⟨Close.trans a1 a2.symm, mul_nonneg v1 g2, mul_nonneg v2 g1⟩

/-- The diagonal of every table format lies between `2 ^ (-80)` and `2 ^ 80`. -/
theorem diag_table_range (fu : Fusion) :
    ∀ kv ∈ format, 1 / 2 ^ 80 ≤ (kv.2.diag fu).val ∧ (kv.2.diag fu).val ≤ 2 ^ 80 := by
  have e : ∀ kv ∈ format, kv.2.diag fu = kv.2.diag Fusion.separate := by
    cases fu <;> decide
  intro kv hkv
  rw [e kv hkv]
  simp only [format, List.mem_cons, List.mem_singleton, List.not_mem_nil, or_false] at hkv
  rcases hkv with rfl | rfl | rfl | rfl | rfl
  · have v : size.diag Fusion.separate ⟨F64.ofRat 36 1, F64.ofRat 24 1⟩
        = F64.fin false 6089234767741815 1027 := by decide
    rw [v, F64.val_fin]
    constructor <;> norm_num
  · have v : size.diag Fusion.separate ⟨F64.ofRat 225 10, F64.ofRat 15 1⟩
        = F64.fin false 7611543459677268 1026 := by decide
    rw [v, F64.val_fin]
    constructor <;> norm_num
  · have v : size.diag Fusion.separate ⟨F64.ofRat 236 10, F64.ofRat 156 10⟩
        = F64.fin false 7962906694380893 1026 := by decide
    rw [v, F64.val_fin]
    constructor <;> norm_num
  · have v : size.diag Fusion.separate ⟨F64.ofRat 24 1, F64.ofRat 16 1⟩
        = F64.fin false 8118979690322419 1026 := by decide
    rw [v, F64.val_fin]
    constructor <;> norm_num
  · have v : size.diag Fusion.separate ⟨F64.ofRat 18 1, F64.ofRat 135 10⟩
        = F64.fin false 6333186975989760 1026 := by decide
    rw [v, F64.val_fin]
    constructor <;> norm_num

/-- C19, as stated, fails: for the formats 35mm and m43, focal length 35,
aperture 4 and focus distance 5000, the two products
`depthOfField(s1) * diag(s2)` and `depthOfField(s2) * diag(s1)` differ, however
the sum of squares is evaluated; and where the first product of the sum of
squares is fused into the addition, the size `35.8 x 23.9` and its width/height
swap differ in diagonal, circle of confusion and depth of field. -/
theorem scaling_identity_ne :
    (∀ fu : Fusion,
      F64.mul
          (size.depthOfField fu ⟨F64.ofRat 36 1, F64.ofRat 24 1⟩ (F64.ofRat 35 1)
            (F64.ofRat 4 1) (F64.ofRat 5000 1))
          (size.diag fu ⟨F64.ofRat 18 1, F64.ofRat 135 10⟩)
        ≠ F64.mul
          (size.depthOfField fu ⟨F64.ofRat 18 1, F64.ofRat 135 10⟩ (F64.ofRat 35 1)
            (F64.ofRat 4 1) (F64.ofRat 5000 1))
          (size.diag fu ⟨F64.ofRat 36 1, F64.ofRat 24 1⟩)
        ∧ F64.lt
            (F64.mul
              (size.depthOfField fu ⟨F64.ofRat 18 1, F64.ofRat 135 10⟩ (F64.ofRat 35 1)
                (F64.ofRat 4 1) (F64.ofRat 5000 1))
              (size.diag fu ⟨F64.ofRat 36 1, F64.ofRat 24 1⟩))
            (F64.mul
              (size.depthOfField fu ⟨F64.ofRat 36 1, F64.ofRat 24 1⟩ (F64.ofRat 35 1)
                (F64.ofRat 4 1) (F64.ofRat 5000 1))
              (size.diag fu ⟨F64.ofRat 18 1, F64.ofRat 135 10⟩)) = true)
      ∧ size.diag Fusion.fuseX ⟨F64.ofRat 239 10, F64.ofRat 358 10⟩
        ≠ size.diag Fusion.fuseX ⟨F64.ofRat 358 10, F64.ofRat 239 10⟩
      ∧ size.circleOfConfusion Fusion.fuseX ⟨F64.ofRat 239 10, F64.ofRat 358 10⟩
        ≠ size.circleOfConfusion Fusion.fuseX ⟨F64.ofRat 358 10, F64.ofRat 239 10⟩
      ∧ size.depthOfField Fusion.fuseX ⟨F64.ofRat 239 10, F64.ofRat 358 10⟩ (F64.ofRat 35 1)
          (F64.ofRat 4 1) (F64.ofRat 5000 1)
        ≠ size.depthOfField Fusion.fuseX ⟨F64.ofRat 358 10, F64.ofRat 239 10⟩ (F64.ofRat 35 1)
          (F64.ofRat 4 1) (F64.ofRat 5000 1) := by
  refine ⟨fun fu => ?_, by decide, by decide, by decide⟩
  cases fu <;> decide

/-- C19, amended: the depth of field depends on the size through its diagonal
only, and scales with it up to rounding.  Two sizes with equal diagonals give
equal circle of confusion and equal depth of field for every focal length,
aperture and focus distance.  Exchanging width and height exchanges which
product of the sum of squares is fused, so a size and its width/height swap
have equal diagonals, circles of confusion and depths of field where nothing is
fused.  For a positive aperture the depth of field does not decrease when the
diagonal grows, whenever the results are not NaN.  For positive focal length,
aperture and focus distance, when both computations run in the normal range:
the exact products `depthOfField(s1) × diag(s2)` and
`depthOfField(s2) × diag(s1)` differ by at most the fraction `2^-49` of the
second; the two floating-point products, when normal, differ by at most the
fraction `2^-48`; and the depth of field grows strictly when the diagonal grows
by the factor `1 + 2^-49` or more.  Both computations and both products run in
the normal range whenever the two diagonals lie between `2^-80` and `2^80` and
focal length, aperture and focus distance between `2^-100` and `2^100`; the
diagonal of every table format does. -/
theorem depthOfField_by_diag (fu : Fusion) (s1 s2 : size) (f N d : F64)
    (hf : F64.lt F64.zero f = true) (hN : F64.lt F64.zero N = true)
    (hd : F64.lt F64.zero d = true) :
    (s1.diag fu = s2.diag fu →
        s1.circleOfConfusion fu = s2.circleOfConfusion fu
          ∧ ∀ f N d, s1.depthOfField fu f N d = s2.depthOfField fu f N d)
      ∧ (size.diag fu ⟨s1.y, s1.x⟩ = s1.diag fu.swap
          ∧ size.circleOfConfusion fu ⟨s1.y, s1.x⟩ = s1.circleOfConfusion fu.swap
          ∧ ∀ f N d, size.depthOfField fu ⟨s1.y, s1.x⟩ f N d
              = s1.depthOfField fu.swap f N d)
      ∧ (size.diag Fusion.separate ⟨s1.y, s1.x⟩ = s1.diag Fusion.separate
          ∧ size.circleOfConfusion Fusion.separate ⟨s1.y, s1.x⟩
              = s1.circleOfConfusion Fusion.separate
          ∧ ∀ f N d, size.depthOfField Fusion.separate ⟨s1.y, s1.x⟩ f N d
              = s1.depthOfField Fusion.separate f N d)
      ∧ (F64.le (s1.diag fu) (s2.diag fu) = true →
          s1.depthOfField fu f N d ≠ F64.nan → s2.depthOfField fu f N d ≠ F64.nan →
          F64.le (s1.depthOfField fu f N d) (s2.depthOfField fu f N d) = true)
      ∧ (s1.regular fu f N d = true → s2.regular fu f N d = true →
          |(s1.depthOfField fu f N d).val * (s2.diag fu).val
              - (s2.depthOfField fu f N d).val * (s1.diag fu).val|
            ≤ (s2.depthOfField fu f N d).val * (s1.diag fu).val * (1 / 2 ^ 49))
      ∧ (s1.regular fu f N d = true → s2.regular fu f N d = true →
          (F64.mul (s1.depthOfField fu f N d) (s2.diag fu)).normal = true →
          (F64.mul (s2.depthOfField fu f N d) (s1.diag fu)).normal = true →
          |(F64.mul (s1.depthOfField fu f N d) (s2.diag fu)).val
              - (F64.mul (s2.depthOfField fu f N d) (s1.diag fu)).val|
            ≤ (F64.mul (s2.depthOfField fu f N d) (s1.diag fu)).val * (1 / 2 ^ 48))
      ∧ (s1.regular fu f N d = true → s2.regular fu f N d = true →
          (s1.diag fu).val * (1 + 1 / 2 ^ 49) ≤ (s2.diag fu).val →
          F64.lt (s1.depthOfField fu f N d) (s2.depthOfField fu f N d) = true)
      ∧ (1 / 2 ^ 80 ≤ (s1.diag fu).val ∧ (s1.diag fu).val ≤ 2 ^ 80 →
          1 / 2 ^ 80 ≤ (s2.diag fu).val ∧ (s2.diag fu).val ≤ 2 ^ 80 →
          f.moderate → N.moderate → d.moderate →
          s1.regular fu f N d = true ∧ s2.regular fu f N d = true
            ∧ (F64.mul (s1.depthOfField fu f N d) (s2.diag fu)).normal = true
            ∧ (F64.mul (s2.depthOfField fu f N d) (s1.diag fu)).normal = true)
      ∧ (∀ kv ∈ format,
          1 / 2 ^ 80 ≤ (kv.2.diag fu).val ∧ (kv.2.diag fu).val ≤ 2 ^ 80) := by
  have hc : ∀ a b : size, a.diag fu = b.diag fu →
      a.circleOfConfusion fu = b.circleOfConfusion fu := by
    intro a b h
    simp only [size.circleOfConfusion, h]
  have hdof : ∀ a b : size, a.diag fu = b.diag fu →
      ∀ f N d, a.depthOfField fu f N d = b.depthOfField fu f N d := by
    intro a b h f N d
    simp only [size.depthOfField, hc a b h]
  refine ⟨fun h => ⟨hc s1 s2 h, hdof s1 s2 h⟩,
    ⟨diag_swap fu s1.x s1.y, circleOfConfusion_swap fu s1.x s1.y,
      fun f N d => depthOfField_swap fu s1.x s1.y f N d⟩,
    ⟨diag_swap Fusion.separate s1.x s1.y, circleOfConfusion_swap Fusion.separate s1.x s1.y,
      fun f N d => depthOfField_swap Fusion.separate s1.x s1.y f N d⟩,
    fun hle h1 h2 => depthOfField_mono_diag s1 s2 f N d hN hle h1 h2,
    fun hr1 hr2 => ?_, fun hr1 hr2 hn1 hn2 => ?_, fun hr1 hr2 hs => ?_,
    fun g1 g2 mf mN md =>
      ⟨(regular_of_moderate fu s1 s2 g1 g2 mf mN md).1,
        (regular_of_moderate fu s2 s1 g2 g1 mf mN md).1,
        (regular_of_moderate fu s1 s2 g1 g2 mf mN md).2,
        (regular_of_moderate fu s2 s1 g2 g1 mf mN md).2⟩,
    diag_table_range fu⟩
  · obtain ⟨c, p1, p2⟩ := depthOfField_cross_close fu s1 s2 hf hd hr1 hr2
    exact Close.abs_sub_le p1 p2 c F64.step_pow_fourteen.1 F64.step_pow_fourteen.2.1
      (by norm_num)
  · obtain ⟨c, p1, p2⟩ := depthOfField_cross_close fu s1 s2 hf hd hr1 hr2
    obtain ⟨-, -, -, -, -, -, -, n1⟩ := depthOfField_close_diag fu s1 hf hd hr1
    obtain ⟨-, -, -, -, -, -, -, n2⟩ := depthOfField_close_diag fu s2 hf hd hr2
    obtain ⟨-, m1⟩ := F64.mul_close (F64.normal_nonneg n1) hn1
    obtain ⟨-, m2⟩ := F64.mul_close (F64.normal_nonneg n2) hn2
    have c16 : Close 16 (F64.mul (s1.depthOfField fu f N d) (s2.diag fu)).val
        (F64.mul (s2.depthOfField fu f N d) (s1.diag fu)).val :=
      Close.trans (Close.trans m1 c) m2.symm
    exact Close.abs_sub_le (le_of_lt (F64.val_pos_of_normal hn1))
      (le_of_lt (F64.val_pos_of_normal hn2)) c16 F64.step_pow_sixteen.1
      F64.step_pow_sixteen.2 (by norm_num)
  · obtain ⟨c1, p1, g1, vb, vN, vd, vf, n1⟩ := depthOfField_close_diag fu s1 hf hd hr1
    obtain ⟨c2, -, -, -, -, -, -, n2⟩ := depthOfField_close_diag fu s2 hf hd hr2
    have e : ∀ g : ℚ, dofExact d.val N.val (g * (cocBasis fu).val) f.val
        = 2 * d.val ^ 2 * N.val * (cocBasis fu).val / f.val ^ 2 * g := by
      intro g
      unfold dofExact
      ring
    have hK : 0 ≤ 2 * d.val ^ 2 * N.val * (cocBasis fu).val / f.val ^ 2 := by positivity
    have hs' : dofExact d.val N.val ((s1.diag fu).val * (cocBasis fu).val) f.val
          * (1 + 1 / 2 ^ 49)
        ≤ dofExact d.val N.val ((s2.diag fu).val * (cocBasis fu).val) f.val := by
      rw [e, e, mul_assoc]
      exact mul_le_mul_of_nonneg_left hs hK
    exact F64.lt_of_val_lt n1 n2
      (Close.lt_of_separated p1 c1 c2 hs' F64.step_pow_fourteen.2.2)

/-- Witness for C19: the formats m43 and 35mm at focal length 35, aperture 4
and focus distance 5000, nothing fused: both computations run in the normal
range, the two floating-point products agree up to the fraction `2^-48`, and
the larger diagonal gives the strictly larger depth of field. -/
theorem depthOfField_by_diag_witness :
    size.regular Fusion.separate ⟨F64.ofRat 18 1, F64.ofRat 135 10⟩ (F64.ofRat 35 1)
        (F64.ofRat 4 1) (F64.ofRat 5000 1) = true
      ∧ size.regular Fusion.separate ⟨F64.ofRat 36 1, F64.ofRat 24 1⟩ (F64.ofRat 35 1)
        (F64.ofRat 4 1) (F64.ofRat 5000 1) = true
      ∧ |(F64.mul
            (size.depthOfField Fusion.separate ⟨F64.ofRat 18 1, F64.ofRat 135 10⟩
              (F64.ofRat 35 1) (F64.ofRat 4 1) (F64.ofRat 5000 1))
            (size.diag Fusion.separate ⟨F64.ofRat 36 1, F64.ofRat 24 1⟩)).val
          - (F64.mul
            (size.depthOfField Fusion.separate ⟨F64.ofRat 36 1, F64.ofRat 24 1⟩
              (F64.ofRat 35 1) (F64.ofRat 4 1) (F64.ofRat 5000 1))
            (size.diag Fusion.separate ⟨F64.ofRat 18 1, F64.ofRat 135 10⟩)).val|
        ≤ (F64.mul
            (size.depthOfField Fusion.separate ⟨F64.ofRat 36 1, F64.ofRat 24 1⟩
              (F64.ofRat 35 1) (F64.ofRat 4 1) (F64.ofRat 5000 1))
            (size.diag Fusion.separate ⟨F64.ofRat 18 1, F64.ofRat 135 10⟩)).val * (1 / 2 ^ 48)
      ∧ F64.lt
          (size.depthOfField Fusion.separate ⟨F64.ofRat 18 1, F64.ofRat 135 10⟩
            (F64.ofRat 35 1) (F64.ofRat 4 1) (F64.ofRat 5000 1))
          (size.depthOfField Fusion.separate ⟨F64.ofRat 36 1, F64.ofRat 24 1⟩
            (F64.ofRat 35 1) (F64.ofRat 4 1) (F64.ofRat 5000 1)) = true :=
  have h := depthOfField_by_diag Fusion.separate ⟨F64.ofRat 18 1, F64.ofRat 135 10⟩
    ⟨F64.ofRat 36 1, F64.ofRat 24 1⟩ (F64.ofRat 35 1) (F64.ofRat 4 1) (F64.ofRat 5000 1)
    (by decide) (by decide) (by decide)
  ⟨by decide, by decide,
    h.2.2.2.2.2.1 (by decide) (by decide) (by decide) (by decide),
    h.2.2.2.2.2.2.1 (by decide) (by decide) (by
      have e1 : size.diag Fusion.separate ⟨F64.ofRat 18 1, F64.ofRat 135 10⟩
          = F64.fin false 6333186975989760 1026 := by decide
      have e2 : size.diag Fusion.separate ⟨F64.ofRat 36 1, F64.ofRat 24 1⟩
          = F64.fin false 6089234767741815 1027 := by decide
      rw [e1, e2, F64.val_fin, F64.val_fin]
      norm_num)⟩

end Dof
